import Mathlib

/-!
Verification of the title-reconciliation and sync engine of the
plex-jellyfin CLI.  The Python functions of `src/cli.py` (and, where a
claim needs them, the helpers of `src/lib/jellyfin_api.py`) are embedded
as executable Lean definitions over `List Char` / `String`, catalog
state records, and explicit event lists; the theorems below settle the
frozen claims about them.
-/

namespace PlexJf

/-! ## Character classes (ASCII model of Python's `\s`, `\d`, `\w`) -/

/-- Python's `\s` class (and `str.strip`'s default), restricted to the
ASCII whitespace characters. -/
def isPySpace (c : Char) : Bool :=
  c = ' ' || c = '\t' || c = '\n' || c = '\r' || c = '\x0b' || c = '\x0c'

/-- Python `str.lower()` on the ASCII range: lowercase every character. -/
def strLower (s : String) : String := ⟨s.data.map Char.toLower⟩

/-! ## `normalize_title` (src/cli.py lines 152-159)

Each `re.sub` pass is embedded as a left-to-right scan that deletes or
replaces one match and resumes after it, exactly as `re.sub` does.  The
scans are written with an explicit fuel argument (instantiated with the
list length) so that recursion is structural and the kernel can evaluate
them; fuel `0` is unreachable because every match consumes at least one
character. -/

/-- One attempted match of `\s*\(\d{4}\)` at the head of the list:
greedy run of whitespace, then a parenthesized 4-digit year.  Returns
the remainder after the match.  Backtracking over the greedy `\s*`
cannot produce a match this function misses: a shorter whitespace run
still faces a whitespace character, never `(`. -/
def yearMatchAt (l : List Char) : Option (List Char) :=
  match l.dropWhile isPySpace with
  | '(' :: d1 :: d2 :: d3 :: d4 :: ')' :: rest =>
    if d1.isDigit && d2.isDigit && d3.isDigit && d4.isDigit then some rest else none
  | _ => none

/-- `re.sub(r"\s*\(\d{4}\)", "", ·)`: left-to-right scan deleting each
match. -/
def subYearF : Nat → List Char → List Char
  | 0, l => l
  | fuel + 1, l =>
    match l with
    | [] => []
    | c :: cs =>
      match yearMatchAt (c :: cs) with
      | some rest => subYearF fuel rest
      | none => c :: subYearF fuel cs

/-- The trailing `\s+` of the joiner pattern: require at least one
whitespace character, consume the maximal run, and return the
remainder. -/
def wsTail (ds : List Char) : Option (List Char) :=
  match ds with
  | [] => none
  | c2 :: _ => if isPySpace c2 then some (ds.dropWhile isPySpace) else none

/-- The continuation of the `and` alternative after its leading `a`:
require `n`, `d`, then the trailing `\s+`. -/
def andWordTail : List Char → Option (List Char)
  | d2 :: d3 :: ds3 => if d2 = 'n' ∧ d3 = 'd' then wsTail ds3 else none
  | _ => none

/-- One attempted match of `\s+(&|and)\s+` at the head of the list:
greedy leading whitespace (at least one), then `&` or `and`, then greedy
trailing whitespace (at least one).  Returns the remainder after the
match.  The two alternatives start with different characters, so regex
backtracking between them cannot add matches. -/
def andMatchAt (l : List Char) : Option (List Char) :=
  match l with
  | [] => none
  | c :: _ =>
    if isPySpace c then
      match l.dropWhile isPySpace with
      | [] => none
      | d :: ds =>
        if d = '&' then wsTail ds
        else if d = 'a' then andWordTail ds
        else none
    else none

/-- `re.sub(r"\s+(&|and)\s+", " and ", ·)`: left-to-right scan replacing
each match with the canonical token; the replacement is not rescanned. -/
def subAndF : Nat → List Char → List Char
  | 0, l => l
  | fuel + 1, l =>
    match l with
    | [] => []
    | c :: cs =>
      match andMatchAt (c :: cs) with
      | some rest => ' ' :: 'a' :: 'n' :: 'd' :: ' ' :: subAndF fuel rest
      | none => c :: subAndF fuel cs

/-- Python `str.strip()`: drop leading and trailing whitespace. -/
def pyStrip (l : List Char) : List Char :=
  ((l.dropWhile isPySpace).reverse.dropWhile isPySpace).reverse

/-- The `normalize_title` pipeline up to, but excluding, the final
`strip`: delete `\s*\(\d{4}\)` matches, lowercase, canonicalize
`&`/`and` joiners to `" and "`, and delete every character matching
`[\W_]` (keeping exactly the alphanumerics). -/
def normalizePreStrip (l : List Char) : List Char :=
  let step1 := subYearF l.length l
  let step2 := step1.map Char.toLower
  let step3 := subAndF step2.length step2
  step3.filter Char.isAlphanum

/-- `normalize_title` of src/cli.py on the underlying character list:
the pre-strip pipeline followed by `str.strip()`. -/
def normalizeChars (l : List Char) : List Char :=
  pyStrip (normalizePreStrip l)

/-- `normalize_title` from src/cli.py. -/
def normalize_title (s : String) : String := ⟨normalizeChars s.data⟩


/-! ## Fuzzy similarity (rapidfuzz `fuzz.token_sort_ratio`) -/

/-- Longest common subsequence length, fuel-indexed for structural
recursion; fuel `a.length + b.length` is always sufficient. -/
def lcsF : Nat → List Char → List Char → Nat
  | 0, _, _ => 0
  | _ + 1, [], _ => 0
  | _ + 1, _ :: _, [] => 0
  | fuel + 1, a :: as, b :: bs =>
    if a = b then lcsF fuel as bs + 1
    else max (lcsF fuel (a :: as) bs) (lcsF fuel as (b :: bs))

/-- Longest common subsequence length of two character lists. -/
def lcs (a b : List Char) : Nat := lcsF (a.length + b.length) a b

/-- Lexicographic (code-point) strict order on character lists, as used
by Python's `sorted` on strings. -/
def lexLt : List Char → List Char → Bool
  | [], [] => false
  | [], _ :: _ => true
  | _ :: _, [] => false
  | a :: as, b :: bs => if a < b then true else if b < a then false else lexLt as bs

/-- Insert a token into a sorted token list. -/
def insertTok (x : List Char) : List (List Char) → List (List Char)
  | [] => [x]
  | y :: ys => if lexLt x y then x :: y :: ys else y :: insertTok x ys

/-- Sort tokens lexicographically (insertion sort; Python's `sorted`). -/
def sortToks : List (List Char) → List (List Char)
  | [] => []
  | x :: xs => insertTok x (sortToks xs)

/-- `str.split()`: split on whitespace runs, discarding empty tokens. -/
def splitWsAux : List Char → List Char → List (List Char)
  | [], acc => if acc.isEmpty then [] else [acc.reverse]
  | c :: cs, acc =>
    if isPySpace c then
      if acc.isEmpty then splitWsAux cs [] else acc.reverse :: splitWsAux cs []
    else splitWsAux cs (c :: acc)

/-- `str.split()` on a character list. -/
def splitWs (l : List Char) : List (List Char) := splitWsAux l []

/-- `" ".join(toks)`. -/
def joinTok : List (List Char) → List Char
  | [] => []
  | [t] => t
  | t :: ts => t ++ ' ' :: joinTok ts

/-- `" ".join(sorted(s.split()))` — the token-sort preprocessing step of
rapidfuzz's `token_sort_ratio`. -/
def tokenSort (l : List Char) : List Char := joinTok (sortToks (splitWs l))

/-- `fuzz.token_sort_ratio(a, b) >= t`, decided exactly.  The rapidfuzz
score is the normalized InDel similarity `200*lcs(a',b')/(|a'|+|b'|)` of
the token-sorted strings (`100.0` when both are empty), so comparing the
float score against an integer threshold in `[0,100]` is equivalent to
the integer inequality below. -/
def tokenSortRatioGe (a b : List Char) (t : Nat) : Bool :=
  let a' := tokenSort a
  let b' := tokenSort b
  t * (a'.length + b'.length) ≤ 200 * lcs a' b'

/-! ## `find_best_match` (src/cli.py lines 162-181) -/

/-- The year acceptance test inside the exact-normalized branch of
`find_best_match` (src/cli.py lines 168-177): with a truthy `year` and a
truthy `candidate_years` (`None`, `0` and `[]` are falsy in Python),
accept when the candidate year's string form equals the query year's, or
when the candidate year is falsy (wildcard); with either parameter
falsy, accept unconditionally.  `candidate_years` is indexed at the
candidate's position; callers pass a list parallel to `candidates`. -/
def acceptExact (year : Option Nat) (candidate_years : Option (List (Option Nat)))
    (idx : Nat) : Bool :=
  match year, candidate_years with
  | some y, some l =>
    if y != 0 && !l.isEmpty then
      match l.getD idx none with
      | none => true
      | some c => c == 0 || toString c == toString y
    else true
  | _, _ => true

/-- The candidate scan of `find_best_match`: first acceptable candidate
wins; an exact-normalized match whose year test fails falls through to
the fuzzy test on the same candidate. -/
def find_best_match_aux (normTitle : String) (threshold : Nat) (year : Option Nat)
    (candidate_years : Option (List (Option Nat))) : Nat → List String → Option String
  | _, [] => none
  | idx, candidate :: rest =>
    let normCandidate := normalize_title candidate
    if normTitle == normCandidate && acceptExact year candidate_years idx then some candidate
    else if tokenSortRatioGe normTitle.data normCandidate.data threshold then some candidate
    else find_best_match_aux normTitle threshold year candidate_years (idx + 1) rest

/-- `find_best_match` from src/cli.py. -/
def find_best_match (title : String) (candidates : List String) (threshold : Nat := 85)
    (year : Option Nat := none) (candidate_years : Option (List (Option Nat)) := none) :
    Option String :=
  find_best_match_aux (normalize_title title) threshold year candidate_years 0 candidates


/-! ## `compare_titles` core (src/cli.py lines 246-272) -/

/-- Python `dict` insertion: an existing key keeps its position and
receives the new value; a new key is appended at the end. -/
def dictInsert (k v : String) : List (String × String) → List (String × String)
  | [] => [(k, v)]
  | (k', v') :: rest => if k' = k then (k', v) :: rest else (k', v') :: dictInsert k v rest

/-- `{normalize_title(t): t for t in titles}`: normalized title mapped to
the last-seen original, keys in first-insertion order. -/
def normDict (titles : List String) : List (String × String) :=
  titles.foldl (fun d t => dictInsert (normalize_title t) t d) []

/-- The keys of a dict, in order. -/
def dictKeys (d : List (String × String)) : List String := d.map Prod.fst

/-- Insert a string into a sorted list (code-point order). -/
def insertStr (x : String) : List String → List String
  | [] => [x]
  | y :: ys => if lexLt x.data y.data then x :: y :: ys else y :: insertStr x ys

/-- Python `sorted` on a list of strings. -/
def sortStrs : List String → List String
  | [] => []
  | x :: xs => insertStr x (sortStrs xs)

/-- The per-entry missing test of `compare_titles`: with `fuzzy`, a
source entry is missing when `find_best_match` (fed the original title,
all target titles, the source year at the entry's enumeration index and
all target years) returns `None`; without `fuzzy`, when its normalized
title is not a key of the normalized target dict. -/
def missingTest (tts : List String) (tys sys : List (Option Nat))
    (ntgtKeys : List String) (fuzzy : Bool) (threshold : Nat)
    (idx : Nat) (normT origT : String) : Bool :=
  if fuzzy then
    (find_best_match origT tts threshold (sys.getD idx none) (some tys)).isNone
  else !(ntgtKeys.contains normT)

/-- The missing-collection loop of `compare_titles`, iterating over the
entries of the normalized source dict with their enumeration index. -/
def compareMissingAux (tts : List String) (tys sys : List (Option Nat))
    (ntgtKeys : List String) (fuzzy : Bool) (threshold : Nat) :
    Nat → List (String × String) → List String
  | _, [] => []
  | idx, (normT, origT) :: rest =>
    let tail := compareMissingAux tts tys sys ntgtKeys fuzzy threshold (idx + 1) rest
    if missingTest tts tys sys ntgtKeys fuzzy threshold idx normT origT then
      origT :: tail
    else tail

/-- The missing-title computation and report of `compare_titles`
(src/cli.py lines 246-272): build the normalized source and target
dicts, collect the source entries without a match in the target, and
report them sorted. -/
def compare_titles_core (source_titles target_titles : List String)
    (source_years target_years : List (Option Nat)) (fuzzy : Bool) (threshold : Nat) :
    List String :=
  sortStrs (compareMissingAux target_titles target_years source_years
    (dictKeys (normDict target_titles)) fuzzy threshold 0 (normDict source_titles))


/-! ## Catalog data model for the Sync Engine (src/cli.py `main`, lines 614-726)

Catalog items carry exactly the fields the sync code reads or writes.
Timestamps are seconds; identifiers are the catalog-native opaque ids
(`ratingKey` for Plex objects, `Id` for Jellyfin items), through which
the write calls address their targets. -/

structure PlexMovie where
  id : String
  title : String
  played : Bool
  addedAt : Int
deriving DecidableEq

structure JfMovie where
  id : String
  name : String
  played : Bool
  dateCreated : Int
deriving DecidableEq

structure PlexEpisode where
  id : String
  title : String
  seasonNumber : Int
  index : Int
  played : Bool
deriving DecidableEq

structure PlexShow where
  id : String
  title : String
  episodes : List PlexEpisode
deriving DecidableEq

structure JfEpisode where
  id : String
  name : String
  seasonNumber : Int
  indexNumber : Int
  played : Bool
deriving DecidableEq

structure JfShow where
  id : String
  name : String
deriving DecidableEq

/-- The state of the two catalog servers.  `jfEpisodes` associates a
Jellyfin show id with that show's episode list. -/
structure Catalogs where
  plexMovies : List PlexMovie
  jfMovies : List JfMovie
  plexShows : List PlexShow
  jfShows : List JfShow
  jfEpisodes : List (String × List JfEpisode)
deriving DecidableEq

/-- One console report of a computed decision.  Constructors correspond
one-to-one to the decision `print`s of the sync code paths; the real and
dry-run variants of the same print (`Marked movie …` versus
`[DRYRUN] Would mark movie …`) share a constructor, since both report
the same computed decision. -/
inductive Decision where
  | unableToFindMovie (title : String)
  | checkingMovie (title : String)
  | updatingAddedAt (plexId : String)
  | remoteWatchedLocalNot (plexId : String)
  | localWatchedRemoteNot (title : String)
  | wouldMarkJfMoviePlayed (jfId : String)
  | unableToFindShow (title : String)
  | checkingShow (title : String)
  | epRemoteWatchedLocalNot (plexEpId : String) (epTitle : String)
  | epLocalWatchedRemoteNot (epTitle : String)
  | wouldMarkJfEpisodePlayed (jfEpId : String)
deriving DecidableEq

/-- One write call issued to a catalog collaborator. -/
inductive Mutation where
  | plexMarkMoviePlayed (id : String)
  | plexEditAddedAt (id : String) (newDate : Int)
  | jfMarkMoviePlayed (id : String)
  | plexMarkEpisodePlayed (id : String)
  | jfMarkEpisodePlayed (id : String)
deriving DecidableEq

/-- The trace of a run: decision reports interleaved with write calls. -/
inductive Event where
  | dec (d : Decision)
  | mut (m : Mutation)
deriving DecidableEq

/-- The decision reports of a trace. -/
def decisions (evs : List Event) : List Decision :=
  evs.filterMap fun e => match e with | .dec d => some d | .mut _ => none

/-- The write calls of a trace. -/
def mutations (evs : List Event) : List Mutation :=
  evs.filterMap fun e => match e with | .dec _ => none | .mut m => some m

/-! ## Catalog collaborator operations -/

/-- `jellyfin_get_movie_by_title` (src/cli.py lines 58-63): the first
movie whose `Name` equals the given title case-insensitively. -/
def jellyfin_get_movie_by_title (title : String) (jf : List JfMovie) : Option JfMovie :=
  jf.find? fun m => strLower m.name == strLower title

/-- The server-side effect of the `PlayedItems` POST for a movie. -/
def jfMarkMovie (id : String) (jf : List JfMovie) : List JfMovie :=
  jf.map fun m => if m.id == id then { m with played := true } else m

/-- `jellyfin_mark_movie_played` (src/cli.py lines 66-75): under dry-run,
report only; otherwise POST the write (modelled as succeeding with
status 204) and report. -/
def jellyfin_mark_movie_played (id : String) (dryrun : Bool) (jf : List JfMovie) :
    List JfMovie × List Event :=
  if dryrun then (jf, [.dec (.wouldMarkJfMoviePlayed id)])
  else (jfMarkMovie id jf, [.mut (.jfMarkMoviePlayed id), .dec (.wouldMarkJfMoviePlayed id)])

/-- Truncation of a timestamp (in seconds) to minute precision — the
`strftime`/`strptime` round trip through `"%Y-%m-%d %H:%M"`, and also
the `[:16]` cut of an ISO `DateCreated` string. -/
def truncMin (t : Int) : Int := t - t % 60

/-- `lib_movies.get(title=…)` (plexapi): the first movie whose title
equals the given title case-insensitively; `none` models the NotFound
exception raised when no such movie exists. -/
def plexGetMovie (title : String) (pm : List PlexMovie) : Option PlexMovie :=
  pm.find? fun m => strLower m.title == strLower title

/-- The write performed by `videoentry.edit` on the entry returned by
`lib_movies.get(title=…)`: update the first case-insensitive title
match. -/
def plexSetAddedAtFirst (title : String) (d : Int) : List PlexMovie → List PlexMovie
  | [] => []
  | m :: rest =>
    if strLower m.title == strLower title then { m with addedAt := d } :: rest
    else m :: plexSetAddedAtFirst title d rest

/-- `movie_update_addedat` (src/cli.py lines 127-141): fetch the entry by
title (`none` models the uncaught NotFound exception), truncate both its
`addedAt` and the argument date to minute precision, and when the two
differ by more than 12 hours (43200 s) in either direction report the
update and — unless dry-run — write the argument date back. -/
def movie_update_addedat (dryrun : Bool) (pm : List PlexMovie) (movietitle : String)
    (addedat_date : Int) : Option (List PlexMovie × List Event) :=
  match plexGetMovie movietitle pm with
  | none => none
  | some v =>
    if truncMin addedat_date < truncMin v.addedAt - 43200 ||
        truncMin v.addedAt + 43200 < truncMin addedat_date then
      if dryrun then some (pm, [.dec (.updatingAddedAt v.id)])
      else some (plexSetAddedAtFirst movietitle addedat_date pm,
        [.dec (.updatingAddedAt v.id), .mut (.plexEditAddedAt v.id addedat_date)])
    else some (pm, [])

/-- The server-side effect of `lmovie.markPlayed()` (addressed by the
movie's own id). -/
def plexMarkMovie (id : String) (pm : List PlexMovie) : List PlexMovie :=
  pm.map fun m => if m.id == id then { m with played := true } else m

/-- `jellyfin_get_tvshow_by_title` (src/cli.py lines 88-93). -/
def jellyfin_get_tvshow_by_title (title : String) (shows : List JfShow) : Option JfShow :=
  shows.find? fun s => strLower s.name == strLower title

/-- `jellyfin_get_episodes` (src/cli.py lines 96-103): the episodes
recorded under the given show id. -/
def jellyfin_get_episodes (showId : String) (eps : List (String × List JfEpisode)) :
    List JfEpisode :=
  ((eps.find? fun p => p.1 == showId).map Prod.snd).getD []

/-- The server-side effect of the `PlayedItems` POST for an episode. -/
def jfMarkEpisode (id : String) (eps : List (String × List JfEpisode)) :
    List (String × List JfEpisode) :=
  eps.map fun p =>
    (p.1, p.2.map fun e => if e.id == id then { e with played := true } else e)

/-- `jellyfin_mark_episode_played` (src/cli.py lines 106-115). -/
def jellyfin_mark_episode_played (id : String) (dryrun : Bool)
    (eps : List (String × List JfEpisode)) : List (String × List JfEpisode) × List Event :=
  if dryrun then (eps, [.dec (.wouldMarkJfEpisodePlayed id)])
  else (jfMarkEpisode id eps,
    [.mut (.jfMarkEpisodePlayed id), .dec (.wouldMarkJfEpisodePlayed id)])

/-- `lshow.episodes()` backed by the current Plex server state: the
episodes of the first show carrying the given identifier. -/
def plexGetEpisodes (showId : String) (shows : List PlexShow) : List PlexEpisode :=
  ((shows.find? fun s => s.id == showId).map PlexShow.episodes).getD []

/-- The server-side effect of `lepisode.markPlayed()`. -/
def plexMarkEpisode (id : String) (shows : List PlexShow) : List PlexShow :=
  shows.map fun s =>
    { s with episodes :=
        s.episodes.map fun e => if e.id == id then { e with played := true } else e }

/-- The episode pairing of both TV sync loops (src/cli.py lines 674-682
and 703-711): the first remote episode with the same `IndexNumber` and
`SeasonNumber` as the local episode; titles are not consulted. -/
def episodeMatch (lep : PlexEpisode) (reps : List JfEpisode) : Option JfEpisode :=
  reps.find? fun re => re.indexNumber == lep.index && re.seasonNumber == lep.seasonNumber

/-! ## The four sync runs

Each run iterates over a snapshot of the local library taken at the
start (`movies_list_all_titles` / `tv_list_all_shows`) while every
per-item catalog call re-reads the current, threaded server state, as
the HTTP-backed collaborators do. -/

/-- The `--sync jellyfin,plex movies` loop (src/cli.py lines 620-640).
`DateCreated[:16]` parses the remote creation time at minute precision.
An uncaught NotFound escape from `movie_update_addedat` aborts the rest
of the run, keeping the events printed so far. -/
def syncMoviesJfToPlexAux (dryrun : Bool) (jf : List JfMovie) :
    List PlexMovie → List PlexMovie → List PlexMovie × List Event
  | [], pm => (pm, [])
  | lm :: rest, pm =>
    match jellyfin_get_movie_by_title lm.title jf with
    | none =>
      let r := syncMoviesJfToPlexAux dryrun jf rest pm
      (r.1, .dec (.unableToFindMovie lm.title) :: r.2)
    | some rm =>
      match movie_update_addedat dryrun pm lm.title (truncMin rm.dateCreated) with
      | none => (pm, [.dec (.checkingMovie lm.title)])
      | some u =>
        let step : List PlexMovie × List Event :=
          if rm.played && !lm.played then
            if dryrun then (u.1, [.dec (.remoteWatchedLocalNot lm.id)])
            else (plexMarkMovie lm.id u.1,
              [.dec (.remoteWatchedLocalNot lm.id), .mut (.plexMarkMoviePlayed lm.id)])
          else (u.1, [])
        let r := syncMoviesJfToPlexAux dryrun jf rest step.1
        (r.1, .dec (.checkingMovie lm.title) :: (u.2 ++ step.2 ++ r.2))

/-- `--sync jellyfin,plex movies` on the catalog state. -/
def syncMoviesJfToPlex (dryrun : Bool) (c : Catalogs) : Catalogs × List Event :=
  let r := syncMoviesJfToPlexAux dryrun c.jfMovies c.plexMovies c.plexMovies
  ({ c with plexMovies := r.1 }, r.2)

/-- The `--sync plex,jellyfin movies` loop (src/cli.py lines 641-657). -/
def syncMoviesPlexToJfAux (dryrun : Bool) :
    List PlexMovie → List JfMovie → List JfMovie × List Event
  | [], jf => (jf, [])
  | lm :: rest, jf =>
    match jellyfin_get_movie_by_title lm.title jf with
    | none =>
      let r := syncMoviesPlexToJfAux dryrun rest jf
      (r.1, .dec (.unableToFindMovie lm.title) :: r.2)
    | some rm =>
      let step : List JfMovie × List Event :=
        if lm.played && !rm.played then
          let m := jellyfin_mark_movie_played rm.id dryrun jf
          (m.1, .dec (.localWatchedRemoteNot lm.title) :: m.2)
        else (jf, [])
      let r := syncMoviesPlexToJfAux dryrun rest step.1
      (r.1, .dec (.checkingMovie lm.title) :: (step.2 ++ r.2))

/-- `--sync plex,jellyfin movies` on the catalog state. -/
def syncMoviesPlexToJf (dryrun : Bool) (c : Catalogs) : Catalogs × List Event :=
  let r := syncMoviesPlexToJfAux dryrun c.plexMovies c.jfMovies
  ({ c with jfMovies := r.1 }, r.2)

/-- The episode loop of `--sync jellyfin,plex tv` (src/cli.py lines
673-689) for one matched show: the remote episode list is the snapshot
fetched before the loop, while marks are applied to the Plex server
state. -/
def tvEpisodesJfToPlex (dryrun : Bool) (reps : List JfEpisode) :
    List PlexEpisode → List PlexShow → List PlexShow × List Event
  | [], shows => (shows, [])
  | lep :: rest, shows =>
    let step : List PlexShow × List Event :=
      match episodeMatch lep reps with
      | some m =>
        if m.played && !lep.played then
          if dryrun then (shows, [.dec (.epRemoteWatchedLocalNot lep.id lep.title)])
          else (plexMarkEpisode lep.id shows,
            [.dec (.epRemoteWatchedLocalNot lep.id lep.title),
             .mut (.plexMarkEpisodePlayed lep.id)])
        else (shows, [])
      | none => (shows, [])
    let r := tvEpisodesJfToPlex dryrun reps rest step.1
    (r.1, step.2 ++ r.2)

/-- The show loop of `--sync jellyfin,plex tv` (src/cli.py lines
661-689), iterating over the snapshot of the Plex show list while
`lshow.episodes()` re-reads the current Plex state. -/
def syncTvJfToPlexAux (dryrun : Bool) (jshows : List JfShow)
    (jeps : List (String × List JfEpisode)) :
    List PlexShow → List PlexShow → List PlexShow × List Event
  | [], shows => (shows, [])
  | lshow :: rest, shows =>
    match jellyfin_get_tvshow_by_title lshow.title jshows with
    | none =>
      let r := syncTvJfToPlexAux dryrun jshows jeps rest shows
      (r.1, .dec (.unableToFindShow lshow.title) :: r.2)
    | some rshow =>
      let e := tvEpisodesJfToPlex dryrun (jellyfin_get_episodes rshow.id jeps)
        (plexGetEpisodes lshow.id shows) shows
      let r := syncTvJfToPlexAux dryrun jshows jeps rest e.1
      (r.1, .dec (.checkingShow lshow.title) :: (e.2 ++ r.2))

/-- `--sync jellyfin,plex tv` on the catalog state. -/
def syncTvJfToPlex (dryrun : Bool) (c : Catalogs) : Catalogs × List Event :=
  let r := syncTvJfToPlexAux dryrun c.jfShows c.jfEpisodes c.plexShows c.plexShows
  ({ c with plexShows := r.1 }, r.2)

/-- The episode loop of `--sync plex,jellyfin tv` (src/cli.py lines
702-722) for one matched show: the remote episode list is the snapshot
fetched before the loop, while marks are applied to the Jellyfin episode
state. -/
def tvEpisodesPlexToJf (dryrun : Bool) (reps : List JfEpisode) :
    List PlexEpisode → List (String × List JfEpisode) →
    List (String × List JfEpisode) × List Event
  | [], jeps => (jeps, [])
  | lep :: rest, jeps =>
    let step : List (String × List JfEpisode) × List Event :=
      match episodeMatch lep reps with
      | some m =>
        if lep.played && !m.played then
          let r := jellyfin_mark_episode_played m.id dryrun jeps
          (r.1, .dec (.epLocalWatchedRemoteNot lep.title) :: r.2)
        else (jeps, [])
      | none => (jeps, [])
    let r := tvEpisodesPlexToJf dryrun reps rest step.1
    (r.1, step.2 ++ r.2)

/-- The show loop of `--sync plex,jellyfin tv` (src/cli.py lines
690-722): the Plex state is not mutated in this direction, so
`lshow.episodes()` reads the initial Plex show list, while
`jellyfin_get_episodes` re-reads the threaded Jellyfin episode state. -/
def syncTvPlexToJfAux (dryrun : Bool) (jshows : List JfShow) (pshows : List PlexShow) :
    List PlexShow → List (String × List JfEpisode) →
    List (String × List JfEpisode) × List Event
  | [], jeps => (jeps, [])
  | lshow :: rest, jeps =>
    match jellyfin_get_tvshow_by_title lshow.title jshows with
    | none =>
      let r := syncTvPlexToJfAux dryrun jshows pshows rest jeps
      (r.1, .dec (.unableToFindShow lshow.title) :: r.2)
    | some rshow =>
      let e := tvEpisodesPlexToJf dryrun (jellyfin_get_episodes rshow.id jeps)
        (plexGetEpisodes lshow.id pshows) jeps
      let r := syncTvPlexToJfAux dryrun jshows pshows rest e.1
      (r.1, .dec (.checkingShow lshow.title) :: (e.2 ++ r.2))

/-- `--sync plex,jellyfin tv` on the catalog state. -/
def syncTvPlexToJf (dryrun : Bool) (c : Catalogs) : Catalogs × List Event :=
  let r := syncTvPlexToJfAux dryrun c.jfShows c.plexShows c.plexShows c.jfEpisodes
  ({ c with jfEpisodes := r.1 }, r.2)

/-! ## Transport-failure model (src/cli.py lines 48-55 versus
src/lib/jellyfin_api.py lines 25-40)

The per-item catalog fetches are HTTP calls that can fail.  They are
modelled by an explicit response oracle: one `Except` value per call. -/

/-- A transport failure of one catalog HTTP call. -/
inductive TransportError where
  | timeout
  | connectionError
  | httpStatus (code : Nat)
deriving DecidableEq

/-- One successful HTTP exchange of the Jellyfin items endpoint. -/
structure HttpResp where
  status : Nat
  items : List JfMovie
deriving DecidableEq

/-- `resp.raise_for_status()`: a status of 400 or above raises an
HTTPError. -/
def raise_for_status (r : HttpResp) : Except TransportError (List JfMovie) :=
  if 400 ≤ r.status then .error (.httpStatus r.status) else .ok r.items

/-- `jellyfin_get_movies` as written in src/cli.py (lines 48-55): the
request itself may fail with a transport error, and `raise_for_status`
may raise; neither is caught, so the error propagates to the caller. -/
def jellyfin_get_movies_cli (r : Except TransportError HttpResp) :
    Except TransportError (List JfMovie) :=
  match r with
  | .error e => .error e
  | .ok resp => raise_for_status resp

/-- `jellyfin_get_movies` as written in src/lib/jellyfin_api.py (lines
25-40): the same fetch, but every transport error (ReadTimeout,
ConnectionError, and any other RequestException, HTTPError included) is
caught, an error message is logged (the `true` in the second component),
and the empty item list is returned. -/
def jellyfin_get_movies_lib (r : Except TransportError HttpResp) :
    List JfMovie × Bool :=
  match jellyfin_get_movies_cli r with
  | .error _ => ([], true)
  | .ok items => (items, false)

/-- The `--sync plex,jellyfin movies` loop over the response oracle:
item `k`'s `jellyfin_get_movie_by_title` fetch receives the `k`-th
response (each per-item fetch is an independent HTTP call, so the oracle
replaces the threaded Jellyfin state; mark POSTs are modelled as
succeeding).  As in src/cli.py, a transport error is uncaught and aborts
the whole run — `.error` carries the events printed before the abort,
and the items after the failing call are never processed. -/
def syncMoviesPlexToJfT (dryrun : Bool) :
    List PlexMovie → List (Except TransportError HttpResp) →
    Except (List Event) (List Event)
  | [], _ => .ok []
  | lm :: rest, rs =>
    match jellyfin_get_movies_cli (rs.headD (.ok ⟨200, []⟩)) with
    | .error _ => .error []
    | .ok movies =>
      match movies.find? (fun m => strLower m.name == strLower lm.title) with
      | none =>
        match syncMoviesPlexToJfT dryrun rest rs.tail with
        | .ok evs => .ok (.dec (.unableToFindMovie lm.title) :: evs)
        | .error evs => .error (.dec (.unableToFindMovie lm.title) :: evs)
      | some rm =>
        let step : List Event :=
          if lm.played && !rm.played then
            .dec (.localWatchedRemoteNot lm.title) ::
              (if dryrun then [.dec (.wouldMarkJfMoviePlayed rm.id)]
               else [.mut (.jfMarkMoviePlayed rm.id), .dec (.wouldMarkJfMoviePlayed rm.id)])
          else []
        match syncMoviesPlexToJfT dryrun rest rs.tail with
        | .ok evs => .ok (.dec (.checkingMovie lm.title) :: (step ++ evs))
        | .error evs => .error (.dec (.checkingMovie lm.title) :: (step ++ evs))

/-! ## Proof-infrastructure relations and predicates -/

instance {e a : Type} [DecidableEq e] [DecidableEq a] : DecidableEq (Except e a)
  | .error x, .error y =>
    if h : x = y then isTrue (by rw [h]) else isFalse (fun hc => h (by injection hc))
  | .error _, .ok _ => isFalse (by intro h; cases h)
  | .ok _, .error _ => isFalse (by intro h; cases h)
  | .ok x, .ok y =>
    if h : x = y then isTrue (by rw [h]) else isFalse (fun hc => h (by injection hc))

def JfRel (S : List String) : List JfMovie → List JfMovie → Prop
  | [], [] => True
  | a :: l1, b :: l2 =>
    (b.id = a.id ∧ b.name = a.name ∧ b.dateCreated = a.dateCreated ∧
      (b.played = a.played ∨ (b.played = true ∧ strLower a.name ∈ S))) ∧ JfRel S l1 l2
  | _, _ => False

/-- `PmRel S pm0 pm'` relates the initial Plex movie list to the list
after some real-mode writes: ids and titles are untouched, and an
`addedAt` value may only have changed on a movie whose lowercased title
belongs to the processed-title set `S`. Played flags are unconstrained —
the jellyfin→plex movie loop never reads them back. -/
def PmRel (S : List String) : List PlexMovie → List PlexMovie → Prop
  | [], [] => True
  | a :: l1, b :: l2 =>
    (b.id = a.id ∧ b.title = a.title ∧
      (b.addedAt = a.addedAt ∨ strLower a.title ∈ S)) ∧ PmRel S l1 l2
  | _, _ => False

/-- `PEpsRel S l0 l'` relates a Plex episode list to its state after
some real-mode marks: identifiers, titles and numbering are untouched,
and a played flag may only have changed on an episode whose id belongs
to the processed set `S`. -/
def PEpsRel (S : List String) : List PlexEpisode → List PlexEpisode → Prop
  | [], [] => True
  | a :: l1, b :: l2 =>
    (b.id = a.id ∧ b.title = a.title ∧ b.seasonNumber = a.seasonNumber ∧
      b.index = a.index ∧ (b.played = a.played ∨ b.id ∈ S)) ∧ PEpsRel S l1 l2
  | _, _ => False

/-- `PsRel S s0 s'` lifts `PEpsRel` over the Plex show list. -/
def PsRel (S : List String) : List PlexShow → List PlexShow → Prop
  | [], [] => True
  | a :: l1, b :: l2 =>
    (b.id = a.id ∧ b.title = a.title ∧ PEpsRel S a.episodes b.episodes) ∧ PsRel S l1 l2
  | _, _ => False

/-- `JEpsRel S l0 l'` relates a Jellyfin episode list to its state
after some real-mode marks: identifiers, names and numbering are
untouched, and a played flag may only have changed on an episode whose
id belongs to the processed set `S`. -/
def JEpsRel (S : List String) : List JfEpisode → List JfEpisode → Prop
  | [], [] => True
  | a :: l1, b :: l2 =>
    (b.id = a.id ∧ b.name = a.name ∧ b.seasonNumber = a.seasonNumber ∧
      b.indexNumber = a.indexNumber ∧ (b.played = a.played ∨ b.id ∈ S)) ∧ JEpsRel S l1 l2
  | _, _ => False

/-- `JepsRel S j0 j'` lifts `JEpsRel` over the keyed Jellyfin episode
store. -/
def JepsRel (S : List String) :
    List (String × List JfEpisode) → List (String × List JfEpisode) → Prop
  | [], [] => True
  | a :: l1, b :: l2 => (b.1 = a.1 ∧ JEpsRel S a.2 b.2) ∧ JepsRel S l1 l2
  | _, _ => False

/-- The convergence predicate of the plex→jellyfin movie direction: a
local title with local played flag `lp` no longer triggers a mark. -/
def DoneP (jf : List JfMovie) (t : String) (lp : Bool) : Prop :=
  ∀ rm, jellyfin_get_movie_by_title t jf = some rm → lp = true → rm.played = true

/-- Convergence of the addedAt comparison for title `t`. -/
def DoneA (jf : List JfMovie) (pm : List PlexMovie) (t : String) : Prop :=
  ∀ rm, jellyfin_get_movie_by_title t jf = some rm →
    ∀ v, plexGetMovie t pm = some v →
      (decide (truncMin (truncMin rm.dateCreated) < truncMin v.addedAt - 43200)
        || decide (truncMin v.addedAt + 43200 < truncMin (truncMin rm.dateCreated))) = false

/-- Every Plex movie carrying the given id is marked played. -/
def IdPlayed (pm : List PlexMovie) (x : String) : Prop :=
  ∀ e ∈ pm, e.id = x → e.played = true

/-- Pointwise evolution of the Plex movie list under a real run: ids and
titles fixed, played flags monotone, addedAt free. -/
def PmMono : List PlexMovie → List PlexMovie → Prop
  | [], [] => True
  | a :: l1, b :: l2 =>
    (b.id = a.id ∧ b.title = a.title ∧ (a.played = true → b.played = true)) ∧ PmMono l1 l2
  | _, _ => False

/-- Pointwise evolution of a Plex episode list under real marks:
identifiers, titles and numbering fixed, played flags monotone. -/
def EpsMono : List PlexEpisode → List PlexEpisode → Prop
  | [], [] => True
  | a :: l1, b :: l2 =>
    (b.id = a.id ∧ b.title = a.title ∧ b.seasonNumber = a.seasonNumber ∧
      b.index = a.index ∧ (a.played = true → b.played = true)) ∧ EpsMono l1 l2
  | _, _ => False

/-- `EpsMono` lifted over the Plex show list. -/
def PsMono : List PlexShow → List PlexShow → Prop
  | [], [] => True
  | a :: l1, b :: l2 =>
    (b.id = a.id ∧ b.title = a.title ∧ EpsMono a.episodes b.episodes) ∧ PsMono l1 l2
  | _, _ => False

/-- Every Plex episode carrying the given id — in any show — is marked
played. -/
def EpIdPlayedShows (shows : List PlexShow) (x : String) : Prop :=
  ∀ s ∈ shows, ∀ e ∈ s.episodes, e.id = x → e.played = true

/-- Pointwise evolution of a Jellyfin episode list under real marks. -/
def JEpsMono : List JfEpisode → List JfEpisode → Prop
  | [], [] => True
  | a :: l1, b :: l2 =>
    (b.id = a.id ∧ b.name = a.name ∧ b.seasonNumber = a.seasonNumber ∧
      b.indexNumber = a.indexNumber ∧ (a.played = true → b.played = true)) ∧ JEpsMono l1 l2
  | _, _ => False

/-- `JEpsMono` lifted over the keyed Jellyfin episode store. -/
def JepsMono : List (String × List JfEpisode) → List (String × List JfEpisode) → Prop
  | [], [] => True
  | a :: l1, b :: l2 => (b.1 = a.1 ∧ JEpsMono a.2 b.2) ∧ JepsMono l1 l2
  | _, _ => False

/-- Every Jellyfin episode carrying the given id — under any show key —
is marked played. -/
def JEpIdPlayed (jeps : List (String × List JfEpisode)) (x : String) : Prop :=
  ∀ p ∈ jeps, ∀ e ∈ p.2, e.id = x → e.played = true

/-! # Theorems

Supporting lemmas first, then the claim theorems (one per claim), each
with its witness or counterexample where required. -/

/-! ### Embedding sanity checks mirroring the repository unit tests -/

example : normalize_title "The Matrix (1999)" = "thematrix" := by decide

example : normalize_title "Star Wars: A New Hope (1977)" = "starwarsanewhope" := by decide

example : normalize_title "Spider-Man & Mary Jane" = "spidermanandmaryjane" := by decide

example : normalize_title "the matrix" = "thematrix" := by decide

example : find_best_match "The Matrix (1999)" ["The Matrix (1999)", "Inception"]
    = some "The Matrix (1999)" := by decide

example : find_best_match "Matrix" ["The Matrix (1999)", "Inception"] 60
    = some "The Matrix (1999)" := by decide

example : find_best_match "The Matrix" ["The Matrix (1999)"] 85 (some 2000)
    (some [some 1999]) = some "The Matrix (1999)" := by decide

example : compare_titles_core ["A (2020)", "B (2021)"] ["A (2020)"]
    [some 2020, some 2021] [some 2020] false 85 = ["B (2021)"] := by decide

example : compare_titles_core ["ABC", "abc"] [] [none, none] [] false 85
    = ["abc"] := by decide


/-! ## Character facts -/

theorem charEq_iff_toNat {c d : Char} : c = d ↔ c.toNat = d.toNat :=
  ⟨fun h => h ▸ rfl, fun h => Char.ext (UInt32.ext h)⟩

theorem charIsUpper_iff (c : Char) : c.isUpper = true ↔ 65 ≤ c.toNat ∧ c.toNat ≤ 90 := by
  simp [Char.isUpper]
  exact Iff.rfl

theorem charToNat_ofNat {n : Nat} (h : Nat.isValidChar n) : (Char.ofNat n).toNat = n := by
  rw [Char.ofNat, dif_pos h]
  rfl

theorem charToLower_toNat (c : Char) :
    (Char.toLower c).toNat =
      if 65 ≤ c.toNat ∧ c.toNat ≤ 90 then c.toNat + 32 else c.toNat := by
  unfold Char.toLower
  split
  · next h =>
    rw [if_pos (by omega : 65 ≤ c.toNat ∧ c.toNat ≤ 90)]
    exact charToNat_ofNat (Or.inl (by omega))
  · next h =>
    rw [if_neg (by omega)]

theorem charToLower_not_upper (c : Char) : (Char.toLower c).isUpper = false := by
  rw [Bool.eq_false_iff]
  intro hu
  rw [charIsUpper_iff, charToLower_toNat] at hu
  split at hu <;> omega

theorem charToLower_eq_self {c : Char} (h : c.isUpper = false) : Char.toLower c = c := by
  unfold Char.toLower
  rw [if_neg]
  intro hc
  rw [Bool.eq_false_iff] at h
  exact h (charIsUpper_iff c |>.2 (by omega))

theorem alphanum_not_pySpace {c : Char} (h : c.isAlphanum = true) : isPySpace c = false := by
  rw [Bool.eq_false_iff]
  intro hs
  simp only [isPySpace, Bool.or_eq_true, decide_eq_true_eq] at hs
  rcases hs with ((((h1 | h1) | h1) | h1) | h1) | h1 <;> subst h1 <;> revert h <;> decide

theorem alphanum_ne_paren {c : Char} (h : c.isAlphanum = true) : c ≠ '(' := by
  intro h1
  subst h1
  revert h
  decide

theorem alphanum_ne_underscore {c : Char} (h : c.isAlphanum = true) : c ≠ '_' := by
  intro h1
  subst h1
  revert h
  decide

/-! ## Normalizer stage lemmas -/

theorem dropWhile_eq_self_of_none {l : List Char} (h : ∀ c ∈ l, isPySpace c = false) :
    l.dropWhile isPySpace = l := by
  cases l with
  | nil => rfl
  | cons c cs =>
    rw [List.dropWhile_cons, if_neg]
    simp [h c (List.mem_cons_self c cs)]

theorem pyStrip_eq_self {l : List Char} (h : ∀ c ∈ l, isPySpace c = false) :
    pyStrip l = l := by
  unfold pyStrip
  rw [dropWhile_eq_self_of_none h,
    dropWhile_eq_self_of_none (fun c hc => h c (List.mem_reverse.mp hc))]
  exact List.reverse_reverse l

theorem yearMatchAt_eq_none {l : List Char}
    (h : ∀ c ∈ l, isPySpace c = false ∧ c ≠ '(') : yearMatchAt l = none := by
  unfold yearMatchAt
  rw [dropWhile_eq_self_of_none (fun c hc => (h c hc).1)]
  cases l with
  | nil => rfl
  | cons c cs =>
    split
    · next heq =>
      have hc : c = '(' := by injection heq
      exact absurd hc (h c (List.mem_cons_self c cs)).2
    · rfl

theorem subYearF_id {l : List Char} (h : ∀ c ∈ l, isPySpace c = false ∧ c ≠ '(') :
    ∀ fuel, subYearF fuel l = l := by
  intro fuel
  induction fuel generalizing l with
  | zero => rfl
  | succ n ih =>
    cases l with
    | nil => rfl
    | cons c cs =>
      show (match yearMatchAt (c :: cs) with
        | some rest => subYearF n rest
        | none => c :: subYearF n cs) = c :: cs
      rw [yearMatchAt_eq_none h]
      rw [ih (fun d hd => h d (List.mem_cons_of_mem _ hd))]

theorem andMatchAt_eq_none {l : List Char} (h : ∀ c ∈ l, isPySpace c = false) :
    andMatchAt l = none := by
  cases l with
  | nil => rfl
  | cons c cs =>
    show (if isPySpace c then _ else none) = none
    rw [if_neg]
    simp [h c (List.mem_cons_self c cs)]

theorem subAndF_id {l : List Char} (h : ∀ c ∈ l, isPySpace c = false) :
    ∀ fuel, subAndF fuel l = l := by
  intro fuel
  induction fuel generalizing l with
  | zero => rfl
  | succ n ih =>
    cases l with
    | nil => rfl
    | cons c cs =>
      show (match andMatchAt (c :: cs) with
        | some rest => ' ' :: 'a' :: 'n' :: 'd' :: ' ' :: subAndF n rest
        | none => c :: subAndF n cs) = c :: cs
      rw [andMatchAt_eq_none h]
      rw [ih (fun d hd => h d (List.mem_cons_of_mem _ hd))]

theorem wsTail_subset {ds r : List Char} (h : wsTail ds = some r) : ∀ x ∈ r, x ∈ ds := by
  cases ds with
  | nil => exact absurd h (by simp [wsTail])
  | cons c2 t =>
    simp only [wsTail] at h
    split at h
    · intro x hx
      exact (List.dropWhile_sublist _).subset (Option.some.inj h ▸ hx)
    · exact absurd h (by simp)

theorem andWordTail_subset {ds r : List Char} (h : andWordTail ds = some r) :
    ∀ x ∈ r, x ∈ ds := by
  match ds with
  | [] => exact absurd h (by simp [andWordTail])
  | [d2] => exact absurd h (by simp [andWordTail])
  | d2 :: d3 :: ds3 =>
    simp only [andWordTail] at h
    split at h
    · intro x hx
      exact List.mem_cons_of_mem _ (List.mem_cons_of_mem _ (wsTail_subset h x hx))
    · exact absurd h (by simp)

theorem andMatchAt_subset {l r : List Char} (h : andMatchAt l = some r) :
    ∀ c ∈ r, c ∈ l := by
  cases l with
  | nil => exact absurd h (by simp [andMatchAt])
  | cons c cs =>
    simp only [andMatchAt] at h
    by_cases hs : isPySpace c = true
    · rw [if_pos hs] at h
      cases hd : List.dropWhile isPySpace (c :: cs) with
      | nil => rw [hd] at h; exact absurd h (by simp)
      | cons d ds =>
        rw [hd] at h
        have hmemtail : ∀ x ∈ ds, x ∈ c :: cs := by
          intro x hx
          have hx2 : x ∈ List.dropWhile isPySpace (c :: cs) := by
            rw [hd]; exact List.mem_cons_of_mem _ hx
          exact (List.dropWhile_sublist _).subset hx2
        have h2 : (if d = '&' then wsTail ds
            else if d = 'a' then andWordTail ds else none) = some r := h
        by_cases hamp : d = '&'
        · rw [if_pos hamp] at h2
          exact fun x hx => hmemtail x (wsTail_subset h2 x hx)
        · rw [if_neg hamp] at h2
          by_cases ha : d = 'a'
          · rw [if_pos ha] at h2
            exact fun x hx => hmemtail x (andWordTail_subset h2 x hx)
          · rw [if_neg ha] at h2
            exact absurd h2 (by simp)
    · rw [if_neg hs] at h
      exact absurd h (by simp)

theorem mem_subAndF {fuel : Nat} {l : List Char} :
    ∀ c ∈ subAndF fuel l, c ∈ l ∨ c = ' ' ∨ c = 'a' ∨ c = 'n' ∨ c = 'd' := by
  induction fuel generalizing l with
  | zero => exact fun c hc => Or.inl hc
  | succ n ih =>
    intro c hc
    cases l with
    | nil => exact absurd hc (by simp [subAndF])
    | cons hd tl =>
      have hc' : c ∈ (match andMatchAt (hd :: tl) with
        | some rest => ' ' :: 'a' :: 'n' :: 'd' :: ' ' :: subAndF n rest
        | none => hd :: subAndF n tl) := hc
      cases hm : andMatchAt (hd :: tl) with
      | some rest =>
        rw [hm] at hc'
        simp only [List.mem_cons] at hc'
        rcases hc' with h1 | h1 | h1 | h1 | h1 | h1
        · exact Or.inr (Or.inl h1)
        · exact Or.inr (Or.inr (Or.inl h1))
        · exact Or.inr (Or.inr (Or.inr (Or.inl h1)))
        · exact Or.inr (Or.inr (Or.inr (Or.inr h1)))
        · exact Or.inr (Or.inl h1)
        · rcases ih c h1 with h2 | h2
          · exact Or.inl (andMatchAt_subset hm c h2)
          · exact Or.inr h2
      | none =>
        rw [hm] at hc'
        rcases List.mem_cons.mp hc' with h1 | h1
        · exact Or.inl (h1 ▸ List.mem_cons_self hd tl)
        · rcases ih c h1 with h2 | h2
          · exact Or.inl (List.mem_cons_of_mem _ h2)
          · exact Or.inr h2

theorem mem_map_toLower_not_upper {l : List Char} {c : Char}
    (h : c ∈ l.map Char.toLower) : c.isUpper = false := by
  rcases List.mem_map.mp h with ⟨d, _, rfl⟩
  exact charToLower_not_upper d

theorem map_toLower_eq_self {l : List Char} (h : ∀ c ∈ l, c.isUpper = false) :
    l.map Char.toLower = l := by
  induction l with
  | nil => rfl
  | cons c cs ih =>
    simp only [List.map_cons]
    rw [charToLower_eq_self (h c (List.mem_cons_self c cs)),
      ih (fun d hd => h d (List.mem_cons_of_mem _ hd))]

theorem normalizePreStrip_alphanum {l : List Char} {c : Char}
    (h : c ∈ normalizePreStrip l) : c.isAlphanum = true ∧ c.isUpper = false := by
  simp only [normalizePreStrip] at h
  have hf := List.mem_filter.mp h
  refine ⟨hf.2, ?_⟩
  rcases mem_subAndF _ hf.1 with h1 | h1 | h1 | h1 | h1
  · exact mem_map_toLower_not_upper h1
  · subst h1; decide
  · subst h1; decide
  · subst h1; decide
  · subst h1; decide

theorem normalizeChars_eq_preStrip (l : List Char) :
    normalizeChars l = normalizePreStrip l :=
  pyStrip_eq_self fun _ hc => alphanum_not_pySpace (normalizePreStrip_alphanum hc).1

theorem normalizeChars_alphanum {l : List Char} {c : Char} (h : c ∈ normalizeChars l) :
    c.isAlphanum = true ∧ c.isUpper = false := by
  rw [normalizeChars_eq_preStrip] at h
  exact normalizePreStrip_alphanum h

theorem normalizeChars_id {l : List Char}
    (h : ∀ c ∈ l, c.isAlphanum = true ∧ c.isUpper = false) :
    normalizeChars l = l := by
  have hs : ∀ c ∈ l, isPySpace c = false := fun c hc => alphanum_not_pySpace (h c hc).1
  have h1 : subYearF l.length l = l :=
    subYearF_id (fun c hc => ⟨hs c hc, alphanum_ne_paren (h c hc).1⟩) _
  have h2 : l.map Char.toLower = l := map_toLower_eq_self (fun c hc => (h c hc).2)
  have h4 : l.filter Char.isAlphanum = l := List.filter_eq_self.mpr (fun c hc => (h c hc).1)
  unfold normalizeChars
  simp only [normalizePreStrip]
  rw [h1, h2, subAndF_id hs, h4, pyStrip_eq_self hs]

/-- C9: for every title string `t`,
`normalize(normalize(t)) = normalize(t)` — the Title Normalizer is
idempotent. -/
theorem C9_normalize_idempotent (t : String) :
    normalize_title (normalize_title t) = normalize_title t := by
  show (⟨normalizeChars (normalize_title t).data⟩ : String) = normalize_title t
  have hd : (normalize_title t).data = normalizeChars t.data := rfl
  rw [hd, normalizeChars_id (fun _ hc => normalizeChars_alphanum hc)]
  rfl

/-- C10: every character of `normalize_title`'s output is alphanumeric —
no uppercase letters, no whitespace, no punctuation and no underscores
survive (underscores are removed even though they are regex word
characters) — and consequently the final whitespace strip is a no-op:
the output equals the pre-strip pipeline's output. -/
theorem C10_normalize_only_wordchars (s : String) :
    ((normalize_title s).data.all fun c =>
        c.isAlphanum && !c.isUpper && !(isPySpace c) && c != '_') = true ∧
      (normalize_title s).data = normalizePreStrip s.data := by
  constructor
  · rw [List.all_eq_true]
    intro c hc
    have h := @normalizeChars_alphanum s.data c hc
    simp [h.1, h.2, alphanum_not_pySpace h.1, alphanum_ne_underscore h.1]
  · exact normalizeChars_eq_preStrip s.data

/-- C1: at the claim's own input the Matcher does not return `None`.
The query year 2000 and the candidate year 1999 make the year test of
the exact-normalized branch fail, but control then falls through to the
fuzzy fallback on the same candidate, and the token-sort score of the
two identical normalized strings (`"thematrix"`) is 100 ≥ 85, so the
candidate is accepted after all — contradicting the claim, the spec's
worked example, and the repository's own `test_find_best_match_year`.
The second conjunct records that the normalized forms are indeed equal,
so this is exactly the "year mismatch on an otherwise-exact normalized
match" situation the claim describes. -/
theorem C1_year_mismatch_still_matches :
    find_best_match "The Matrix" ["The Matrix (1999)"] 85 (some 2000) (some [some 1999])
        = some "The Matrix (1999)" ∧
      normalize_title "The Matrix" = normalize_title "The Matrix (1999)" :=
  ⟨by decide, by decide⟩

/-! ## Dict lemmas for `compare_titles` -/

theorem dictKeys_cons (p : String × String) (d : List (String × String)) :
    dictKeys (p :: d) = p.1 :: dictKeys d := rfl

theorem mem_dictKeys_dictInsert {k' k v : String} {d : List (String × String)} :
    k' ∈ dictKeys (dictInsert k v d) ↔ k' = k ∨ k' ∈ dictKeys d := by
  induction d with
  | nil => simp [dictInsert, dictKeys]
  | cons p rest ih =>
    obtain ⟨k1, v1⟩ := p
    by_cases h : k1 = k
    · subst h
      rw [dictInsert, if_pos rfl, dictKeys_cons, dictKeys_cons, List.mem_cons]
      exact ⟨Or.inr, fun h => h.elim Or.inl id⟩
    · simp only [dictInsert, if_neg h, dictKeys_cons, List.mem_cons, ih]
      tauto

theorem nodup_dictKeys_dictInsert {k v : String} {d : List (String × String)}
    (h : (dictKeys d).Nodup) : (dictKeys (dictInsert k v d)).Nodup := by
  induction d with
  | nil => simp [dictInsert, dictKeys]
  | cons p rest ih =>
    obtain ⟨k1, v1⟩ := p
    rw [dictKeys_cons, List.nodup_cons] at h
    by_cases hk : k1 = k
    · subst hk
      rw [dictInsert, if_pos rfl, dictKeys_cons, List.nodup_cons]
      exact h
    · rw [dictInsert, if_neg hk, dictKeys_cons, List.nodup_cons]
      refine ⟨?_, ih h.2⟩
      intro hmem
      rcases mem_dictKeys_dictInsert.mp hmem with h1 | h1
      · exact hk h1
      · exact h.1 h1

theorem mem_dictInsert {k' v' k v : String} {d : List (String × String)}
    (hno : (dictKeys d).Nodup) (h : (k', v') ∈ dictInsert k v d) :
    (k' = k ∧ v' = v) ∨ ((k', v') ∈ d ∧ k' ≠ k) := by
  induction d with
  | nil =>
    simp only [dictInsert, List.mem_singleton, Prod.mk.injEq] at h
    exact Or.inl h
  | cons p rest ih =>
    obtain ⟨k1, v1⟩ := p
    rw [dictKeys_cons, List.nodup_cons] at hno
    by_cases hk : k1 = k
    · subst hk
      rw [dictInsert, if_pos rfl] at h
      rcases List.mem_cons.mp h with h1 | h1
      · rw [Prod.mk.injEq] at h1
        exact Or.inl h1
      · refine Or.inr ⟨List.mem_cons_of_mem _ h1, fun hkk => ?_⟩
        have hmm : k' ∈ List.map Prod.fst rest := List.mem_map_of_mem Prod.fst h1
        rw [hkk] at hmm
        exact hno.1 hmm
    · rw [dictInsert, if_neg hk] at h
      rcases List.mem_cons.mp h with h1 | h1
      · rw [Prod.mk.injEq] at h1
        refine Or.inr ⟨?_, ?_⟩
        · rw [h1.1, h1.2]
          exact List.mem_cons_self _ _
        · rw [h1.1]
          exact hk
      · rcases ih hno.2 h1 with h2 | h2
        · exact Or.inl h2
        · exact Or.inr ⟨List.mem_cons_of_mem _ h2.1, h2.2⟩

theorem normDict_append_singleton (ts : List String) (t : String) :
    normDict (ts ++ [t]) = dictInsert (normalize_title t) t (normDict ts) := by
  unfold normDict
  rw [List.foldl_append]
  rfl

theorem normDict_spec (ts : List String) :
    (dictKeys (normDict ts)).Nodup ∧
      ∀ p ∈ normDict ts, p.1 = normalize_title p.2 ∧
        (ts.filter fun t => normalize_title t == p.1).getLast? = some p.2 := by
  induction ts using List.reverseRecOn with
  | nil => exact ⟨by simp [normDict, dictKeys], by simp [normDict]⟩
  | append_singleton ts t ih =>
    rw [normDict_append_singleton]
    refine ⟨nodup_dictKeys_dictInsert ih.1, ?_⟩
    rintro ⟨k, v⟩ hp
    rcases mem_dictInsert ih.1 hp with h1 | h1
    · obtain ⟨hk, hv⟩ := h1
      subst hk
      subst hv
      constructor
      · rfl
      · rw [List.filter_append, List.filter_cons, if_pos (by simp), List.filter_nil]
        exact List.getLast?_concat _
    · obtain ⟨hmem, hne⟩ := h1
      have hspec := ih.2 _ hmem
      refine ⟨hspec.1, ?_⟩
      have hcond : ¬((normalize_title t == k) = true) := by
        simp only [beq_iff_eq]
        exact fun h => hne h.symm
      rw [List.filter_append, List.filter_cons, if_neg hcond, List.filter_nil,
        List.append_nil]
      exact hspec.2

theorem mem_dictKeys_normDict {ts : List String} {k : String} :
    k ∈ dictKeys (normDict ts) ↔ ∃ t ∈ ts, normalize_title t = k := by
  induction ts using List.reverseRecOn with
  | nil => simp [normDict, dictKeys]
  | append_singleton ts t ih =>
    rw [normDict_append_singleton, mem_dictKeys_dictInsert, ih]
    constructor
    · rintro (h1 | ⟨t', ht', h1⟩)
      · exact ⟨t, by simp, h1.symm⟩
      · exact ⟨t', by simp [ht'], h1⟩
    · rintro ⟨t', ht', h1⟩
      rcases List.mem_append.mp ht' with h2 | h2
      · exact Or.inr ⟨t', h2, h1⟩
      · rw [List.mem_singleton.mp h2] at h1
        exact Or.inl h1.symm

theorem exists_val_of_mem_dictKeys {d : List (String × String)} {k : String}
    (h : k ∈ dictKeys d) : ∃ v, (k, v) ∈ d := by
  rcases List.mem_map.mp h with ⟨p, hp, hk⟩
  exact ⟨p.2, by rw [← hk]; exact hp⟩

theorem mem_compareMissingAux {tts : List String} {tys sys : List (Option Nat)}
    {nk : List String} {fuzzy : Bool} {th : Nat} {idx : Nat}
    {d : List (String × String)} {m : String}
    (h : m ∈ compareMissingAux tts tys sys nk fuzzy th idx d) :
    ∃ k, (k, m) ∈ d := by
  induction d generalizing idx with
  | nil => exact absurd h (by simp [compareMissingAux])
  | cons p rest ih =>
    obtain ⟨k, v⟩ := p
    simp only [compareMissingAux] at h
    split at h
    · rcases List.mem_cons.mp h with h1 | h1
      · exact ⟨k, by rw [h1]; exact List.mem_cons_self _ _⟩
      · rcases ih h1 with ⟨k', hk'⟩
        exact ⟨k', List.mem_cons_of_mem _ hk'⟩
    · rcases ih h with ⟨k', hk'⟩
      exact ⟨k', List.mem_cons_of_mem _ hk'⟩

theorem nodup_map_compareMissingAux {tts : List String} {tys sys : List (Option Nat)}
    {nk : List String} {fuzzy : Bool} {th : Nat} :
    ∀ {idx : Nat} {d : List (String × String)}, (dictKeys d).Nodup →
      (∀ p ∈ d, p.1 = normalize_title p.2) →
      ((compareMissingAux tts tys sys nk fuzzy th idx d).map normalize_title).Nodup := by
  intro idx d
  induction d generalizing idx with
  | nil => intro _ _; simp [compareMissingAux]
  | cons p rest ih =>
    intro hno hform
    obtain ⟨k, v⟩ := p
    rw [dictKeys_cons, List.nodup_cons] at hno
    have hrest := @ih (idx + 1) hno.2 fun q hq => hform q (List.mem_cons_of_mem _ hq)
    simp only [compareMissingAux]
    split
    · rw [List.map_cons, List.nodup_cons]
      refine ⟨?_, hrest⟩
      intro hmem
      rcases List.mem_map.mp hmem with ⟨m, hm, hnorm⟩
      rcases mem_compareMissingAux hm with ⟨k', hk'⟩
      have h1 : k' = normalize_title m := hform _ (List.mem_cons_of_mem _ hk')
      have h2 : (k, v).1 = normalize_title v := hform _ (List.mem_cons_self _ _)
      have h3 : k' ∈ dictKeys rest := List.mem_map_of_mem Prod.fst hk'
      rw [h1, hnorm, ← h2] at h3
      exact hno.1 h3
    · exact hrest

theorem mem_compareMissingAux_of_missing {tts : List String} {tys sys : List (Option Nat)}
    {nk : List String} {th : Nat} {k v : String} :
    ∀ {idx : Nat} {d : List (String × String)}, (k, v) ∈ d → nk.contains k = false →
      v ∈ compareMissingAux tts tys sys nk false th idx d := by
  intro idx d
  induction d generalizing idx with
  | nil => intro h _; exact absurd h (by simp)
  | cons p rest ih =>
    intro hmem hcont
    obtain ⟨k1, v1⟩ := p
    simp only [compareMissingAux]
    rcases List.mem_cons.mp hmem with h1 | h1
    · have hk : k1 = k := (congrArg Prod.fst h1).symm
      have hv : v1 = v := (congrArg Prod.snd h1).symm
      subst hk
      subst hv
      rw [if_pos (by
        rw [show missingTest tts tys sys nk false th idx k1 v1
          = !(nk.contains k1) from rfl, hcont]
        rfl)]
      exact List.mem_cons_self _ _
    · split
      · exact List.mem_cons_of_mem _ (ih h1 hcont)
      · exact ih h1 hcont

theorem insertStr_perm (x : String) (l : List String) : (insertStr x l).Perm (x :: l) := by
  induction l with
  | nil => exact List.Perm.refl _
  | cons y ys ih =>
    rw [insertStr]
    split
    · exact List.Perm.refl _
    · exact (ih.cons y).trans (List.Perm.swap x y ys)

theorem sortStrs_perm (l : List String) : (sortStrs l).Perm l := by
  induction l with
  | nil => exact List.Perm.refl _
  | cons x xs ih => exact (insertStr_perm x (sortStrs xs)).trans (ih.cons x)

/-- C5 counterexample: with the source list `["ABC", "abc"]` (both
normalizing to `"abc"`) and an empty target, the claim requires the
single report entry to use the first-seen casing `"ABC"`, but the code
reports `["abc"]` — the dict comprehension keeps the value of the last
occurrence of a repeated normalized key. -/
theorem C5_counterexample :
    compare_titles_core ["ABC", "abc"] [] [none, none] [] false 85 = ["abc"] ∧
      "abc" ≠ "ABC" :=
  ⟨by decide, by decide⟩

/-- C5 amended: the report is deduplicated by normalized title — no two
report entries share a normalized form — but each entry carries the
LAST-seen original casing of its normalized title in the source list
(the dict comprehension keeps the last value bound to a repeated key),
not the first-seen casing; and, with `fuzzy=False`, every source title
whose normalized form is absent from the target's normalized keys is
represented by exactly one entry of its normalized class. -/
theorem C5_dedup_last_seen (sts tts : List String) (sys tys : List (Option Nat))
    (fuzzy : Bool) (threshold : Nat) :
    ((compare_titles_core sts tts sys tys fuzzy threshold).map normalize_title).Nodup ∧
      (∀ m ∈ compare_titles_core sts tts sys tys fuzzy threshold,
        (sts.filter fun t => normalize_title t == normalize_title m).getLast? = some m) ∧
      (fuzzy = false → ∀ t ∈ sts,
        (∀ t' ∈ tts, normalize_title t' ≠ normalize_title t) →
        ∃ m ∈ compare_titles_core sts tts sys tys fuzzy threshold,
          normalize_title m = normalize_title t) := by
  have hspec := normDict_spec sts
  have hperm : (compare_titles_core sts tts sys tys fuzzy threshold).Perm
      (compareMissingAux tts tys sys (dictKeys (normDict tts)) fuzzy threshold 0
        (normDict sts)) := sortStrs_perm _
  refine ⟨?_, ?_, ?_⟩
  · exact ((hperm.map normalize_title).nodup_iff).mpr
      (nodup_map_compareMissingAux hspec.1 fun p hp => (hspec.2 p hp).1)
  · intro m hm
    have hm' := hperm.mem_iff.mp hm
    rcases mem_compareMissingAux hm' with ⟨k, hk⟩
    have h1 := hspec.2 _ hk
    have h2 : k = normalize_title m := h1.1
    rw [← h2]
    exact h1.2
  · rintro rfl t ht htgt
    have hkey : normalize_title t ∈ dictKeys (normDict sts) :=
      mem_dictKeys_normDict.mpr ⟨t, ht, rfl⟩
    rcases exists_val_of_mem_dictKeys hkey with ⟨v, hv⟩
    have hcont : (dictKeys (normDict tts)).contains (normalize_title t) = false := by
      rw [Bool.eq_false_iff]
      intro hc
      rcases mem_dictKeys_normDict.mp (List.elem_iff.mp hc) with ⟨t', ht', h1⟩
      exact htgt t' ht' h1
    refine ⟨v, hperm.mem_iff.mpr (mem_compareMissingAux_of_missing hv hcont), ?_⟩
    exact ((hspec.2 _ hv).1).symm

/-- Witness for C5's amended theorem at a concrete input: the single
report entry for the class `"abc"` is the last-seen casing `"abc"`. -/
theorem C5_dedup_last_seen_witness :
    (["ABC", "abc"].filter fun t =>
        normalize_title t == normalize_title "abc").getLast? = some "abc" :=
  (C5_dedup_last_seen ["ABC", "abc"] [] [none, none] [] false 85).2.1 "abc" (by decide)

/-! ## C8: timestamp reconciliation -/

theorem truncMin_idem (t : Int) : truncMin (truncMin t) = truncMin t := by
  unfold truncMin
  omega

theorem plexGetMovie_setFirst (t : String) (d : Int) (pm : List PlexMovie) :
    plexGetMovie t (plexSetAddedAtFirst t d pm)
      = (plexGetMovie t pm).map fun v => { v with addedAt := d } := by
  induction pm with
  | nil => rfl
  | cons m rest ih =>
    by_cases h : (strLower m.title == strLower t) = true
    · rw [plexSetAddedAtFirst, if_pos h]
      unfold plexGetMovie
      have h2 : (strLower (PlexMovie.mk m.id m.title m.played d).title == strLower t) = true := h
      simp only [List.find?_cons, h2, h]
      rfl
    · rw [plexSetAddedAtFirst, if_neg h]
      unfold plexGetMovie
      rw [List.find?_cons_of_neg _ (by simpa using h), List.find?_cons_of_neg _ (by simpa using h)]
      exact ih

/-- C8: `movie_update_addedat` compares the matched movie's local
`addedAt` and the argument date (the remote catalog's minute-precision
`DateCreated` in the sync flow) after truncating both to minute
precision; the local value is overwritten with the argument date exactly
when the truncated values differ by more than 12 hours (43200 s) in
either direction; a difference of 12 hours or less leaves the state
unchanged and reports nothing; and under dry-run the intended change is
reported but the write is never applied. -/
theorem C8_addedat_twelve_hour_window (dry : Bool) (pm : List PlexMovie)
    (t : String) (d : Int) (v : PlexMovie)
    (hfind : plexGetMovie t pm = some v) :
    (¬(43200 < truncMin v.addedAt - truncMin d ∨ 43200 < truncMin d - truncMin v.addedAt) →
      movie_update_addedat dry pm t d = some (pm, [])) ∧
    ((43200 < truncMin v.addedAt - truncMin d ∨ 43200 < truncMin d - truncMin v.addedAt) →
      movie_update_addedat true pm t d = some (pm, [.dec (.updatingAddedAt v.id)]) ∧
      movie_update_addedat false pm t d =
        some (plexSetAddedAtFirst t d pm,
          [.dec (.updatingAddedAt v.id), .mut (.plexEditAddedAt v.id d)]) ∧
      plexGetMovie t (plexSetAddedAtFirst t d pm) = some { v with addedAt := d }) := by
  constructor
  · intro hno
    simp only [movie_update_addedat, hfind]
    rw [if_neg (by simp only [Bool.or_eq_true, decide_eq_true_eq]; omega)]
  · intro hyes
    have hb : (decide (truncMin d < truncMin v.addedAt - 43200) ||
        decide (truncMin v.addedAt + 43200 < truncMin d)) = true := by
      simp only [Bool.or_eq_true, decide_eq_true_eq]
      omega
    refine ⟨?_, ?_, ?_⟩
    · simp only [movie_update_addedat, hfind]
      rw [if_pos hb]
      simp
    · simp only [movie_update_addedat, hfind]
      rw [if_pos hb]
      simp
    · rw [plexGetMovie_setFirst, hfind]
      rfl

/-- Witness for C8 at a concrete library: remote minute-truncated date
49980 s differs from local 0 s by more than 12 hours, so the real run
overwrites and reports, as the theorem's update branch states. -/
theorem C8_addedat_twelve_hour_window_witness :
    movie_update_addedat false [⟨"p1", "A", false, 0⟩] "A" 50000
      = some (plexSetAddedAtFirst "A" 50000 [⟨"p1", "A", false, 0⟩],
        [.dec (.updatingAddedAt "p1"), .mut (.plexEditAddedAt "p1" 50000)]) :=
  ((C8_addedat_twelve_hour_window false [⟨"p1", "A", false, 0⟩] "A" 50000
      ⟨"p1", "A", false, 0⟩ (by decide)).2 (by decide)).2.1

/-! ## C7: episode pairing -/

/-- C7: the episode pairing used by both TV sync directions pairs a
local episode with the first remote episode carrying the same
`(seasonNumber, episodeIndex)`: a pairing exists exactly when a remote
episode with identical values exists, the paired episode always has
identical values, and the pairing never consults titles — renaming every
episode title on both sides leaves the pairing unchanged. -/
theorem C7_episode_pairing (lep : PlexEpisode) (reps : List JfEpisode) :
    ((episodeMatch lep reps).isSome = true ↔
      ∃ re ∈ reps, re.indexNumber = lep.index ∧ re.seasonNumber = lep.seasonNumber) ∧
    (∀ re, episodeMatch lep reps = some re →
      re.indexNumber = lep.index ∧ re.seasonNumber = lep.seasonNumber) ∧
    (∀ f : String → String, ∀ t' : String,
      episodeMatch { lep with title := t' } (reps.map fun r => { r with name := f r.name })
        = (episodeMatch lep reps).map fun r => { r with name := f r.name }) := by
  refine ⟨?_, ?_, ?_⟩
  · unfold episodeMatch
    rw [List.find?_isSome]
    constructor
    · rintro ⟨re, hre, hp⟩
      simp only [Bool.and_eq_true, beq_iff_eq] at hp
      exact ⟨re, hre, hp.1, hp.2⟩
    · rintro ⟨re, hre, h1, h2⟩
      exact ⟨re, hre, by simp [h1, h2]⟩
  · intro re h
    have hp := List.find?_some h
    simp only [Bool.and_eq_true, beq_iff_eq] at hp
    exact hp
  · intro f t'
    unfold episodeMatch
    rw [List.find?_map]
    rfl

/-- Witness for C7: a local and a remote episode with entirely different
titles but the same `(season, index)` values are paired. -/
theorem C7_episode_pairing_witness :
    (episodeMatch ⟨"p1", "Local Title", 1, 2, false⟩
      [⟨"j1", "Different Title", 1, 2, true⟩]).isSome = true :=
  (C7_episode_pairing ⟨"p1", "Local Title", 1, 2, false⟩
      [⟨"j1", "Different Title", 1, 2, true⟩]).1.mpr
    ⟨⟨"j1", "Different Title", 1, 2, true⟩, by decide, by decide, by decide⟩

/-! ## C4: movie pair resolution -/

theorem jfFind_isSome_iff (title : String) (jf : List JfMovie) :
    (jellyfin_get_movie_by_title title jf).isSome = true ↔
      ∃ rm ∈ jf, strLower rm.name = strLower title := by
  unfold jellyfin_get_movie_by_title
  rw [List.find?_isSome]
  constructor
  · rintro ⟨rm, hm, hp⟩
    exact ⟨rm, hm, by simpa using hp⟩
  · rintro ⟨rm, hm, hp⟩
    exact ⟨rm, hm, by simpa using hp⟩

theorem jfFind_some_name {title : String} {jf : List JfMovie} {rm : JfMovie}
    (h : jellyfin_get_movie_by_title title jf = some rm) :
    strLower rm.name = strLower title := by
  have hp := List.find?_some h
  simpa using hp

theorem jfFind_mark (title id : String) (jf : List JfMovie) :
    jellyfin_get_movie_by_title title (jfMarkMovie id jf)
      = (jellyfin_get_movie_by_title title jf).map
          fun m => if m.id == id then { m with played := true } else m := by
  unfold jellyfin_get_movie_by_title jfMarkMovie
  have hcomp : ((fun m : JfMovie => strLower m.name == strLower title) ∘
      fun m => if m.id == id then { m with played := true } else m)
      = fun m : JfMovie => strLower m.name == strLower title := by
    funext m
    by_cases h : (m.id == id) = true <;> simp [Function.comp, h]
  rw [List.find?_map, hcomp]

theorem jfFind_none_mark (title id : String) (jf : List JfMovie) :
    (jellyfin_get_movie_by_title title (jfMarkMovie id jf) = none)
      ↔ (jellyfin_get_movie_by_title title jf = none) := by
  rw [jfFind_mark]
  cases jellyfin_get_movie_by_title title jf <;> simp

/-- The `unable to find` report of the `--sync plex,jellyfin movies`
loop is emitted for exactly those snapshot titles with no
case-insensitively equal remote name: real-mode marking of remote movies
never changes names, so the resolution outcome is that of the initial
Jellyfin state. -/
theorem unable_iff_plexToJf (dry : Bool) :
    ∀ (ls : List PlexMovie) (jf : List JfMovie) (t : String),
      Event.dec (.unableToFindMovie t) ∈ (syncMoviesPlexToJfAux dry ls jf).2 ↔
        (∃ lm ∈ ls, lm.title = t) ∧ jellyfin_get_movie_by_title t jf = none := by
  intro ls
  induction ls with
  | nil =>
    intro jf t
    simp [syncMoviesPlexToJfAux]
  | cons lm rest ih =>
    intro jf t
    cases hfind : jellyfin_get_movie_by_title lm.title jf with
    | none =>
      simp only [syncMoviesPlexToJfAux, hfind, List.mem_cons]
      constructor
      · rintro (h1 | h1)
        · rw [Event.dec.injEq, Decision.unableToFindMovie.injEq] at h1
          subst h1
          exact ⟨⟨lm, Or.inl rfl, rfl⟩, hfind⟩
        · obtain ⟨⟨lm', hm, ht⟩, hnone⟩ := (ih jf t).mp h1
          exact ⟨⟨lm', Or.inr hm, ht⟩, hnone⟩
      · rintro ⟨⟨lm', hm, ht⟩, hnone⟩
        rcases hm with h2 | h2
        · subst h2
          subst ht
          exact Or.inl rfl
        · exact Or.inr ((ih jf t).mpr ⟨⟨lm', h2, ht⟩, hnone⟩)
    | some rm =>
      simp only [syncMoviesPlexToJfAux, hfind, List.mem_cons, List.mem_append]
      have hstep : Event.dec (.unableToFindMovie t) ∉ (if lm.played && !rm.played then
          let m := jellyfin_mark_movie_played rm.id dry jf
          (m.1, Event.dec (.localWatchedRemoteNot lm.title) :: m.2)
        else (jf, ([] : List Event))).2 := by
        split
        · simp only [jellyfin_mark_movie_played]
          split
          · intro hc
            simp only [List.mem_cons, List.not_mem_nil, or_false] at hc
            rcases hc with h | h <;> simp at h
          · intro hc
            simp only [List.mem_cons, List.not_mem_nil, or_false] at hc
            rcases hc with h | h | h <;> simp at h
        · simp
      have hstate : (jellyfin_get_movie_by_title t
          (if lm.played && !rm.played then
            let m := jellyfin_mark_movie_played rm.id dry jf
            (m.1, Event.dec (.localWatchedRemoteNot lm.title) :: m.2)
          else (jf, ([] : List Event))).1 = none)
          ↔ (jellyfin_get_movie_by_title t jf = none) := by
        split
        · simp only [jellyfin_mark_movie_played]
          split
          · exact Iff.rfl
          · exact jfFind_none_mark t rm.id jf
        · exact Iff.rfl
      constructor
      · rintro (h1 | h1 | h1)
        · exact absurd h1 (by simp)
        · exact absurd h1 hstep
        · obtain ⟨⟨lm', hm, ht⟩, hnone⟩ := (ih _ t).mp h1
          exact ⟨⟨lm', Or.inr hm, ht⟩, hstate.mp hnone⟩
      · rintro ⟨⟨lm', hm, ht⟩, hnone⟩
        rcases hm with h2 | h2
        · subst h2
          rw [ht] at hfind
          rw [hnone] at hfind
          exact absurd hfind (by simp)
        · exact Or.inr (Or.inr ((ih _ t).mpr ⟨⟨lm', h2, ht⟩, hstate.mpr hnone⟩))

/-- C4 counterexample: local title `"The Matrix (1999)"` and remote name
`"The Matrix"` are equal under exact-normalized matching (both normalize
to `"thematrix"`), yet the movie sync run reports the local movie as
unable-to-find: pair resolution compares the raw titles (lowercased),
not the Matcher's criteria. -/
theorem C4_counterexample :
    normalize_title "The Matrix (1999)" = normalize_title "The Matrix" ∧
      (syncMoviesPlexToJf false
          ⟨[⟨"p1", "The Matrix (1999)", false, 0⟩], [⟨"j1", "The Matrix", false, 0⟩],
            [], [], []⟩).2
        = [.dec (.unableToFindMovie "The Matrix (1999)")] :=
  ⟨by decide, by decide⟩

/-- C4 amended: movie pair resolution does not use the Matcher.  The
resolver returns some movie exactly when some remote movie's raw `Name`
equals the local title after lowercasing — no year stripping, no
punctuation normalization, no fuzzy comparison — the resolved movie's
name is such an equal name, and the sync run reports a local movie as
unable-to-find exactly when no remote movie's lowercased name equals its
lowercased title (even when the exact-normalized or fuzzy criterion
would accept a pair). -/
theorem C4_raw_title_resolution (dry : Bool) (ls : List PlexMovie) (jf : List JfMovie)
    (t : String) :
    ((jellyfin_get_movie_by_title t jf).isSome = true ↔
      ∃ rm ∈ jf, strLower rm.name = strLower t) ∧
    (∀ rm, jellyfin_get_movie_by_title t jf = some rm → strLower rm.name = strLower t) ∧
    (Event.dec (.unableToFindMovie t) ∈ (syncMoviesPlexToJfAux dry ls jf).2 ↔
      (∃ lm ∈ ls, lm.title = t) ∧ jellyfin_get_movie_by_title t jf = none) :=
  ⟨jfFind_isSome_iff t jf, fun _ h => jfFind_some_name h, unable_iff_plexToJf dry ls jf t⟩

/-- Witness for C4's amended theorem: a remote name equal to the local
title only up to case is resolved. -/
theorem C4_raw_title_resolution_witness :
    (jellyfin_get_movie_by_title "The Matrix" [⟨"j1", "the MATRIX", false, 0⟩]).isSome
      = true :=
  (C4_raw_title_resolution false [] [⟨"j1", "the MATRIX", false, 0⟩] "The Matrix").1.mpr
    ⟨⟨"j1", "the MATRIX", false, 0⟩, by decide, by decide⟩

/-! ## C6: transport failure handling -/


/-- C6: transport failures in the per-item catalog calls of src/cli.py
are not caught.  On a three-movie library whose second per-item Jellyfin
fetch times out, the run aborts at the second item: the trace stops
after item 1 and item 3 is never processed, contradicting
log-skip-continue.  The remaining conjuncts show that an HTTP error
status likewise escapes as an exception from `raise_for_status`, that
the unused src/lib/jellyfin_api.py wrapper — which the claim describes —
does catch the failure, log it and degrade to an empty list, and that
the same run with a failure-free oracle processes all three items. -/
theorem C6_transport_failure_aborts_run :
    syncMoviesPlexToJfT false
        [⟨"p1", "M1", true, 0⟩, ⟨"p2", "M2", true, 0⟩, ⟨"p3", "M3", true, 0⟩]
        [.ok ⟨200, []⟩, .error .timeout, .ok ⟨200, []⟩]
      = .error [.dec (.unableToFindMovie "M1")] ∧
    jellyfin_get_movies_cli (.ok ⟨500, []⟩) = .error (.httpStatus 500) ∧
    jellyfin_get_movies_lib (.error .timeout) = ([], true) ∧
    syncMoviesPlexToJfT false
        [⟨"p1", "M1", true, 0⟩, ⟨"p2", "M2", true, 0⟩, ⟨"p3", "M3", true, 0⟩]
        [.ok ⟨200, []⟩, .ok ⟨200, []⟩, .ok ⟨200, []⟩]
      = .ok [.dec (.unableToFindMovie "M1"), .dec (.unableToFindMovie "M2"),
          .dec (.unableToFindMovie "M3")] :=
  ⟨by decide, by decide, by decide, by decide⟩

/-! ## Event bookkeeping lemmas -/

theorem decisions_nil : decisions [] = [] := rfl

theorem decisions_cons_dec (d : Decision) (evs : List Event) :
    decisions (.dec d :: evs) = d :: decisions evs := rfl

theorem decisions_cons_mut (m : Mutation) (evs : List Event) :
    decisions (.mut m :: evs) = decisions evs := rfl

theorem decisions_append (l1 l2 : List Event) :
    decisions (l1 ++ l2) = decisions l1 ++ decisions l2 :=
  List.filterMap_append ..

theorem mutations_nil : mutations [] = [] := rfl

theorem mutations_cons_dec (d : Decision) (evs : List Event) :
    mutations (.dec d :: evs) = mutations evs := rfl

theorem mutations_cons_mut (m : Mutation) (evs : List Event) :
    mutations (.mut m :: evs) = m :: mutations evs := rfl

theorem mutations_append (l1 l2 : List Event) :
    mutations (l1 ++ l2) = mutations l1 ++ mutations l2 :=
  List.filterMap_append ..

/-! ## Dry-run: state unchanged, no write calls -/

theorem movie_update_addedat_dry (pm : List PlexMovie) (t : String) (d : Int) :
    ∀ r, movie_update_addedat true pm t d = some r → r.1 = pm ∧ mutations r.2 = [] := by
  intro r h
  cases hfind : plexGetMovie t pm with
  | none => simp [movie_update_addedat, hfind] at h
  | some v =>
    simp only [movie_update_addedat, hfind, reduceIte] at h
    split at h
    · cases Option.some.inj h
      exact ⟨rfl, rfl⟩
    · cases Option.some.inj h
      exact ⟨rfl, rfl⟩

theorem jfToPlex_dry (jf : List JfMovie) :
    ∀ (ls : List PlexMovie) (pm : List PlexMovie),
      (syncMoviesJfToPlexAux true jf ls pm).1 = pm ∧
        mutations (syncMoviesJfToPlexAux true jf ls pm).2 = [] := by
  intro ls
  induction ls with
  | nil => intro pm; exact ⟨rfl, rfl⟩
  | cons lm rest ih =>
    intro pm
    cases hf : jellyfin_get_movie_by_title lm.title jf with
    | none =>
      simp only [syncMoviesJfToPlexAux, hf]
      exact ⟨(ih pm).1, by rw [mutations_cons_dec]; exact (ih pm).2⟩
    | some rm =>
      cases hu : movie_update_addedat true pm lm.title (truncMin rm.dateCreated) with
      | none =>
        simp only [syncMoviesJfToPlexAux, hf, hu]
        constructor <;> trivial
      | some u =>
        have hud := movie_update_addedat_dry pm lm.title (truncMin rm.dateCreated) u hu
        simp only [syncMoviesJfToPlexAux, hf, hu, reduceIte]
        split
        · exact ⟨by rw [(ih u.1).1]; exact hud.1, by
            simp [mutations_cons_dec, mutations_append, mutations_nil, hud.2, (ih u.1).2]⟩
        · exact ⟨by rw [(ih u.1).1]; exact hud.1, by
            simp [mutations_cons_dec, mutations_append, mutations_nil, hud.2, (ih u.1).2]⟩

theorem plexToJf_dry :
    ∀ (ls : List PlexMovie) (jf : List JfMovie),
      (syncMoviesPlexToJfAux true ls jf).1 = jf ∧
        mutations (syncMoviesPlexToJfAux true ls jf).2 = [] := by
  intro ls
  induction ls with
  | nil => intro jf; exact ⟨rfl, rfl⟩
  | cons lm rest ih =>
    intro jf
    cases hf : jellyfin_get_movie_by_title lm.title jf with
    | none =>
      simp only [syncMoviesPlexToJfAux, hf]
      exact ⟨(ih jf).1, by rw [mutations_cons_dec]; exact (ih jf).2⟩
    | some rm =>
      simp only [syncMoviesPlexToJfAux, hf, jellyfin_mark_movie_played, reduceIte]
      split
      · exact ⟨(ih jf).1, by
          simp [mutations_cons_dec, mutations_append, mutations_nil, (ih jf).2]⟩
      · exact ⟨(ih jf).1, by
          simp [mutations_cons_dec, mutations_append, mutations_nil, (ih jf).2]⟩

theorem tvEpisodesJfToPlex_dry (reps : List JfEpisode) :
    ∀ (leps : List PlexEpisode) (shows : List PlexShow),
      (tvEpisodesJfToPlex true reps leps shows).1 = shows ∧
        mutations (tvEpisodesJfToPlex true reps leps shows).2 = [] := by
  intro leps
  induction leps with
  | nil => intro shows; exact ⟨rfl, rfl⟩
  | cons lep rest ih =>
    intro shows
    cases hm : episodeMatch lep reps with
    | none =>
      simp only [tvEpisodesJfToPlex, hm]
      exact ⟨(ih shows).1, by
        simp [mutations_append, mutations_nil, (ih shows).2]⟩
    | some m =>
      simp only [tvEpisodesJfToPlex, hm, reduceIte]
      split
      · exact ⟨(ih shows).1, by
          simp [mutations_append, mutations_cons_dec, mutations_nil, (ih shows).2]⟩
      · exact ⟨(ih shows).1, by
          simp [mutations_append, mutations_nil, (ih shows).2]⟩

theorem tvJfToPlex_dry (jshows : List JfShow) (jeps : List (String × List JfEpisode)) :
    ∀ (ls : List PlexShow) (shows : List PlexShow),
      (syncTvJfToPlexAux true jshows jeps ls shows).1 = shows ∧
        mutations (syncTvJfToPlexAux true jshows jeps ls shows).2 = [] := by
  intro ls
  induction ls with
  | nil => intro shows; exact ⟨rfl, rfl⟩
  | cons lshow rest ih =>
    intro shows
    cases hf : jellyfin_get_tvshow_by_title lshow.title jshows with
    | none =>
      simp only [syncTvJfToPlexAux, hf]
      exact ⟨(ih shows).1, by rw [mutations_cons_dec]; exact (ih shows).2⟩
    | some rshow =>
      simp only [syncTvJfToPlexAux, hf]
      have he := tvEpisodesJfToPlex_dry (jellyfin_get_episodes rshow.id jeps)
        (plexGetEpisodes lshow.id shows) shows
      constructor
      · rw [he.1, (ih shows).1]
      · rw [he.1]
        simp [mutations_cons_dec, mutations_append, he.2, (ih shows).2]

theorem tvEpisodesPlexToJf_dry (reps : List JfEpisode) :
    ∀ (leps : List PlexEpisode) (jeps : List (String × List JfEpisode)),
      (tvEpisodesPlexToJf true reps leps jeps).1 = jeps ∧
        mutations (tvEpisodesPlexToJf true reps leps jeps).2 = [] := by
  intro leps
  induction leps with
  | nil => intro jeps; exact ⟨rfl, rfl⟩
  | cons lep rest ih =>
    intro jeps
    cases hm : episodeMatch lep reps with
    | none =>
      simp only [tvEpisodesPlexToJf, hm]
      exact ⟨(ih jeps).1, by simp [mutations_append, mutations_nil, (ih jeps).2]⟩
    | some m =>
      simp only [tvEpisodesPlexToJf, hm, jellyfin_mark_episode_played, reduceIte]
      split
      · exact ⟨(ih jeps).1, by
          simp [mutations_append, mutations_cons_dec, mutations_nil, (ih jeps).2]⟩
      · exact ⟨(ih jeps).1, by
          simp [mutations_append, mutations_nil, (ih jeps).2]⟩

theorem find?_cons_true {α} (p : α → Bool) (a : α) (l : List α) (h : p a = true) :
    (a :: l).find? p = some a := by
  simp [List.find?_cons, h]

theorem find?_cons_false {α} (p : α → Bool) (a : α) (l : List α) (h : p a = false) :
    (a :: l).find? p = l.find? p := by
  simp [List.find?_cons, h]

/-! ## C2: a real run reports the same decisions as a dry run

`JfRel S jf0 jf'` relates the initial Jellyfin movie list to the list
after some real-mode marks: names, ids and creation dates are untouched,
and a played flag may only have been raised, and only on a movie whose
lowercased name belongs to the processed-title set `S`. -/


theorem jfRel_refl (S : List String) : ∀ jf, JfRel S jf jf
  | [] => trivial
  | _ :: l => ⟨⟨rfl, rfl, rfl, Or.inl rfl⟩, jfRel_refl S l⟩

theorem jfRel_mono {S S' : List String} (hs : ∀ x ∈ S, x ∈ S') :
    ∀ jf0 jf', JfRel S jf0 jf' → JfRel S' jf0 jf' := by
  intro jf0
  induction jf0 with
  | nil =>
    intro jf' h
    cases jf' with
    | nil => trivial
    | cons b l2 => exact h.elim
  | cons a l1 ih =>
    intro jf' h
    cases jf' with
    | nil => exact h.elim
    | cons b l2 =>
      obtain ⟨⟨h1, h2, h3, h4⟩, htail⟩ := h
      refine ⟨⟨h1, h2, h3, ?_⟩, ih l2 htail⟩
      rcases h4 with h4 | h4
      · exact Or.inl h4
      · exact Or.inr ⟨h4.1, hs _ h4.2⟩

theorem jfRel_map_id {S : List String} :
    ∀ jf0 jf', JfRel S jf0 jf' → jf'.map JfMovie.id = jf0.map JfMovie.id := by
  intro jf0
  induction jf0 with
  | nil =>
    intro jf' h
    cases jf' with
    | nil => rfl
    | cons b l2 => exact h.elim
  | cons a l1 ih =>
    intro jf' h
    cases jf' with
    | nil => exact h.elim
    | cons b l2 =>
      obtain ⟨⟨h1, _, _, _⟩, htail⟩ := h
      simp only [List.map_cons]
      rw [h1, ih l2 htail]

theorem jfRel_find {S : List String} (t : String) (hS : strLower t ∉ S) :
    ∀ jf0 jf', JfRel S jf0 jf' →
      (jellyfin_get_movie_by_title t jf' = none ↔
        jellyfin_get_movie_by_title t jf0 = none) ∧
      ∀ a, jellyfin_get_movie_by_title t jf0 = some a →
        ∃ b, jellyfin_get_movie_by_title t jf' = some b ∧
          b.id = a.id ∧ b.played = a.played := by
  intro jf0
  induction jf0 with
  | nil =>
    intro jf' h
    cases jf' with
    | nil => exact ⟨Iff.rfl, by simp [jellyfin_get_movie_by_title]⟩
    | cons b l2 => exact h.elim
  | cons a l1 ih =>
    intro jf' h
    cases jf' with
    | nil => exact h.elim
    | cons b l2 =>
      obtain ⟨⟨hid, hname, hdate, hplayed⟩, htail⟩ := h
      by_cases hp : (strLower a.name == strLower t) = true
      · have hpb : (strLower b.name == strLower t) = true := by rw [hname]; exact hp
        constructor
        · unfold jellyfin_get_movie_by_title
          rw [find?_cons_true (fun m => strLower m.name == strLower t) b l2 hpb, find?_cons_true (fun m => strLower m.name == strLower t) a l1 hp]
          simp
        · intro x hx
          unfold jellyfin_get_movie_by_title at hx ⊢
          rw [find?_cons_true (fun m => strLower m.name == strLower t) a l1 hp] at hx
          cases Option.some.inj hx
          rw [find?_cons_true (fun m => strLower m.name == strLower t) b l2 hpb]
          refine ⟨b, rfl, hid, ?_⟩
          rcases hplayed with h4 | h4
          · exact h4
          · exact absurd (by rw [← beq_iff_eq.mp hp]; exact h4.2) hS
      · have hpb : (strLower b.name == strLower t) = false := by
          rw [hname]
          exact Bool.eq_false_iff.mpr (fun hc => hp hc)
        have hpf : (strLower a.name == strLower t) = false :=
          Bool.eq_false_iff.mpr (fun hc => hp hc)
        have hrec := ih l2 htail
        constructor
        · unfold jellyfin_get_movie_by_title at hrec ⊢
          rw [find?_cons_false (fun m => strLower m.name == strLower t) b l2 hpb, find?_cons_false (fun m => strLower m.name == strLower t) a l1 hpf]
          exact hrec.1
        · intro x hx
          unfold jellyfin_get_movie_by_title at hrec hx ⊢
          rw [find?_cons_false (fun m => strLower m.name == strLower t) a l1 hpf] at hx
          rw [find?_cons_false (fun m => strLower m.name == strLower t) b l2 hpb]
          exact hrec.2 x hx

theorem jfMarkMovie_not_mem {id : String} :
    ∀ l : List JfMovie, (∀ c ∈ l, c.id ≠ id) → jfMarkMovie id l = l := by
  intro l
  induction l with
  | nil => intro _; rfl
  | cons c rest ih =>
    intro h
    unfold jfMarkMovie
    rw [List.map_cons]
    have hc : (c.id == id) = false :=
      Bool.eq_false_iff.mpr fun hb => h c (List.mem_cons_self c rest) (beq_iff_eq.mp hb)
    rw [if_neg (by simp [hc])]
    have := ih fun d hd => h d (List.mem_cons_of_mem _ hd)
    unfold jfMarkMovie at this
    rw [this]

theorem jfRel_mark {S : List String} {t : String} :
    ∀ jf0 jf', JfRel S jf0 jf' → (jf0.map JfMovie.id).Nodup →
      ∀ rm, jellyfin_get_movie_by_title t jf' = some rm →
      JfRel (strLower t :: S) jf0 (jfMarkMovie rm.id jf') := by
  intro jf0
  induction jf0 with
  | nil =>
    intro jf' h _ rm hrm
    cases jf' with
    | nil => exact absurd hrm (by simp [jellyfin_get_movie_by_title])
    | cons b l2 => exact h.elim
  | cons a l1 ih =>
    intro jf' h hno rm hrm
    cases jf' with
    | nil => exact h.elim
    | cons b l2 =>
      obtain ⟨⟨hid, hname, hdate, hplayed⟩, htail⟩ := h
      rw [List.map_cons, List.nodup_cons] at hno
      have hl2ids : l2.map JfMovie.id = l1.map JfMovie.id := jfRel_map_id l1 l2 htail
      by_cases hp : (strLower b.name == strLower t) = true
      · have hrmb : rm = b := by
          unfold jellyfin_get_movie_by_title at hrm
          rw [find?_cons_true (fun m => strLower m.name == strLower t) b l2 hp] at hrm
          exact (Option.some.inj hrm).symm
        subst hrmb
        unfold jfMarkMovie
        rw [List.map_cons, if_pos (by simp)]
        refine ⟨⟨hid, hname, hdate, Or.inr ⟨rfl, ?_⟩⟩, ?_⟩
        · rw [show strLower a.name = strLower t by rw [← hname]; exact beq_iff_eq.mp hp]
          exact List.mem_cons_self _ _
        · have hmark : jfMarkMovie rm.id l2 = l2 := by
            refine jfMarkMovie_not_mem l2 fun c hc hcid => ?_
            have : c.id ∈ l1.map JfMovie.id := by
              rw [← hl2ids]
              exact List.mem_map_of_mem _ hc
            rw [hcid, hid] at this
            exact hno.1 this
          unfold jfMarkMovie at hmark
          rw [hmark]
          exact jfRel_mono (fun x hx => List.mem_cons_of_mem _ hx) l1 l2 htail
      · have hrmtail : jellyfin_get_movie_by_title t l2 = some rm := by
          unfold jellyfin_get_movie_by_title at hrm ⊢
          rw [find?_cons_false (fun m => strLower m.name == strLower t) b l2 (Bool.eq_false_iff.mpr fun hc => hp hc)] at hrm
          exact hrm
        have hrmid : rm.id ≠ b.id := by
          intro hc
          have hrmmem : rm ∈ l2 := List.mem_of_find?_eq_some hrmtail
          have : rm.id ∈ l1.map JfMovie.id := by
            rw [← hl2ids]
            exact List.mem_map_of_mem _ hrmmem
          rw [hc, hid] at this
          exact hno.1 this
        unfold jfMarkMovie
        rw [List.map_cons, if_neg (by simp; exact fun hc => hrmid hc.symm)]
        refine ⟨⟨hid, hname, hdate, ?_⟩, ?_⟩
        · rcases hplayed with h4 | h4
          · exact Or.inl h4
          · exact Or.inr ⟨h4.1, List.mem_cons_of_mem _ h4.2⟩
        · have := ih l2 htail hno.2 rm hrmtail
          unfold jfMarkMovie at this
          exact this


theorem pmRel_refl (S : List String) : ∀ pm, PmRel S pm pm
  | [] => trivial
  | _ :: l => ⟨⟨rfl, rfl, Or.inl rfl⟩, pmRel_refl S l⟩

theorem pmRel_mono {S S' : List String} (hs : ∀ x ∈ S, x ∈ S') :
    ∀ pm0 pm', PmRel S pm0 pm' → PmRel S' pm0 pm' := by
  intro pm0
  induction pm0 with
  | nil =>
    intro pm' h
    cases pm' with
    | nil => trivial
    | cons b l2 => exact h.elim
  | cons a l1 ih =>
    intro pm' h
    cases pm' with
    | nil => exact h.elim
    | cons b l2 =>
      obtain ⟨⟨h1, h2, h3⟩, htail⟩ := h
      refine ⟨⟨h1, h2, ?_⟩, ih l2 htail⟩
      rcases h3 with h3 | h3
      · exact Or.inl h3
      · exact Or.inr (hs _ h3)

theorem pmRel_find {S : List String} (t : String) (hS : strLower t ∉ S) :
    ∀ pm0 pm', PmRel S pm0 pm' →
      (plexGetMovie t pm' = none ↔ plexGetMovie t pm0 = none) ∧
      ∀ a, plexGetMovie t pm0 = some a →
        ∃ b, plexGetMovie t pm' = some b ∧ b.id = a.id ∧ b.addedAt = a.addedAt := by
  intro pm0
  induction pm0 with
  | nil =>
    intro pm' h
    cases pm' with
    | nil => exact ⟨Iff.rfl, by simp [plexGetMovie]⟩
    | cons b l2 => exact h.elim
  | cons a l1 ih =>
    intro pm' h
    cases pm' with
    | nil => exact h.elim
    | cons b l2 =>
      obtain ⟨⟨hid, htitle, haa⟩, htail⟩ := h
      by_cases hp : (strLower a.title == strLower t) = true
      · have hpb : (strLower b.title == strLower t) = true := by rw [htitle]; exact hp
        constructor
        · unfold plexGetMovie
          rw [find?_cons_true (fun m => strLower m.title == strLower t) b l2 hpb,
            find?_cons_true (fun m => strLower m.title == strLower t) a l1 hp]
          simp
        · intro x hx
          unfold plexGetMovie at hx ⊢
          rw [find?_cons_true (fun m => strLower m.title == strLower t) a l1 hp] at hx
          cases Option.some.inj hx
          rw [find?_cons_true (fun m => strLower m.title == strLower t) b l2 hpb]
          refine ⟨b, rfl, hid, ?_⟩
          rcases haa with h3 | h3
          · exact h3
          · exact absurd (by rw [← beq_iff_eq.mp hp]; exact h3) hS
      · have hpb : (strLower b.title == strLower t) = false := by
          rw [htitle]
          exact Bool.eq_false_iff.mpr fun hc => hp hc
        have hpf : (strLower a.title == strLower t) = false :=
          Bool.eq_false_iff.mpr fun hc => hp hc
        have hrec := ih l2 htail
        constructor
        · unfold plexGetMovie at hrec ⊢
          rw [find?_cons_false (fun m => strLower m.title == strLower t) b l2 hpb,
            find?_cons_false (fun m => strLower m.title == strLower t) a l1 hpf]
          exact hrec.1
        · intro x hx
          unfold plexGetMovie at hrec hx ⊢
          rw [find?_cons_false (fun m => strLower m.title == strLower t) a l1 hpf] at hx
          rw [find?_cons_false (fun m => strLower m.title == strLower t) b l2 hpb]
          exact hrec.2 x hx

theorem pmRel_mark {S : List String} (id : String) :
    ∀ pm0 pm', PmRel S pm0 pm' → PmRel S pm0 (plexMarkMovie id pm') := by
  intro pm0
  induction pm0 with
  | nil =>
    intro pm' h
    cases pm' with
    | nil => trivial
    | cons b l2 => exact h.elim
  | cons a l1 ih =>
    intro pm' h
    cases pm' with
    | nil => exact h.elim
    | cons b l2 =>
      obtain ⟨⟨h1, h2, h3⟩, htail⟩ := h
      unfold plexMarkMovie
      rw [List.map_cons]
      have hrec := ih l2 htail
      unfold plexMarkMovie at hrec
      by_cases hb : (b.id == id) = true
      · rw [if_pos hb]
        exact ⟨⟨h1, h2, h3⟩, hrec⟩
      · rw [if_neg hb]
        exact ⟨⟨h1, h2, h3⟩, hrec⟩

theorem pmRel_set {S : List String} (t : String) (d : Int) :
    ∀ pm0 pm', PmRel S pm0 pm' →
      PmRel (strLower t :: S) pm0 (plexSetAddedAtFirst t d pm') := by
  intro pm0
  induction pm0 with
  | nil =>
    intro pm' h
    cases pm' with
    | nil => trivial
    | cons b l2 => exact h.elim
  | cons a l1 ih =>
    intro pm' h
    cases pm' with
    | nil => exact h.elim
    | cons b l2 =>
      obtain ⟨⟨h1, h2, h3⟩, htail⟩ := h
      unfold plexSetAddedAtFirst
      by_cases hb : (strLower b.title == strLower t) = true
      · rw [if_pos hb]
        refine ⟨⟨h1, h2, Or.inr ?_⟩, ?_⟩
        · rw [← h2, beq_iff_eq.mp hb]
          exact List.mem_cons_self _ _
        · exact pmRel_mono (fun x hx => List.mem_cons_of_mem _ hx) l1 l2 htail
      · rw [if_neg hb]
        refine ⟨⟨h1, h2, ?_⟩, ih l2 htail⟩
        rcases h3 with h3 | h3
        · exact Or.inl h3
        · exact Or.inr (List.mem_cons_of_mem _ h3)

/-- Real-mode and dry-mode `--sync jellyfin,plex movies` runs report the
same decisions when the snapshot titles are pairwise distinct ignoring
case. -/
theorem decisions_jfToPlex (jf : List JfMovie) (pm0 : List PlexMovie) :
    ∀ (ls : List PlexMovie) (S : List String) (pm' : List PlexMovie),
      PmRel S pm0 pm' →
      (∀ lm ∈ ls, strLower lm.title ∉ S) →
      (ls.map fun m => strLower m.title).Nodup →
      decisions (syncMoviesJfToPlexAux false jf ls pm').2
        = decisions (syncMoviesJfToPlexAux true jf ls pm0).2 := by
  intro ls
  induction ls with
  | nil => intro S pm' _ _ _; rfl
  | cons lm rest ih =>
    intro S pm' hrel hS hnodup
    rw [List.map_cons, List.nodup_cons] at hnodup
    have htailS : ∀ m ∈ rest, strLower m.title ∉ S :=
      fun m hm => hS m (List.mem_cons_of_mem _ hm)
    cases hjf : jellyfin_get_movie_by_title lm.title jf with
    | none =>
      simp only [syncMoviesJfToPlexAux, hjf, decisions_cons_dec]
      rw [ih S pm' hrel htailS hnodup.2]
    | some rm =>
      have hfind := pmRel_find lm.title (hS lm (List.mem_cons_self _ _)) pm0 pm' hrel
      cases h0 : plexGetMovie lm.title pm0 with
      | none =>
        have h' : plexGetMovie lm.title pm' = none := hfind.1.mpr h0
        simp only [syncMoviesJfToPlexAux, hjf, movie_update_addedat, h0, h']
      | some v =>
        obtain ⟨w, hw, hwid, hwaa⟩ := hfind.2 v h0
        simp only [syncMoviesJfToPlexAux, hjf, movie_update_addedat, h0, hw]
        by_cases hc : (decide (truncMin (truncMin rm.dateCreated) < truncMin v.addedAt - 43200)
            || decide (truncMin v.addedAt + 43200 < truncMin (truncMin rm.dateCreated))) = true
        · have hc' : (decide (truncMin (truncMin rm.dateCreated) < truncMin w.addedAt - 43200)
              || decide (truncMin w.addedAt + 43200
                < truncMin (truncMin rm.dateCreated))) = true := by
            rw [hwaa]; exact hc
          rw [if_pos hc', if_pos hc]
          simp only [Bool.false_eq_true, if_false, reduceIte]
          have htailS' : ∀ m ∈ rest, strLower m.title ∉ strLower lm.title :: S := by
            intro m hm2
            rw [List.mem_cons]
            rintro (hc2 | hc2)
            · exact hnodup.1 (hc2 ▸ List.mem_map_of_mem _ hm2)
            · exact htailS m hm2 hc2
          by_cases hm : (rm.played && !lm.played) = true
          · rw [if_pos hm, if_pos hm]
            have hrel' := pmRel_mark lm.id pm0 _
              (pmRel_set lm.title (truncMin rm.dateCreated) pm0 pm' hrel)
            have hrec := ih (strLower lm.title :: S) _ hrel' htailS' hnodup.2
            simp only [decisions_cons_dec, decisions_append, decisions_cons_mut, decisions_nil,
              List.cons_append, List.nil_append, List.append_nil]
            rw [hrec, hwid]
          · rw [if_neg hm, if_neg hm]
            have hrel' := pmRel_set lm.title (truncMin rm.dateCreated) pm0 pm' hrel
            have hrec := ih (strLower lm.title :: S) _ hrel' htailS' hnodup.2
            simp only [decisions_cons_dec, decisions_append, decisions_cons_mut, decisions_nil,
              List.cons_append, List.nil_append, List.append_nil]
            rw [hrec, hwid]
        · have hc' : ¬ (decide (truncMin (truncMin rm.dateCreated)
                < truncMin w.addedAt - 43200)
              || decide (truncMin w.addedAt + 43200
                < truncMin (truncMin rm.dateCreated))) = true := by
            intro hx
            rw [hwaa] at hx
            exact hc hx
          rw [if_neg hc', if_neg hc]
          simp only [Bool.false_eq_true, if_false, reduceIte]
          by_cases hm : (rm.played && !lm.played) = true
          · rw [if_pos hm, if_pos hm]
            have hrel' := pmRel_mark lm.id pm0 pm' hrel
            have hrec := ih S _ hrel' htailS hnodup.2
            simp only [decisions_cons_dec, decisions_append, decisions_cons_mut, decisions_nil,
              List.cons_append, List.nil_append, List.append_nil]
            rw [hrec]
          · rw [if_neg hm, if_neg hm]
            simp only [decisions_cons_dec, decisions_append, decisions_nil,
              List.nil_append, List.append_nil]
            rw [ih S pm' hrel htailS hnodup.2]

theorem jellyfin_mark_movie_played_real (id : String) (jf : List JfMovie) :
    jellyfin_mark_movie_played id false jf
      = (jfMarkMovie id jf, [.mut (.jfMarkMoviePlayed id), .dec (.wouldMarkJfMoviePlayed id)]) := rfl

theorem jellyfin_mark_movie_played_dry (id : String) (jf : List JfMovie) :
    jellyfin_mark_movie_played id true jf = (jf, [.dec (.wouldMarkJfMoviePlayed id)]) := rfl

/-- Real-mode and dry-mode `--sync plex,jellyfin movies` runs report the
same decisions when remote ids are unique and the snapshot titles are
pairwise distinct ignoring case. -/
theorem decisions_plexToJf (jf0 : List JfMovie) (hids : (jf0.map JfMovie.id).Nodup) :
    ∀ (ls : List PlexMovie) (S : List String) (jf' : List JfMovie),
      JfRel S jf0 jf' →
      (∀ lm ∈ ls, strLower lm.title ∉ S) →
      (ls.map fun m => strLower m.title).Nodup →
      decisions (syncMoviesPlexToJfAux false ls jf').2
        = decisions (syncMoviesPlexToJfAux true ls jf0).2 := by
  intro ls
  induction ls with
  | nil => intro S jf' _ _ _; rfl
  | cons lm rest ih =>
    intro S jf' hrel hS hnodup
    rw [List.map_cons, List.nodup_cons] at hnodup
    have htailS : ∀ m ∈ rest, strLower m.title ∉ S :=
      fun m hm => hS m (List.mem_cons_of_mem _ hm)
    have hfind := jfRel_find lm.title (hS lm (List.mem_cons_self _ _)) jf0 jf' hrel
    cases h0 : jellyfin_get_movie_by_title lm.title jf0 with
    | none =>
      have h' : jellyfin_get_movie_by_title lm.title jf' = none := hfind.1.mpr h0
      simp only [syncMoviesPlexToJfAux, h0, h', decisions_cons_dec]
      rw [ih S jf' hrel htailS hnodup.2]
    | some a =>
      obtain ⟨b, hb, hbid, hbplayed⟩ := hfind.2 a h0
      simp only [syncMoviesPlexToJfAux, h0, hb]
      by_cases hcond : (lm.played && !a.played) = true
      · have hcond' : (lm.played && !b.played) = true := by rw [hbplayed]; exact hcond
        rw [if_pos hcond', if_pos hcond]
        have hrel' := jfRel_mark jf0 jf' hrel hids b hb
        have htailS' : ∀ m ∈ rest, strLower m.title ∉ strLower lm.title :: S := by
          intro m hm
          rw [List.mem_cons]
          rintro (hc | hc)
          · exact hnodup.1 (hc ▸ List.mem_map_of_mem _ hm)
          · exact htailS m hm hc
        have hrec := ih (strLower lm.title :: S) _ hrel' htailS' hnodup.2
        simp only [jellyfin_mark_movie_played_real, jellyfin_mark_movie_played_dry,
          decisions_cons_dec, decisions_append, decisions_cons_mut, decisions_nil,
          List.cons_append, List.nil_append]
        rw [hrec, hbid]
      · have hcond' : (lm.played && !b.played) = false := by
          rw [hbplayed]
          exact Bool.eq_false_iff.mpr fun hc => hcond hc
        rw [if_neg (by simp [hcond']), if_neg (by simp [hcond])]
        simp only [decisions_cons_dec, decisions_append, decisions_nil, List.nil_append]
        rw [ih S jf' hrel htailS hnodup.2]


theorem pepsRel_refl (S : List String) : ∀ l, PEpsRel S l l
  | [] => trivial
  | _ :: l => ⟨⟨rfl, rfl, rfl, rfl, Or.inl rfl⟩, pepsRel_refl S l⟩

theorem psRel_refl (S : List String) : ∀ s, PsRel S s s
  | [] => trivial
  | a :: l => ⟨⟨rfl, rfl, pepsRel_refl S a.episodes⟩, psRel_refl S l⟩

theorem pepsRel_mono {S S' : List String} (hs : ∀ x ∈ S, x ∈ S') :
    ∀ l0 l', PEpsRel S l0 l' → PEpsRel S' l0 l' := by
  intro l0
  induction l0 with
  | nil =>
    intro l' h
    cases l' with
    | nil => trivial
    | cons b l2 => exact h.elim
  | cons a l1 ih =>
    intro l' h
    cases l' with
    | nil => exact h.elim
    | cons b l2 =>
      obtain ⟨⟨h1, h2, h3, h4, h5⟩, htail⟩ := h
      refine ⟨⟨h1, h2, h3, h4, ?_⟩, ih l2 htail⟩
      rcases h5 with h5 | h5
      · exact Or.inl h5
      · exact Or.inr (hs _ h5)

theorem psRel_mono {S S' : List String} (hs : ∀ x ∈ S, x ∈ S') :
    ∀ s0 s', PsRel S s0 s' → PsRel S' s0 s' := by
  intro s0
  induction s0 with
  | nil =>
    intro s' h
    cases s' with
    | nil => trivial
    | cons b l2 => exact h.elim
  | cons a l1 ih =>
    intro s' h
    cases s' with
    | nil => exact h.elim
    | cons b l2 =>
      obtain ⟨⟨h1, h2, h3⟩, htail⟩ := h
      exact ⟨⟨h1, h2, pepsRel_mono hs _ _ h3⟩, ih l2 htail⟩

theorem psRel_getEpisodes {S : List String} (x : String) :
    ∀ s0 s', PsRel S s0 s' →
      PEpsRel S (plexGetEpisodes x s0) (plexGetEpisodes x s') := by
  intro s0
  induction s0 with
  | nil =>
    intro s' h
    cases s' with
    | nil => trivial
    | cons b l2 => exact h.elim
  | cons a l1 ih =>
    intro s' h
    cases s' with
    | nil => exact h.elim
    | cons b l2 =>
      obtain ⟨⟨h1, h2, h3⟩, htail⟩ := h
      by_cases hx : (a.id == x) = true
      · have hxb : (b.id == x) = true := by rw [h1]; exact hx
        unfold plexGetEpisodes
        rw [find?_cons_true (fun s => s.id == x) a l1 hx,
          find?_cons_true (fun s => s.id == x) b l2 hxb]
        exact h3
      · have hxb : (b.id == x) = false := by
          rw [h1]
          exact Bool.eq_false_iff.mpr fun hc => hx hc
        have hxf : (a.id == x) = false := Bool.eq_false_iff.mpr fun hc => hx hc
        have hrec := ih l2 htail
        unfold plexGetEpisodes at hrec ⊢
        rw [find?_cons_false (fun s => s.id == x) a l1 hxf,
          find?_cons_false (fun s => s.id == x) b l2 hxb]
        exact hrec

theorem pepsRel_eq_of_disjoint {S : List String} :
    ∀ l0 l', PEpsRel S l0 l' → (∀ e ∈ l0, e.id ∉ S) → l' = l0 := by
  intro l0
  induction l0 with
  | nil =>
    intro l' h _
    cases l' with
    | nil => rfl
    | cons b l2 => exact h.elim
  | cons a l1 ih =>
    intro l' h hdis
    cases l' with
    | nil => exact h.elim
    | cons b l2 =>
      obtain ⟨⟨h1, h2, h3, h4, h5⟩, htail⟩ := h
      have hp : b.played = a.played := by
        rcases h5 with h5 | h5
        · exact h5
        · exact absurd (h1 ▸ h5) (hdis a (List.mem_cons_self _ _))
      have hb : b = a := by
        calc b = ⟨b.id, b.title, b.seasonNumber, b.index, b.played⟩ := rfl
          _ = ⟨a.id, a.title, a.seasonNumber, a.index, a.played⟩ := by
              rw [h1, h2, h3, h4, hp]
          _ = a := rfl
      rw [hb, ih l2 htail fun e he => hdis e (List.mem_cons_of_mem _ he)]

theorem pepsRel_markMap {S : List String} {x : String} (hx : x ∈ S) :
    ∀ l0 l', PEpsRel S l0 l' →
      PEpsRel S l0 (l'.map fun e => if e.id == x then { e with played := true } else e) := by
  intro l0
  induction l0 with
  | nil =>
    intro l' h
    cases l' with
    | nil => trivial
    | cons b l2 => exact h.elim
  | cons a l1 ih =>
    intro l' h
    cases l' with
    | nil => exact h.elim
    | cons b l2 =>
      obtain ⟨⟨h1, h2, h3, h4, h5⟩, htail⟩ := h
      rw [List.map_cons]
      by_cases hb : (b.id == x) = true
      · rw [if_pos hb]
        exact ⟨⟨h1, h2, h3, h4, Or.inr (by rw [← beq_iff_eq.mp hb] at hx; exact hx)⟩,
          ih l2 htail⟩
      · rw [if_neg hb]
        exact ⟨⟨h1, h2, h3, h4, h5⟩, ih l2 htail⟩

theorem psRel_markEpisode {S : List String} {x : String} (hx : x ∈ S) :
    ∀ s0 s', PsRel S s0 s' → PsRel S s0 (plexMarkEpisode x s') := by
  intro s0
  induction s0 with
  | nil =>
    intro s' h
    cases s' with
    | nil => trivial
    | cons b l2 => exact h.elim
  | cons a l1 ih =>
    intro s' h
    cases s' with
    | nil => exact h.elim
    | cons b l2 =>
      obtain ⟨⟨h1, h2, h3⟩, htail⟩ := h
      unfold plexMarkEpisode
      rw [List.map_cons]
      have hrec := ih l2 htail
      unfold plexMarkEpisode at hrec
      exact ⟨⟨h1, h2, pepsRel_markMap hx _ _ h3⟩, hrec⟩

/-- The decisions of one show's jellyfin→plex episode loop depend only
on the remote snapshot and the local episode snapshot, never on the
threaded Plex state. -/
theorem decisions_tvEpisodesJfToPlex (reps : List JfEpisode) :
    ∀ (leps : List PlexEpisode) (shows1 shows2 : List PlexShow),
      decisions (tvEpisodesJfToPlex false reps leps shows2).2
        = decisions (tvEpisodesJfToPlex true reps leps shows1).2 := by
  intro leps
  induction leps with
  | nil => intro shows1 shows2; rfl
  | cons lep rest ih =>
    intro shows1 shows2
    simp only [tvEpisodesJfToPlex, Bool.false_eq_true, if_false, reduceIte]
    cases hm : episodeMatch lep reps with
    | none =>
      simp only [decisions_append, decisions_nil, List.nil_append]
      exact ih shows1 shows2
    | some m =>
      simp only []
      by_cases hc : (m.played && !lep.played) = true
      · rw [if_pos hc, if_pos hc]
        simp only [decisions_append, decisions_cons_dec, decisions_cons_mut, decisions_nil,
          List.cons_append, List.nil_append]
        rw [ih shows1 _]
      · rw [if_neg hc, if_neg hc]
        simp only [decisions_append, decisions_nil, List.nil_append]
        exact ih shows1 shows2

theorem tvEpisodesJfToPlex_state_rel {S : List String} (reps : List JfEpisode) :
    ∀ (leps : List PlexEpisode) (s0 s' : List PlexShow),
      PsRel S s0 s' → (∀ lep ∈ leps, lep.id ∈ S) →
      PsRel S s0 (tvEpisodesJfToPlex false reps leps s').1 := by
  intro leps
  induction leps with
  | nil => intro s0 s' h _; exact h
  | cons lep rest ih =>
    intro s0 s' h hS
    simp only [tvEpisodesJfToPlex, Bool.false_eq_true, if_false, reduceIte]
    cases hm : episodeMatch lep reps with
    | none => exact ih s0 s' h fun e he => hS e (List.mem_cons_of_mem _ he)
    | some m =>
      simp only []
      by_cases hc : (m.played && !lep.played) = true
      · rw [if_pos hc]
        exact ih s0 _ (psRel_markEpisode (hS lep (List.mem_cons_self _ _)) s0 s' h)
          fun e he => hS e (List.mem_cons_of_mem _ he)
      · rw [if_neg hc]
        exact ih s0 s' h fun e he => hS e (List.mem_cons_of_mem _ he)

/-- Real-mode and dry-mode `--sync jellyfin,plex tv` runs report the
same decisions when the snapshot shows carry pairwise id-disjoint
episode lists. -/
theorem decisions_tvJfToPlex (jshows : List JfShow) (jeps : List (String × List JfEpisode))
    (shows0 : List PlexShow) :
    ∀ (ls : List PlexShow) (S : List String) (shows' : List PlexShow),
      PsRel S shows0 shows' →
      (∀ s1 ∈ ls, ∀ e ∈ plexGetEpisodes s1.id shows0, e.id ∉ S) →
      ls.Pairwise (fun s1 s2 => ∀ e ∈ plexGetEpisodes s1.id shows0,
        ∀ f ∈ plexGetEpisodes s2.id shows0, e.id ≠ f.id) →
      decisions (syncTvJfToPlexAux false jshows jeps ls shows').2
        = decisions (syncTvJfToPlexAux true jshows jeps ls shows0).2 := by
  intro ls
  induction ls with
  | nil => intro S shows' _ _ _; rfl
  | cons lshow rest ih =>
    intro S shows' hrel hS hdisj
    rw [List.pairwise_cons] at hdisj
    have htailS : ∀ s1 ∈ rest, ∀ e ∈ plexGetEpisodes s1.id shows0, e.id ∉ S :=
      fun s1 hs1 => hS s1 (List.mem_cons_of_mem _ hs1)
    cases hjf : jellyfin_get_tvshow_by_title lshow.title jshows with
    | none =>
      simp only [syncTvJfToPlexAux, hjf, decisions_cons_dec]
      rw [ih S shows' hrel htailS hdisj.2]
    | some rshow =>
      have heq : plexGetEpisodes lshow.id shows' = plexGetEpisodes lshow.id shows0 :=
        pepsRel_eq_of_disjoint _ _ (psRel_getEpisodes lshow.id shows0 shows' hrel)
          (hS lshow (List.mem_cons_self _ _))
      simp only [syncTvJfToPlexAux, hjf, heq]
      have hdry := tvEpisodesJfToPlex_dry (jellyfin_get_episodes rshow.id jeps)
        (plexGetEpisodes lshow.id shows0) shows0
      rw [hdry.1]
      have hrel' : PsRel ((plexGetEpisodes lshow.id shows0).map PlexEpisode.id ++ S) shows0
          (tvEpisodesJfToPlex false (jellyfin_get_episodes rshow.id jeps)
            (plexGetEpisodes lshow.id shows0) shows').1 :=
        tvEpisodesJfToPlex_state_rel _ _ shows0 shows'
          (psRel_mono (fun x hx => List.mem_append_right _ hx) shows0 shows' hrel)
          fun lep hlep => List.mem_append_left _ (List.mem_map_of_mem _ hlep)
      have htailS' : ∀ s1 ∈ rest, ∀ e ∈ plexGetEpisodes s1.id shows0,
          e.id ∉ (plexGetEpisodes lshow.id shows0).map PlexEpisode.id ++ S := by
        intro s1 hs1 e he hmem
        rcases List.mem_append.mp hmem with hmem | hmem
        · obtain ⟨f, hf, hfe⟩ := List.mem_map.mp hmem
          exact hdisj.1 s1 hs1 f hf e he hfe
        · exact htailS s1 hs1 e he hmem
      have hrec := ih _ _ hrel' htailS' hdisj.2
      simp only [decisions_cons_dec, decisions_append]
      rw [decisions_tvEpisodesJfToPlex (jellyfin_get_episodes rshow.id jeps)
        (plexGetEpisodes lshow.id shows0) shows0, hrec]


theorem jEpsRel_refl (S : List String) : ∀ l, JEpsRel S l l
  | [] => trivial
  | _ :: l => ⟨⟨rfl, rfl, rfl, rfl, Or.inl rfl⟩, jEpsRel_refl S l⟩

theorem jepsRel_refl (S : List String) : ∀ j, JepsRel S j j
  | [] => trivial
  | a :: l => ⟨⟨rfl, jEpsRel_refl S a.2⟩, jepsRel_refl S l⟩

theorem jEpsRel_mono {S S' : List String} (hs : ∀ x ∈ S, x ∈ S') :
    ∀ l0 l', JEpsRel S l0 l' → JEpsRel S' l0 l' := by
  intro l0
  induction l0 with
  | nil =>
    intro l' h
    cases l' with
    | nil => trivial
    | cons b l2 => exact h.elim
  | cons a l1 ih =>
    intro l' h
    cases l' with
    | nil => exact h.elim
    | cons b l2 =>
      obtain ⟨⟨h1, h2, h3, h4, h5⟩, htail⟩ := h
      refine ⟨⟨h1, h2, h3, h4, ?_⟩, ih l2 htail⟩
      rcases h5 with h5 | h5
      · exact Or.inl h5
      · exact Or.inr (hs _ h5)

theorem jepsRel_mono {S S' : List String} (hs : ∀ x ∈ S, x ∈ S') :
    ∀ j0 j', JepsRel S j0 j' → JepsRel S' j0 j' := by
  intro j0
  induction j0 with
  | nil =>
    intro j' h
    cases j' with
    | nil => trivial
    | cons b l2 => exact h.elim
  | cons a l1 ih =>
    intro j' h
    cases j' with
    | nil => exact h.elim
    | cons b l2 =>
      obtain ⟨⟨h1, h2⟩, htail⟩ := h
      exact ⟨⟨h1, jEpsRel_mono hs _ _ h2⟩, ih l2 htail⟩

theorem jepsRel_getEpisodes {S : List String} (x : String) :
    ∀ j0 j', JepsRel S j0 j' →
      JEpsRel S (jellyfin_get_episodes x j0) (jellyfin_get_episodes x j') := by
  intro j0
  induction j0 with
  | nil =>
    intro j' h
    cases j' with
    | nil => trivial
    | cons b l2 => exact h.elim
  | cons a l1 ih =>
    intro j' h
    cases j' with
    | nil => exact h.elim
    | cons b l2 =>
      obtain ⟨⟨h1, h2⟩, htail⟩ := h
      by_cases hx : (a.1 == x) = true
      · have hxb : (b.1 == x) = true := by rw [h1]; exact hx
        unfold jellyfin_get_episodes
        rw [find?_cons_true (fun p => p.1 == x) a l1 hx,
          find?_cons_true (fun p => p.1 == x) b l2 hxb]
        exact h2
      · have hxb : (b.1 == x) = false := by
          rw [h1]
          exact Bool.eq_false_iff.mpr fun hc => hx hc
        have hxf : (a.1 == x) = false := Bool.eq_false_iff.mpr fun hc => hx hc
        have hrec := ih l2 htail
        unfold jellyfin_get_episodes at hrec ⊢
        rw [find?_cons_false (fun p => p.1 == x) a l1 hxf,
          find?_cons_false (fun p => p.1 == x) b l2 hxb]
        exact hrec

theorem jEpsRel_eq_of_disjoint {S : List String} :
    ∀ l0 l', JEpsRel S l0 l' → (∀ e ∈ l0, e.id ∉ S) → l' = l0 := by
  intro l0
  induction l0 with
  | nil =>
    intro l' h _
    cases l' with
    | nil => rfl
    | cons b l2 => exact h.elim
  | cons a l1 ih =>
    intro l' h hdis
    cases l' with
    | nil => exact h.elim
    | cons b l2 =>
      obtain ⟨⟨h1, h2, h3, h4, h5⟩, htail⟩ := h
      have hp : b.played = a.played := by
        rcases h5 with h5 | h5
        · exact h5
        · exact absurd (h1 ▸ h5) (hdis a (List.mem_cons_self _ _))
      have hb : b = a := by
        calc b = ⟨b.id, b.name, b.seasonNumber, b.indexNumber, b.played⟩ := rfl
          _ = ⟨a.id, a.name, a.seasonNumber, a.indexNumber, a.played⟩ := by
              rw [h1, h2, h3, h4, hp]
          _ = a := rfl
      rw [hb, ih l2 htail fun e he => hdis e (List.mem_cons_of_mem _ he)]

theorem jEpsRel_markMap {S : List String} {x : String} (hx : x ∈ S) :
    ∀ l0 l', JEpsRel S l0 l' →
      JEpsRel S l0 (l'.map fun e => if e.id == x then { e with played := true } else e) := by
  intro l0
  induction l0 with
  | nil =>
    intro l' h
    cases l' with
    | nil => trivial
    | cons b l2 => exact h.elim
  | cons a l1 ih =>
    intro l' h
    cases l' with
    | nil => exact h.elim
    | cons b l2 =>
      obtain ⟨⟨h1, h2, h3, h4, h5⟩, htail⟩ := h
      rw [List.map_cons]
      by_cases hb : (b.id == x) = true
      · rw [if_pos hb]
        exact ⟨⟨h1, h2, h3, h4, Or.inr (by rw [← beq_iff_eq.mp hb] at hx; exact hx)⟩,
          ih l2 htail⟩
      · rw [if_neg hb]
        exact ⟨⟨h1, h2, h3, h4, h5⟩, ih l2 htail⟩

theorem jepsRel_markEpisode {S : List String} {x : String} (hx : x ∈ S) :
    ∀ j0 j', JepsRel S j0 j' → JepsRel S j0 (jfMarkEpisode x j') := by
  intro j0
  induction j0 with
  | nil =>
    intro j' h
    cases j' with
    | nil => trivial
    | cons b l2 => exact h.elim
  | cons a l1 ih =>
    intro j' h
    cases j' with
    | nil => exact h.elim
    | cons b l2 =>
      obtain ⟨⟨h1, h2⟩, htail⟩ := h
      unfold jfMarkEpisode
      rw [List.map_cons]
      have hrec := ih l2 htail
      unfold jfMarkEpisode at hrec
      exact ⟨⟨h1, jEpsRel_markMap hx _ _ h2⟩, hrec⟩

/-- The decisions of one show's plex→jellyfin episode loop depend only
on the remote snapshot and the local episode snapshot, never on the
threaded Jellyfin state. -/
theorem decisions_tvEpisodesPlexToJf (reps : List JfEpisode) :
    ∀ (leps : List PlexEpisode) (jeps1 jeps2 : List (String × List JfEpisode)),
      decisions (tvEpisodesPlexToJf false reps leps jeps2).2
        = decisions (tvEpisodesPlexToJf true reps leps jeps1).2 := by
  intro leps
  induction leps with
  | nil => intro jeps1 jeps2; rfl
  | cons lep rest ih =>
    intro jeps1 jeps2
    simp only [tvEpisodesPlexToJf, jellyfin_mark_episode_played,
      Bool.false_eq_true, if_false, reduceIte]
    cases hm : episodeMatch lep reps with
    | none =>
      simp only [decisions_append, decisions_nil, List.nil_append]
      exact ih jeps1 jeps2
    | some m =>
      simp only []
      by_cases hc : (lep.played && !m.played) = true
      · rw [if_pos hc, if_pos hc]
        simp only [decisions_append, decisions_cons_dec, decisions_cons_mut, decisions_nil,
          List.cons_append, List.nil_append]
        rw [ih jeps1 _]
      · rw [if_neg hc, if_neg hc]
        simp only [decisions_append, decisions_nil, List.nil_append]
        exact ih jeps1 jeps2

theorem tvEpisodesPlexToJf_state_rel {S : List String} (reps : List JfEpisode)
    (hreps : ∀ m ∈ reps, m.id ∈ S) :
    ∀ (leps : List PlexEpisode) (j0 j' : List (String × List JfEpisode)),
      JepsRel S j0 j' →
      JepsRel S j0 (tvEpisodesPlexToJf false reps leps j').1 := by
  intro leps
  induction leps with
  | nil => intro j0 j' h; exact h
  | cons lep rest ih =>
    intro j0 j' h
    simp only [tvEpisodesPlexToJf, jellyfin_mark_episode_played,
      Bool.false_eq_true, if_false, reduceIte]
    cases hm : episodeMatch lep reps with
    | none => exact ih j0 j' h
    | some m =>
      simp only []
      have hmem : m ∈ reps := List.mem_of_find?_eq_some hm
      by_cases hc : (lep.played && !m.played) = true
      · rw [if_pos hc]
        exact ih j0 _ (jepsRel_markEpisode (hreps m hmem) j0 j' h)
      · rw [if_neg hc]
        exact ih j0 j' h

/-- Real-mode and dry-mode `--sync plex,jellyfin tv` runs report the
same decisions when the snapshot shows resolve to pairwise id-disjoint
remote episode lists. -/
theorem decisions_tvPlexToJf (jshows : List JfShow) (pshows : List PlexShow)
    (jeps0 : List (String × List JfEpisode)) :
    ∀ (ls : List PlexShow) (S : List String) (jeps' : List (String × List JfEpisode)),
      JepsRel S jeps0 jeps' →
      (∀ s1 ∈ ls, ∀ r1, jellyfin_get_tvshow_by_title s1.title jshows = some r1 →
        ∀ e ∈ jellyfin_get_episodes r1.id jeps0, e.id ∉ S) →
      ls.Pairwise (fun s1 s2 => ∀ r1 r2,
        jellyfin_get_tvshow_by_title s1.title jshows = some r1 →
        jellyfin_get_tvshow_by_title s2.title jshows = some r2 →
        ∀ e ∈ jellyfin_get_episodes r1.id jeps0,
        ∀ f ∈ jellyfin_get_episodes r2.id jeps0, e.id ≠ f.id) →
      decisions (syncTvPlexToJfAux false jshows pshows ls jeps').2
        = decisions (syncTvPlexToJfAux true jshows pshows ls jeps0).2 := by
  intro ls
  induction ls with
  | nil => intro S jeps' _ _ _; rfl
  | cons lshow rest ih =>
    intro S jeps' hrel hS hdisj
    rw [List.pairwise_cons] at hdisj
    have htailS : ∀ s1 ∈ rest, ∀ r1, jellyfin_get_tvshow_by_title s1.title jshows = some r1 →
        ∀ e ∈ jellyfin_get_episodes r1.id jeps0, e.id ∉ S :=
      fun s1 hs1 => hS s1 (List.mem_cons_of_mem _ hs1)
    cases hjf : jellyfin_get_tvshow_by_title lshow.title jshows with
    | none =>
      simp only [syncTvPlexToJfAux, hjf, decisions_cons_dec]
      rw [ih S jeps' hrel htailS hdisj.2]
    | some rshow =>
      have heq : jellyfin_get_episodes rshow.id jeps' = jellyfin_get_episodes rshow.id jeps0 :=
        jEpsRel_eq_of_disjoint _ _ (jepsRel_getEpisodes rshow.id jeps0 jeps' hrel)
          (hS lshow (List.mem_cons_self _ _) rshow hjf)
      simp only [syncTvPlexToJfAux, hjf, heq]
      have hdry := tvEpisodesPlexToJf_dry (jellyfin_get_episodes rshow.id jeps0)
        (plexGetEpisodes lshow.id pshows) jeps0
      rw [hdry.1]
      have hrel' : JepsRel ((jellyfin_get_episodes rshow.id jeps0).map JfEpisode.id ++ S) jeps0
          (tvEpisodesPlexToJf false (jellyfin_get_episodes rshow.id jeps0)
            (plexGetEpisodes lshow.id pshows) jeps').1 :=
        tvEpisodesPlexToJf_state_rel _
          (fun m hm => List.mem_append_left _ (List.mem_map_of_mem _ hm)) _ jeps0 jeps'
          (jepsRel_mono (fun x hx => List.mem_append_right _ hx) jeps0 jeps' hrel)
      have htailS' : ∀ s1 ∈ rest, ∀ r1,
          jellyfin_get_tvshow_by_title s1.title jshows = some r1 →
          ∀ e ∈ jellyfin_get_episodes r1.id jeps0,
          e.id ∉ (jellyfin_get_episodes rshow.id jeps0).map JfEpisode.id ++ S := by
        intro s1 hs1 r1 hr1 e he hmem
        rcases List.mem_append.mp hmem with hmem | hmem
        · obtain ⟨f, hf, hfe⟩ := List.mem_map.mp hmem
          exact hdisj.1 s1 hs1 rshow r1 hjf hr1 f hf e he hfe
        · exact htailS s1 hs1 r1 hr1 e he hmem
      have hrec := ih _ _ hrel' htailS' hdisj.2
      simp only [decisions_cons_dec, decisions_append]
      rw [decisions_tvEpisodesPlexToJf (jellyfin_get_episodes rshow.id jeps0)
        (plexGetEpisodes lshow.id pshows) jeps0, hrec]

theorem tvPlexToJf_dry (jshows : List JfShow) (pshows : List PlexShow) :
    ∀ (ls : List PlexShow) (jeps : List (String × List JfEpisode)),
      (syncTvPlexToJfAux true jshows pshows ls jeps).1 = jeps ∧
        mutations (syncTvPlexToJfAux true jshows pshows ls jeps).2 = [] := by
  intro ls
  induction ls with
  | nil => intro jeps; exact ⟨rfl, rfl⟩
  | cons lshow rest ih =>
    intro jeps
    cases hf : jellyfin_get_tvshow_by_title lshow.title jshows with
    | none =>
      simp only [syncTvPlexToJfAux, hf]
      exact ⟨(ih jeps).1, by rw [mutations_cons_dec]; exact (ih jeps).2⟩
    | some rshow =>
      simp only [syncTvPlexToJfAux, hf]
      have he := tvEpisodesPlexToJf_dry (jellyfin_get_episodes rshow.id jeps)
        (plexGetEpisodes lshow.id pshows) jeps
      constructor
      · rw [he.1, (ih jeps).1]
      · rw [he.1]
        simp [mutations_cons_dec, mutations_append, he.2, (ih jeps).2]

/-! ## C3: a second identical run performs zero mutations

The key facts are per direction: a real run establishes a convergence
predicate on the final state, the predicate is preserved by all later
writes of the run, and a run over a converged state performs no write at
all. -/

theorem find?_congr {α} (p q : α → Bool) (h : ∀ a, p a = q a) :
    ∀ l : List α, l.find? p = l.find? q := by
  intro l
  induction l with
  | nil => rfl
  | cons a t ih => simp only [List.find?_cons, h a, ih]

/-- Marking a Jellyfin movie id commutes with the by-title lookup: the
found entry is the marked image of the previously found entry. -/
theorem jellyfin_lookup_mark (t x : String) (jf : List JfMovie) :
    jellyfin_get_movie_by_title t (jfMarkMovie x jf)
      = (jellyfin_get_movie_by_title t jf).map
          (fun rm => if rm.id == x then { rm with played := true } else rm) := by
  unfold jellyfin_get_movie_by_title jfMarkMovie
  rw [List.find?_map]
  rw [find?_congr _ (fun m => strLower m.name == strLower t) ?_ jf]
  intro m
  show (strLower (if (m.id == x) = true then { m with played := true } else m).name
      == strLower t) = (strLower m.name == strLower t)
  by_cases h : (m.id == x) = true
  · rw [if_pos h]
  · rw [if_neg h]


theorem doneP_mark {jf : List JfMovie} {t : String} {lp : Bool} (x : String)
    (h : DoneP jf t lp) : DoneP (jfMarkMovie x jf) t lp := by
  intro rm hrm hlp
  rw [jellyfin_lookup_mark] at hrm
  cases h0 : jellyfin_get_movie_by_title t jf with
  | none => rw [h0] at hrm; exact absurd hrm (by simp)
  | some rm0 =>
    rw [h0] at hrm
    simp only [Option.map_some'] at hrm
    have hp0 := h rm0 h0 hlp
    by_cases hx : (rm0.id == x) = true
    · rw [if_pos hx] at hrm
      rw [← Option.some.inj hrm]
    · rw [if_neg hx] at hrm
      rw [← Option.some.inj hrm]
      exact hp0

/-- A real plex→jellyfin movie run converges every processed title and
preserves previously converged ones. -/
theorem plexToJf_establish :
    ∀ (ls : List PlexMovie) (jf : List JfMovie),
      (∀ t lp, DoneP jf t lp → DoneP (syncMoviesPlexToJfAux false ls jf).1 t lp) ∧
      (∀ lm ∈ ls, DoneP (syncMoviesPlexToJfAux false ls jf).1 lm.title lm.played) := by
  intro ls
  induction ls with
  | nil => intro jf; exact ⟨fun t lp h => h, fun lm hlm => absurd hlm (List.not_mem_nil _)⟩
  | cons lm rest ih =>
    intro jf
    cases h0 : jellyfin_get_movie_by_title lm.title jf with
    | none =>
      simp only [syncMoviesPlexToJfAux, h0]
      refine ⟨fun t lp h => (ih jf).1 t lp h, ?_⟩
      intro lm2 hlm2
      rcases List.mem_cons.mp hlm2 with heq | hmem
      · subst heq
        -- the processed title is absent from the remote catalog: the
        -- tail run preserves the vacuously converged predicate
        refine (ih jf).1 lm2.title lm2.played ?_
        intro rm hrm
        rw [h0] at hrm
        exact absurd hrm (by simp)
      · exact (ih jf).2 lm2 hmem
    | some rm =>
      simp only [syncMoviesPlexToJfAux, h0, jellyfin_mark_movie_played_real,
        Bool.false_eq_true, if_false, reduceIte]
      by_cases hc : (lm.played && !rm.played) = true
      · rw [if_pos hc]
        simp only []
        have hdone : DoneP (jfMarkMovie rm.id jf) lm.title lm.played := by
          intro rm2 hrm2 _
          rw [jellyfin_lookup_mark, h0] at hrm2
          simp only [Option.map_some'] at hrm2
          rw [if_pos (by simp)] at hrm2
          rw [← Option.some.inj hrm2]
        refine ⟨fun t lp h => (ih _).1 t lp (doneP_mark rm.id h), ?_⟩
        intro lm2 hlm2
        rcases List.mem_cons.mp hlm2 with heq | hmem
        · subst heq
          exact (ih _).1 lm2.title lm2.played hdone
        · exact (ih _).2 lm2 hmem
      · rw [if_neg hc]
        simp only []
        have hdone : DoneP jf lm.title lm.played := by
          intro rm2 hrm2 hlp
          rw [h0] at hrm2
          cases Option.some.inj hrm2
          cases hrp : rm.played with
          | true => rfl
          | false => exact absurd (show (lm.played && !rm.played) = true by
              rw [hlp, hrp]; rfl) hc
        refine ⟨fun t lp h => (ih jf).1 t lp h, ?_⟩
        intro lm2 hlm2
        rcases List.mem_cons.mp hlm2 with heq | hmem
        · subst heq
          exact (ih jf).1 lm2.title lm2.played hdone
        · exact (ih jf).2 lm2 hmem

/-- Runs over a converged state write nothing. -/
theorem plexToJf_second :
    ∀ (ls : List PlexMovie) (jf : List JfMovie),
      (∀ lm ∈ ls, DoneP jf lm.title lm.played) →
      (syncMoviesPlexToJfAux false ls jf).1 = jf ∧
        mutations (syncMoviesPlexToJfAux false ls jf).2 = [] := by
  intro ls
  induction ls with
  | nil => intro jf _; exact ⟨rfl, rfl⟩
  | cons lm rest ih =>
    intro jf h
    have htail : ∀ lm2 ∈ rest, DoneP jf lm2.title lm2.played :=
      fun lm2 hlm2 => h lm2 (List.mem_cons_of_mem _ hlm2)
    cases h0 : jellyfin_get_movie_by_title lm.title jf with
    | none =>
      simp only [syncMoviesPlexToJfAux, h0]
      have hrec := ih jf htail
      exact ⟨hrec.1, by simp only [mutations_cons_dec]; exact hrec.2⟩
    | some rm =>
      have hc : (lm.played && !rm.played) = false := by
        cases hlp : lm.played with
        | false => rfl
        | true =>
          have := h lm (List.mem_cons_self _ _) rm h0 hlp
          rw [this]
          rfl
      simp only [syncMoviesPlexToJfAux, h0]
      rw [if_neg (by rw [hc]; exact fun hx => Bool.noConfusion hx)]
      simp only []
      have hrec := ih jf htail
      refine ⟨hrec.1, ?_⟩
      simp only [mutations_cons_dec, mutations_append, mutations_nil, List.nil_append]
      exact hrec.2

/-- Marking a Plex movie id commutes with the by-title lookup. -/
theorem plexGetMovie_mark (t x : String) (pm : List PlexMovie) :
    plexGetMovie t (plexMarkMovie x pm)
      = (plexGetMovie t pm).map (fun v => if v.id == x then { v with played := true } else v) := by
  unfold plexGetMovie plexMarkMovie
  rw [List.find?_map]
  rw [find?_congr _ (fun m => strLower m.title == strLower t) ?_ pm]
  intro m
  show (strLower (if (m.id == x) = true then { m with played := true } else m).title
      == strLower t) = (strLower m.title == strLower t)
  by_cases h : (m.id == x) = true
  · rw [if_pos h]
  · rw [if_neg h]

/-- Writing the addedAt of the first `t'`-match commutes with the
by-title lookup for an aliasing title. -/
theorem plexGetMovie_set_same (t t' : String) (d : Int) (h : strLower t' = strLower t) :
    ∀ pm : List PlexMovie,
      plexGetMovie t (plexSetAddedAtFirst t' d pm)
        = (plexGetMovie t pm).map (fun v => { v with addedAt := d }) := by
  intro pm
  induction pm with
  | nil => rfl
  | cons m rest ih =>
    unfold plexSetAddedAtFirst
    by_cases hm : (strLower m.title == strLower t') = true
    · rw [if_pos hm]
      have hmt : (strLower m.title == strLower t) = true := by rw [← h]; exact hm
      unfold plexGetMovie
      rw [find?_cons_true (fun v => strLower v.title == strLower t)
          ({ m with addedAt := d }) rest hmt,
        find?_cons_true (fun v => strLower v.title == strLower t) m rest hmt]
      rfl
    · rw [if_neg hm]
      have hmt : (strLower m.title == strLower t) = false := by
        rw [← h]; exact Bool.eq_false_iff.mpr fun hx => hm hx
      unfold plexGetMovie at ih ⊢
      rw [find?_cons_false (fun v => strLower v.title == strLower t) m _ hmt,
        find?_cons_false (fun v => strLower v.title == strLower t) m rest hmt]
      exact ih

/-- Writing the addedAt of the first `t'`-match leaves the lookup of a
non-aliasing title `t` untouched. -/
theorem plexGetMovie_set_diff (t t' : String) (d : Int) (h : strLower t' ≠ strLower t) :
    ∀ pm : List PlexMovie,
      plexGetMovie t (plexSetAddedAtFirst t' d pm) = plexGetMovie t pm := by
  intro pm
  induction pm with
  | nil => rfl
  | cons m rest ih =>
    unfold plexSetAddedAtFirst
    by_cases hm : (strLower m.title == strLower t') = true
    · rw [if_pos hm]
      have hmt : (strLower m.title == strLower t) = false := by
        refine Bool.eq_false_iff.mpr fun hx => h ?_
        rw [← beq_iff_eq.mp hm, beq_iff_eq.mp hx]
      unfold plexGetMovie
      rw [find?_cons_false (fun v => strLower v.title == strLower t)
          ({ m with addedAt := d }) rest hmt,
        find?_cons_false (fun v => strLower v.title == strLower t) m rest hmt]
    · rw [if_neg hm]
      by_cases hmt : (strLower m.title == strLower t) = true
      · unfold plexGetMovie
        rw [find?_cons_true (fun v => strLower v.title == strLower t) m _ hmt,
          find?_cons_true (fun v => strLower v.title == strLower t) m rest hmt]
      · have hmt' : (strLower m.title == strLower t) = false :=
          Bool.eq_false_iff.mpr fun hx => hmt hx
        unfold plexGetMovie at ih ⊢
        rw [find?_cons_false (fun v => strLower v.title == strLower t) m _ hmt',
          find?_cons_false (fun v => strLower v.title == strLower t) m rest hmt']
        exact ih

theorem jellyfin_get_movie_by_title_congr {t t' : String} (h : strLower t = strLower t')
    (jf : List JfMovie) :
    jellyfin_get_movie_by_title t jf = jellyfin_get_movie_by_title t' jf := by
  unfold jellyfin_get_movie_by_title
  exact find?_congr _ _ (fun m => by rw [h]) jf

/-- A timestamp just written from the remote creation time is within the
12-hour window of itself. -/
theorem overdue_self (d : Int) :
    (decide (truncMin (truncMin d) < truncMin (truncMin d) - 43200)
      || decide (truncMin (truncMin d) + 43200 < truncMin (truncMin d))) = false := by
  simp only [Bool.or_eq_false_iff, decide_eq_false_iff_not]
  omega


theorem pmMono_refl : ∀ pm, PmMono pm pm
  | [] => trivial
  | _ :: l => ⟨⟨rfl, rfl, fun h => h⟩, pmMono_refl l⟩

theorem pmMono_trans : ∀ pm0 pm1 pm2, PmMono pm0 pm1 → PmMono pm1 pm2 → PmMono pm0 pm2 := by
  intro pm0
  induction pm0 with
  | nil =>
    intro pm1 pm2 h1 h2
    cases pm1 with
    | nil => cases pm2 with
      | nil => trivial
      | cons c l2 => exact h2.elim
    | cons b l1 => exact h1.elim
  | cons a l0 ih =>
    intro pm1 pm2 h1 h2
    cases pm1 with
    | nil => exact h1.elim
    | cons b l1 =>
      cases pm2 with
      | nil => exact h2.elim
      | cons c l2 =>
        obtain ⟨⟨hb1, hb2, hb3⟩, ht1⟩ := h1
        obtain ⟨⟨hc1, hc2, hc3⟩, ht2⟩ := h2
        exact ⟨⟨hc1.trans hb1, hc2.trans hb2, fun h => hc3 (hb3 h)⟩, ih l1 l2 ht1 ht2⟩

theorem pmMono_mark (x : String) : ∀ pm, PmMono pm (plexMarkMovie x pm) := by
  intro pm
  induction pm with
  | nil => trivial
  | cons m rest ih =>
    unfold plexMarkMovie
    rw [List.map_cons]
    have hrec := ih
    unfold plexMarkMovie at hrec
    by_cases hm : (m.id == x) = true
    · rw [if_pos hm]
      exact ⟨⟨rfl, rfl, fun _ => rfl⟩, hrec⟩
    · rw [if_neg hm]
      exact ⟨⟨rfl, rfl, fun h => h⟩, hrec⟩

theorem pmMono_set (t : String) (d : Int) : ∀ pm, PmMono pm (plexSetAddedAtFirst t d pm) := by
  intro pm
  induction pm with
  | nil => trivial
  | cons m rest ih =>
    unfold plexSetAddedAtFirst
    by_cases hm : (strLower m.title == strLower t) = true
    · rw [if_pos hm]
      exact ⟨⟨rfl, rfl, fun h => h⟩, pmMono_refl rest⟩
    · rw [if_neg hm]
      exact ⟨⟨rfl, rfl, fun h => h⟩, ih⟩

theorem pmMono_member : ∀ pm0 pm', PmMono pm0 pm' →
    ∀ b ∈ pm', ∃ a ∈ pm0, b.id = a.id ∧ b.title = a.title ∧ (a.played = true → b.played = true) := by
  intro pm0
  induction pm0 with
  | nil =>
    intro pm' h b hb
    cases pm' with
    | nil => exact absurd hb (List.not_mem_nil _)
    | cons c l2 => exact h.elim
  | cons a l1 ih =>
    intro pm' h b hb
    cases pm' with
    | nil => exact h.elim
    | cons c l2 =>
      obtain ⟨⟨h1, h2, h3⟩, htail⟩ := h
      rcases List.mem_cons.mp hb with heq | hmem
      · subst heq
        exact ⟨a, List.mem_cons_self _ _, h1, h2, h3⟩
      · obtain ⟨a2, ha2, f1, f2, f3⟩ := ih l2 htail b hmem
        exact ⟨a2, List.mem_cons_of_mem _ ha2, f1, f2, f3⟩

theorem find_success_mark (t x : String) (pm : List PlexMovie)
    (h : ∃ v, plexGetMovie t pm = some v) :
    ∃ v, plexGetMovie t (plexMarkMovie x pm) = some v := by
  obtain ⟨v, hv⟩ := h
  rw [plexGetMovie_mark, hv]
  exact ⟨_, rfl⟩

theorem find_success_set (t t' : String) (d : Int) (pm : List PlexMovie)
    (h : ∃ v, plexGetMovie t pm = some v) :
    ∃ v, plexGetMovie t (plexSetAddedAtFirst t' d pm) = some v := by
  obtain ⟨v, hv⟩ := h
  by_cases hst : strLower t' = strLower t
  · rw [plexGetMovie_set_same t t' d hst, hv]
    exact ⟨_, rfl⟩
  · rw [plexGetMovie_set_diff t t' d hst, hv]
    exact ⟨_, rfl⟩

theorem doneA_mark {jf : List JfMovie} {pm : List PlexMovie} {t : String} (x : String)
    (h : DoneA jf pm t) : DoneA jf (plexMarkMovie x pm) t := by
  intro rm hrm v hv
  rw [plexGetMovie_mark] at hv
  cases h0 : plexGetMovie t pm with
  | none => rw [h0] at hv; exact absurd hv (by simp)
  | some v0 =>
    rw [h0] at hv
    simp only [Option.map_some'] at hv
    have hc := h rm hrm v0 h0
    by_cases hx : (v0.id == x) = true
    · rw [if_pos hx] at hv
      rw [← Option.some.inj hv]
      exact hc
    · rw [if_neg hx] at hv
      rw [← Option.some.inj hv]
      exact hc

theorem doneA_set {jf : List JfMovie} {pm : List PlexMovie} {t t' : String} {rm' : JfMovie}
    (hrm' : jellyfin_get_movie_by_title t' jf = some rm')
    (h : DoneA jf pm t) :
    DoneA jf (plexSetAddedAtFirst t' (truncMin rm'.dateCreated) pm) t := by
  intro rm hrm v hv
  by_cases hst : strLower t' = strLower t
  · rw [plexGetMovie_set_same t t' _ hst pm] at hv
    cases h0 : plexGetMovie t pm with
    | none => rw [h0] at hv; exact absurd hv (by simp)
    | some v0 =>
      rw [h0] at hv
      simp only [Option.map_some'] at hv
      have hrmeq : rm = rm' := by
        rw [jellyfin_get_movie_by_title_congr hst.symm jf, hrm'] at hrm
        exact (Option.some.inj hrm).symm
      rw [← Option.some.inj hv, hrmeq]
      exact overdue_self rm'.dateCreated
  · rw [plexGetMovie_set_diff t t' _ hst pm] at hv
    exact h rm hrm v hv

theorem doneA_establish_set {jf : List JfMovie} {pm : List PlexMovie} {t : String}
    {rm : JfMovie} (hrm : jellyfin_get_movie_by_title t jf = some rm) :
    DoneA jf (plexSetAddedAtFirst t (truncMin rm.dateCreated) pm) t := by
  intro rm2 hrm2 v hv
  rw [plexGetMovie_set_same t t _ rfl pm] at hv
  cases h0 : plexGetMovie t pm with
  | none => rw [h0] at hv; exact absurd hv (by simp)
  | some v0 =>
    rw [h0] at hv
    simp only [Option.map_some'] at hv
    have hrmeq : rm2 = rm := by
      rw [hrm] at hrm2
      exact (Option.some.inj hrm2).symm
    rw [← Option.some.inj hv, hrmeq]
    exact overdue_self rm.dateCreated

theorem idPlayed_mark_self (x : String) : ∀ pm, IdPlayed (plexMarkMovie x pm) x := by
  intro pm e he hid
  obtain ⟨e0, he0, heq⟩ := List.mem_map.mp he
  by_cases hx : (e0.id == x) = true
  · rw [if_pos hx] at heq
    rw [← heq]
  · rw [if_neg hx] at heq
    subst heq
    exact absurd (beq_iff_eq.mpr hid) (Bool.eq_false_iff.mp
      (Bool.eq_false_iff.mpr fun hc => hx hc))

theorem idPlayed_mark (x y : String) {pm : List PlexMovie} (h : IdPlayed pm x) :
    IdPlayed (plexMarkMovie y pm) x := by
  intro e he hid
  obtain ⟨e0, he0, heq⟩ := List.mem_map.mp he
  by_cases hy : (e0.id == y) = true
  · rw [if_pos hy] at heq
    rw [← heq]
  · rw [if_neg hy] at heq
    subst heq
    exact h e0 he0 hid

theorem idPlayed_set (x t : String) (d : Int) {pm : List PlexMovie} (h : IdPlayed pm x) :
    ∀ pm2, pm2 = plexSetAddedAtFirst t d pm → IdPlayed pm2 x := by
  induction pm with
  | nil => intro pm2 hpm2 e he; rw [hpm2] at he; exact absurd he (List.not_mem_nil _)
  | cons m rest ih =>
    intro pm2 hpm2 e he hid
    rw [hpm2] at he
    unfold plexSetAddedAtFirst at he
    by_cases hm : (strLower m.title == strLower t) = true
    · rw [if_pos hm] at he
      rcases List.mem_cons.mp he with heq | hmem
      · subst heq
        exact h m (List.mem_cons_self _ _) hid
      · exact h e (List.mem_cons_of_mem _ hmem) hid
    · rw [if_neg hm] at he
      rcases List.mem_cons.mp he with heq | hmem
      · subst heq
        exact h e (List.mem_cons_self _ _) hid
      · exact ih (fun e2 he2 => h e2 (List.mem_cons_of_mem _ he2)) _ rfl e hmem hid

/-- A real jellyfin→plex movie run converges every processed title's
timestamp and played flag, and preserves previously converged ones. -/
theorem jfToPlex_establish (jf : List JfMovie) :
    ∀ (ls : List PlexMovie) (pm : List PlexMovie),
      (∀ lm ∈ ls, ∃ v, plexGetMovie lm.title pm = some v) →
      PmMono pm (syncMoviesJfToPlexAux false jf ls pm).1 ∧
      (∀ t, DoneA jf pm t → DoneA jf (syncMoviesJfToPlexAux false jf ls pm).1 t) ∧
      (∀ x, IdPlayed pm x → IdPlayed (syncMoviesJfToPlexAux false jf ls pm).1 x) ∧
      (∀ lm ∈ ls, DoneA jf (syncMoviesJfToPlexAux false jf ls pm).1 lm.title ∧
        (∀ rm, jellyfin_get_movie_by_title lm.title jf = some rm → rm.played = true →
          lm.played = true ∨ IdPlayed (syncMoviesJfToPlexAux false jf ls pm).1 lm.id)) := by
  intro ls
  induction ls with
  | nil =>
    intro pm _
    exact ⟨pmMono_refl pm, fun t h => h, fun x h => h,
      fun lm hlm => absurd hlm (List.not_mem_nil _)⟩
  | cons lm rest ih =>
    intro pm hfind
    have hfindtail : ∀ lm2 ∈ rest, ∃ v, plexGetMovie lm2.title pm = some v :=
      fun lm2 h2 => hfind lm2 (List.mem_cons_of_mem _ h2)
    cases hjf : jellyfin_get_movie_by_title lm.title jf with
    | none =>
      simp only [syncMoviesJfToPlexAux, hjf]
      obtain ⟨hmono, hpresA, hpresI, hrest⟩ := ih pm hfindtail
      refine ⟨hmono, hpresA, hpresI, ?_⟩
      intro lm2 hlm2
      rcases List.mem_cons.mp hlm2 with heq | hmem
      · subst heq
        constructor
        · intro rm hrm
          rw [hjf] at hrm
          exact absurd hrm (by simp)
        · intro rm hrm
          rw [hjf] at hrm
          exact absurd hrm (by simp)
      · exact hrest lm2 hmem
    | some rm =>
      obtain ⟨v, hv⟩ := hfind lm (List.mem_cons_self _ _)
      simp only [syncMoviesJfToPlexAux, hjf, movie_update_addedat, hv,
        Bool.false_eq_true, if_false, reduceIte]
      by_cases hc : (decide (truncMin (truncMin rm.dateCreated) < truncMin v.addedAt - 43200)
          || decide (truncMin v.addedAt + 43200 < truncMin (truncMin rm.dateCreated))) = true
      · rw [if_pos hc]
        simp only []
        have hdoneA : DoneA jf (plexSetAddedAtFirst lm.title (truncMin rm.dateCreated) pm)
            lm.title := doneA_establish_set hjf
        by_cases hm : (rm.played && !lm.played) = true
        · rw [if_pos hm]
          simp only []
          have hfind2 : ∀ lm2 ∈ rest, ∃ w, plexGetMovie lm2.title
              (plexMarkMovie lm.id
                (plexSetAddedAtFirst lm.title (truncMin rm.dateCreated) pm)) = some w :=
            fun lm2 h2 => find_success_mark _ _ _
              (find_success_set _ _ _ _ (hfindtail lm2 h2))
          obtain ⟨hmono, hpresA, hpresI, hrest⟩ := ih _ hfind2
          have hmonostep : PmMono pm (plexMarkMovie lm.id
              (plexSetAddedAtFirst lm.title (truncMin rm.dateCreated) pm)) :=
            pmMono_trans _ _ _ (pmMono_set lm.title (truncMin rm.dateCreated) pm)
              (pmMono_mark lm.id _)
          refine ⟨pmMono_trans _ _ _ hmonostep hmono,
            fun t h => hpresA t (doneA_mark lm.id (doneA_set hjf h)),
            fun x h => hpresI x (idPlayed_mark x lm.id (idPlayed_set x _ _ h _ rfl)),
            ?_⟩
          intro lm2 hlm2
          rcases List.mem_cons.mp hlm2 with heq | hmem
          · subst heq
            refine ⟨hpresA _ (doneA_mark lm2.id hdoneA), ?_⟩
            intro rm2 _ _
            exact Or.inr (hpresI _ (idPlayed_mark_self lm2.id _))
          · exact hrest lm2 hmem
        · rw [if_neg hm]
          simp only []
          have hfind2 : ∀ lm2 ∈ rest, ∃ w, plexGetMovie lm2.title
              (plexSetAddedAtFirst lm.title (truncMin rm.dateCreated) pm) = some w :=
            fun lm2 h2 => find_success_set _ _ _ _ (hfindtail lm2 h2)
          obtain ⟨hmono, hpresA, hpresI, hrest⟩ := ih _ hfind2
          refine ⟨pmMono_trans _ _ _ (pmMono_set lm.title (truncMin rm.dateCreated) pm) hmono,
            fun t h => hpresA t (doneA_set hjf h),
            fun x h => hpresI x (idPlayed_set x _ _ h _ rfl),
            ?_⟩
          intro lm2 hlm2
          rcases List.mem_cons.mp hlm2 with heq | hmem
          · subst heq
            refine ⟨hpresA _ hdoneA, ?_⟩
            intro rm2 hrm2 hrp
            rw [hjf] at hrm2
            have hrm2e : rm2 = rm := (Option.some.inj hrm2).symm
            subst hrm2e
            left
            cases hlp : lm2.played with
            | true => rfl
            | false =>
              refine absurd ?_ hm
              rw [hrp, hlp]
              rfl
          · exact hrest lm2 hmem
      · rw [if_neg hc]
        simp only []
        have hdoneA : DoneA jf pm lm.title := by
          intro rm2 hrm2 v2 hv2
          rw [hjf] at hrm2
          cases Option.some.inj hrm2
          rw [hv] at hv2
          cases Option.some.inj hv2
          exact Bool.eq_false_iff.mpr fun hx => hc hx
        by_cases hm : (rm.played && !lm.played) = true
        · rw [if_pos hm]
          simp only []
          have hfind2 : ∀ lm2 ∈ rest, ∃ w, plexGetMovie lm2.title
              (plexMarkMovie lm.id pm) = some w :=
            fun lm2 h2 => find_success_mark _ _ _ (hfindtail lm2 h2)
          obtain ⟨hmono, hpresA, hpresI, hrest⟩ := ih _ hfind2
          refine ⟨pmMono_trans _ _ _ (pmMono_mark lm.id pm) hmono,
            fun t h => hpresA t (doneA_mark lm.id h),
            fun x h => hpresI x (idPlayed_mark x lm.id h),
            ?_⟩
          intro lm2 hlm2
          rcases List.mem_cons.mp hlm2 with heq | hmem
          · subst heq
            refine ⟨hpresA _ (doneA_mark lm2.id hdoneA), ?_⟩
            intro rm2 _ _
            exact Or.inr (hpresI _ (idPlayed_mark_self lm2.id _))
          · exact hrest lm2 hmem
        · rw [if_neg hm]
          simp only []
          obtain ⟨hmono, hpresA, hpresI, hrest⟩ := ih pm hfindtail
          refine ⟨hmono, hpresA, hpresI, ?_⟩
          intro lm2 hlm2
          rcases List.mem_cons.mp hlm2 with heq | hmem
          · subst heq
            refine ⟨hpresA _ hdoneA, ?_⟩
            intro rm2 hrm2 hrp
            rw [hjf] at hrm2
            have hrm2e : rm2 = rm := (Option.some.inj hrm2).symm
            subst hrm2e
            left
            cases hlp : lm2.played with
            | true => rfl
            | false =>
              refine absurd ?_ hm
              rw [hrp, hlp]
              rfl
          · exact hrest lm2 hmem

/-- A jellyfin→plex movie run over a converged state writes nothing. -/
theorem jfToPlex_second (jf : List JfMovie) :
    ∀ (ls : List PlexMovie) (pm : List PlexMovie),
      (∀ lm ∈ ls, DoneA jf pm lm.title) →
      (∀ lm ∈ ls, ∀ rm, jellyfin_get_movie_by_title lm.title jf = some rm →
        rm.played = true → lm.played = true) →
      (syncMoviesJfToPlexAux false jf ls pm).1 = pm ∧
        mutations (syncMoviesJfToPlexAux false jf ls pm).2 = [] := by
  intro ls
  induction ls with
  | nil => intro pm _ _; exact ⟨rfl, rfl⟩
  | cons lm rest ih =>
    intro pm hA hP
    have hAt : ∀ lm2 ∈ rest, DoneA jf pm lm2.title :=
      fun lm2 h2 => hA lm2 (List.mem_cons_of_mem _ h2)
    have hPt : ∀ lm2 ∈ rest, ∀ rm, jellyfin_get_movie_by_title lm2.title jf = some rm →
        rm.played = true → lm2.played = true :=
      fun lm2 h2 => hP lm2 (List.mem_cons_of_mem _ h2)
    cases hjf : jellyfin_get_movie_by_title lm.title jf with
    | none =>
      simp only [syncMoviesJfToPlexAux, hjf]
      have hrec := ih pm hAt hPt
      exact ⟨hrec.1, by simp only [mutations_cons_dec]; exact hrec.2⟩
    | some rm =>
      cases hv : plexGetMovie lm.title pm with
      | none =>
        simp only [syncMoviesJfToPlexAux, hjf, movie_update_addedat, hv]
        constructor <;> trivial
      | some v =>
        have hc : (decide (truncMin (truncMin rm.dateCreated) < truncMin v.addedAt - 43200)
            || decide (truncMin v.addedAt + 43200 < truncMin (truncMin rm.dateCreated)))
            = false := hA lm (List.mem_cons_self _ _) rm hjf v hv
        have hm : (rm.played && !lm.played) = false := by
          cases hrp : rm.played with
          | false => rfl
          | true =>
            rw [hP lm (List.mem_cons_self _ _) rm hjf hrp]
            rfl
        simp only [syncMoviesJfToPlexAux, hjf, movie_update_addedat, hv]
        rw [if_neg (by rw [hc]; exact fun hx => Bool.noConfusion hx)]
        simp only []
        rw [if_neg (by rw [hm]; exact fun hx => Bool.noConfusion hx)]
        simp only []
        have hrec := ih pm hAt hPt
        refine ⟨hrec.1, ?_⟩
        simp only [mutations_cons_dec, mutations_append, mutations_nil, List.nil_append]
        exact hrec.2


theorem epsMono_refl : ∀ l, EpsMono l l
  | [] => trivial
  | _ :: l => ⟨⟨rfl, rfl, rfl, rfl, fun h => h⟩, epsMono_refl l⟩

theorem psMono_refl : ∀ s, PsMono s s
  | [] => trivial
  | a :: l => ⟨⟨rfl, rfl, epsMono_refl a.episodes⟩, psMono_refl l⟩

theorem epsMono_trans : ∀ l0 l1 l2, EpsMono l0 l1 → EpsMono l1 l2 → EpsMono l0 l2 := by
  intro l0
  induction l0 with
  | nil =>
    intro l1 l2 h1 h2
    cases l1 with
    | nil => cases l2 with
      | nil => trivial
      | cons c t2 => exact h2.elim
    | cons b t1 => exact h1.elim
  | cons a t0 ih =>
    intro l1 l2 h1 h2
    cases l1 with
    | nil => exact h1.elim
    | cons b t1 =>
      cases l2 with
      | nil => exact h2.elim
      | cons c t2 =>
        obtain ⟨⟨b1, b2, b3, b4, b5⟩, ht1⟩ := h1
        obtain ⟨⟨c1, c2, c3, c4, c5⟩, ht2⟩ := h2
        exact ⟨⟨c1.trans b1, c2.trans b2, c3.trans b3, c4.trans b4,
          fun h => c5 (b5 h)⟩, ih t1 t2 ht1 ht2⟩

theorem psMono_trans : ∀ s0 s1 s2, PsMono s0 s1 → PsMono s1 s2 → PsMono s0 s2 := by
  intro s0
  induction s0 with
  | nil =>
    intro s1 s2 h1 h2
    cases s1 with
    | nil => cases s2 with
      | nil => trivial
      | cons c t2 => exact h2.elim
    | cons b t1 => exact h1.elim
  | cons a t0 ih =>
    intro s1 s2 h1 h2
    cases s1 with
    | nil => exact h1.elim
    | cons b t1 =>
      cases s2 with
      | nil => exact h2.elim
      | cons c t2 =>
        obtain ⟨⟨b1, b2, b3⟩, ht1⟩ := h1
        obtain ⟨⟨c1, c2, c3⟩, ht2⟩ := h2
        exact ⟨⟨c1.trans b1, c2.trans b2, epsMono_trans _ _ _ b3 c3⟩, ih t1 t2 ht1 ht2⟩

theorem epsMono_markMap (x : String) :
    ∀ l, EpsMono l (l.map fun e => if e.id == x then { e with played := true } else e) := by
  intro l
  induction l with
  | nil => trivial
  | cons e rest ih =>
    rw [List.map_cons]
    by_cases he : (e.id == x) = true
    · rw [if_pos he]
      exact ⟨⟨rfl, rfl, rfl, rfl, fun _ => rfl⟩, ih⟩
    · rw [if_neg he]
      exact ⟨⟨rfl, rfl, rfl, rfl, fun h => h⟩, ih⟩

theorem psMono_markEpisode (x : String) : ∀ s, PsMono s (plexMarkEpisode x s) := by
  intro s
  induction s with
  | nil => trivial
  | cons sh rest ih =>
    unfold plexMarkEpisode
    rw [List.map_cons]
    have hrec := ih
    unfold plexMarkEpisode at hrec
    exact ⟨⟨rfl, rfl, epsMono_markMap x sh.episodes⟩, hrec⟩

theorem psMono_getEpisodes (x : String) :
    ∀ s0 s', PsMono s0 s' → EpsMono (plexGetEpisodes x s0) (plexGetEpisodes x s') := by
  intro s0
  induction s0 with
  | nil =>
    intro s' h
    cases s' with
    | nil => trivial
    | cons b l2 => exact h.elim
  | cons a l1 ih =>
    intro s' h
    cases s' with
    | nil => exact h.elim
    | cons b l2 =>
      obtain ⟨⟨h1, h2, h3⟩, htail⟩ := h
      by_cases hx : (a.id == x) = true
      · have hxb : (b.id == x) = true := by rw [h1]; exact hx
        unfold plexGetEpisodes
        rw [find?_cons_true (fun s => s.id == x) a l1 hx,
          find?_cons_true (fun s => s.id == x) b l2 hxb]
        exact h3
      · have hxb : (b.id == x) = false := by
          rw [h1]
          exact Bool.eq_false_iff.mpr fun hc => hx hc
        have hxf : (a.id == x) = false := Bool.eq_false_iff.mpr fun hc => hx hc
        have hrec := ih l2 htail
        unfold plexGetEpisodes at hrec ⊢
        rw [find?_cons_false (fun s => s.id == x) a l1 hxf,
          find?_cons_false (fun s => s.id == x) b l2 hxb]
        exact hrec

theorem epsMono_member : ∀ l0 l', EpsMono l0 l' →
    ∀ b ∈ l', ∃ a ∈ l0, b.id = a.id ∧ b.seasonNumber = a.seasonNumber ∧
      b.index = a.index ∧ (a.played = true → b.played = true) := by
  intro l0
  induction l0 with
  | nil =>
    intro l' h b hb
    cases l' with
    | nil => exact absurd hb (List.not_mem_nil _)
    | cons c l2 => exact h.elim
  | cons a l1 ih =>
    intro l' h b hb
    cases l' with
    | nil => exact h.elim
    | cons c l2 =>
      obtain ⟨⟨h1, h2, h3, h4, h5⟩, htail⟩ := h
      rcases List.mem_cons.mp hb with heq | hmem
      · subst heq
        exact ⟨a, List.mem_cons_self _ _, h1, h3, h4, h5⟩
      · obtain ⟨a2, ha2, f1, f2, f3, f4⟩ := ih l2 htail b hmem
        exact ⟨a2, List.mem_cons_of_mem _ ha2, f1, f2, f3, f4⟩

theorem psMono_member : ∀ s0 s', PsMono s0 s' →
    ∀ b ∈ s', ∃ a ∈ s0, b.id = a.id ∧ b.title = a.title := by
  intro s0
  induction s0 with
  | nil =>
    intro s' h b hb
    cases s' with
    | nil => exact absurd hb (List.not_mem_nil _)
    | cons c l2 => exact h.elim
  | cons a l1 ih =>
    intro s' h b hb
    cases s' with
    | nil => exact h.elim
    | cons c l2 =>
      obtain ⟨⟨h1, h2, _⟩, htail⟩ := h
      rcases List.mem_cons.mp hb with heq | hmem
      · subst heq
        exact ⟨a, List.mem_cons_self _ _, h1, h2⟩
      · obtain ⟨a2, ha2, f1, f2⟩ := ih l2 htail b hmem
        exact ⟨a2, List.mem_cons_of_mem _ ha2, f1, f2⟩

theorem episodeMatch_congr {lep lep' : PlexEpisode} (h1 : lep'.index = lep.index)
    (h2 : lep'.seasonNumber = lep.seasonNumber) (reps : List JfEpisode) :
    episodeMatch lep' reps = episodeMatch lep reps := by
  unfold episodeMatch
  exact find?_congr _ _ (fun re => by rw [h1, h2]) reps


theorem epIdPlayedShows_mark_self (x : String) :
    ∀ shows, EpIdPlayedShows (plexMarkEpisode x shows) x := by
  intro shows s hs e he hid
  obtain ⟨s0, hs0, hseq⟩ := List.mem_map.mp hs
  subst hseq
  obtain ⟨e0, he0, heeq⟩ := List.mem_map.mp he
  by_cases hx : (e0.id == x) = true
  · rw [if_pos hx] at heeq
    rw [← heeq]
  · rw [if_neg hx] at heeq
    subst heeq
    exact absurd (beq_iff_eq.mpr hid) hx

theorem epIdPlayedShows_mark (x y : String) {shows : List PlexShow}
    (h : EpIdPlayedShows shows x) : EpIdPlayedShows (plexMarkEpisode y shows) x := by
  intro s hs e he hid
  obtain ⟨s0, hs0, hseq⟩ := List.mem_map.mp hs
  subst hseq
  obtain ⟨e0, he0, heeq⟩ := List.mem_map.mp he
  by_cases hy : (e0.id == y) = true
  · rw [if_pos hy] at heeq
    rw [← heeq]
  · rw [if_neg hy] at heeq
    subst heeq
    exact h s0 hs0 e0 he0 hid

theorem mem_getEpisodes {sid : String} {e : PlexEpisode} :
    ∀ shows : List PlexShow, e ∈ plexGetEpisodes sid shows → ∃ s ∈ shows, e ∈ s.episodes := by
  intro shows he
  unfold plexGetEpisodes at he
  cases hf : shows.find? fun s => s.id == sid with
  | none => rw [hf] at he; exact absurd he (by simp)
  | some s =>
    rw [hf] at he
    exact ⟨s, List.mem_of_find?_eq_some hf, he⟩

/-- One show's jellyfin→plex episode loop: state evolution, preservation
of globally marked ids, and convergence of every processed episode. -/
theorem tvLoopJP_establish (reps : List JfEpisode) :
    ∀ (leps : List PlexEpisode) (shows : List PlexShow),
      PsMono shows (tvEpisodesJfToPlex false reps leps shows).1 ∧
      (∀ x, EpIdPlayedShows shows x →
        EpIdPlayedShows (tvEpisodesJfToPlex false reps leps shows).1 x) ∧
      (∀ lep ∈ leps, ∀ m, episodeMatch lep reps = some m → m.played = true →
        lep.played = true ∨ EpIdPlayedShows (tvEpisodesJfToPlex false reps leps shows).1 lep.id) := by
  intro leps
  induction leps with
  | nil =>
    intro shows
    exact ⟨psMono_refl shows, fun x h => h, fun lep hlep => absurd hlep (List.not_mem_nil _)⟩
  | cons lep rest ih =>
    intro shows
    simp only [tvEpisodesJfToPlex, Bool.false_eq_true, if_false, reduceIte]
    cases hm0 : episodeMatch lep reps with
    | none =>
      obtain ⟨hmono, hpres, hrest⟩ := ih shows
      refine ⟨hmono, hpres, ?_⟩
      intro lep2 hlep2
      rcases List.mem_cons.mp hlep2 with heq | hmem
      · subst heq
        intro m hm
        rw [hm0] at hm
        exact absurd hm (by simp)
      · exact hrest lep2 hmem
    | some m =>
      simp only []
      by_cases hc : (m.played && !lep.played) = true
      · rw [if_pos hc]
        obtain ⟨hmono, hpres, hrest⟩ := ih (plexMarkEpisode lep.id shows)
        refine ⟨psMono_trans _ _ _ (psMono_markEpisode lep.id shows) hmono,
          fun x h => hpres x (epIdPlayedShows_mark x lep.id h), ?_⟩
        intro lep2 hlep2
        rcases List.mem_cons.mp hlep2 with heq | hmem
        · subst heq
          intro m2 _ _
          exact Or.inr (hpres _ (epIdPlayedShows_mark_self lep2.id shows))
        · exact hrest lep2 hmem
      · rw [if_neg hc]
        obtain ⟨hmono, hpres, hrest⟩ := ih shows
        refine ⟨hmono, hpres, ?_⟩
        intro lep2 hlep2
        rcases List.mem_cons.mp hlep2 with heq | hmem
        · subst heq
          intro m2 hm2 hmp
          rw [hm0] at hm2
          have hm2e : m2 = m := (Option.some.inj hm2).symm
          subst hm2e
          left
          cases hlp : lep2.played with
          | true => rfl
          | false =>
            refine absurd ?_ hc
            rw [hmp, hlp]
            rfl
        · exact hrest lep2 hmem

/-- A jellyfin→plex episode loop over a converged snapshot writes
nothing. -/
theorem tvLoopJP_second (reps : List JfEpisode) :
    ∀ (leps : List PlexEpisode) (shows : List PlexShow),
      (∀ lep ∈ leps, ∀ m, episodeMatch lep reps = some m → m.played = true →
        lep.played = true) →
      (tvEpisodesJfToPlex false reps leps shows).1 = shows ∧
        mutations (tvEpisodesJfToPlex false reps leps shows).2 = [] := by
  intro leps
  induction leps with
  | nil => intro shows _; exact ⟨rfl, rfl⟩
  | cons lep rest ih =>
    intro shows h
    have htail : ∀ lep2 ∈ rest, ∀ m, episodeMatch lep2 reps = some m → m.played = true →
        lep2.played = true :=
      fun lep2 h2 => h lep2 (List.mem_cons_of_mem _ h2)
    simp only [tvEpisodesJfToPlex, Bool.false_eq_true, if_false, reduceIte]
    cases hm0 : episodeMatch lep reps with
    | none =>
      have hrec := ih shows htail
      exact ⟨hrec.1, by
        simp only [decisions_append, mutations_append, mutations_nil, List.nil_append]
        exact hrec.2⟩
    | some m =>
      simp only []
      have hc : (m.played && !lep.played) = false := by
        cases hmp : m.played with
        | false => rfl
        | true =>
          rw [h lep (List.mem_cons_self _ _) m hm0 hmp]
          rfl
      rw [if_neg (by rw [hc]; exact fun hx => Bool.noConfusion hx)]
      have hrec := ih shows htail
      exact ⟨hrec.1, by
        simp only [mutations_append, mutations_nil, List.nil_append]
        exact hrec.2⟩

/-- A real jellyfin→plex TV run converges every processed show's
episodes and preserves the evolution invariants. -/
theorem tvJP_establish (jshows : List JfShow) (jeps : List (String × List JfEpisode)) :
    ∀ (ls : List PlexShow) (shows : List PlexShow),
      PsMono shows (syncTvJfToPlexAux false jshows jeps ls shows).1 ∧
      (∀ x, EpIdPlayedShows shows x →
        EpIdPlayedShows (syncTvJfToPlexAux false jshows jeps ls shows).1 x) ∧
      (∀ lshow ∈ ls, ∀ rshow, jellyfin_get_tvshow_by_title lshow.title jshows = some rshow →
        ∀ lep ∈ plexGetEpisodes lshow.id (syncTvJfToPlexAux false jshows jeps ls shows).1,
        ∀ m, episodeMatch lep (jellyfin_get_episodes rshow.id jeps) = some m →
          m.played = true → lep.played = true) := by
  intro ls
  induction ls with
  | nil =>
    intro shows
    exact ⟨psMono_refl shows, fun x h => h, fun lshow hl => absurd hl (List.not_mem_nil _)⟩
  | cons lshow rest ih =>
    intro shows
    cases hjf : jellyfin_get_tvshow_by_title lshow.title jshows with
    | none =>
      simp only [syncTvJfToPlexAux, hjf]
      obtain ⟨hmono, hpres, hrest⟩ := ih shows
      refine ⟨hmono, hpres, ?_⟩
      intro ls2 hls2
      rcases List.mem_cons.mp hls2 with heq | hmem
      · subst heq
        intro rshow hrshow
        rw [hjf] at hrshow
        exact absurd hrshow (by simp)
      · exact hrest ls2 hmem
    | some rshow =>
      simp only [syncTvJfToPlexAux, hjf]
      obtain ⟨hLmono, hLpres, hLest⟩ := tvLoopJP_establish
        (jellyfin_get_episodes rshow.id jeps) (plexGetEpisodes lshow.id shows) shows
      obtain ⟨hmono, hpres, hrest⟩ := ih
        (tvEpisodesJfToPlex false (jellyfin_get_episodes rshow.id jeps)
          (plexGetEpisodes lshow.id shows) shows).1
      refine ⟨psMono_trans _ _ _ hLmono hmono,
        fun x h => hpres x (hLpres x h), ?_⟩
      intro ls2 hls2
      rcases List.mem_cons.mp hls2 with heq | hmem
      · subst heq
        intro rshow2 hrshow2
        rw [hjf] at hrshow2
        have hre : rshow2 = rshow := (Option.some.inj hrshow2).symm
        subst hre
        intro lep1 hlep1 m hm hmp
        have hfull : PsMono shows (syncTvJfToPlexAux false jshows jeps rest
            (tvEpisodesJfToPlex false (jellyfin_get_episodes rshow2.id jeps)
              (plexGetEpisodes ls2.id shows) shows).1).1 :=
          psMono_trans _ _ _ hLmono hmono
        have hcorr := psMono_getEpisodes ls2.id _ _ hfull
        obtain ⟨lep0, hlep0, f1, f2, f3, f4⟩ := epsMono_member _ _ hcorr lep1 hlep1
        have hm0 : episodeMatch lep0 (jellyfin_get_episodes rshow2.id jeps) = some m := by
          rw [← episodeMatch_congr f3 f2]
          exact hm
        rcases hLest lep0 hlep0 m hm0 hmp with hp | hip
        · exact f4 hp
        · have hipr := hpres _ hip
          obtain ⟨s1, hs1, hlep1s⟩ := mem_getEpisodes _ hlep1
          exact hipr s1 hs1 lep1 hlep1s f1
      · exact hrest ls2 hmem

/-- A jellyfin→plex TV run over a converged state writes nothing. -/
theorem tvJP_second (jshows : List JfShow) (jeps : List (String × List JfEpisode)) :
    ∀ (ls : List PlexShow) (shows : List PlexShow),
      (∀ lshow ∈ ls, ∀ rshow, jellyfin_get_tvshow_by_title lshow.title jshows = some rshow →
        ∀ lep ∈ plexGetEpisodes lshow.id shows,
        ∀ m, episodeMatch lep (jellyfin_get_episodes rshow.id jeps) = some m →
          m.played = true → lep.played = true) →
      (syncTvJfToPlexAux false jshows jeps ls shows).1 = shows ∧
        mutations (syncTvJfToPlexAux false jshows jeps ls shows).2 = [] := by
  intro ls
  induction ls with
  | nil => intro shows _; exact ⟨rfl, rfl⟩
  | cons lshow rest ih =>
    intro shows h
    have htail : ∀ ls2 ∈ rest, ∀ rshow,
        jellyfin_get_tvshow_by_title ls2.title jshows = some rshow →
        ∀ lep ∈ plexGetEpisodes ls2.id shows,
        ∀ m, episodeMatch lep (jellyfin_get_episodes rshow.id jeps) = some m →
          m.played = true → lep.played = true :=
      fun ls2 h2 => h ls2 (List.mem_cons_of_mem _ h2)
    cases hjf : jellyfin_get_tvshow_by_title lshow.title jshows with
    | none =>
      simp only [syncTvJfToPlexAux, hjf]
      have hrec := ih shows htail
      exact ⟨hrec.1, by simp only [mutations_cons_dec]; exact hrec.2⟩
    | some rshow =>
      simp only [syncTvJfToPlexAux, hjf]
      have hloop := tvLoopJP_second (jellyfin_get_episodes rshow.id jeps)
        (plexGetEpisodes lshow.id shows) shows
        (h lshow (List.mem_cons_self _ _) rshow hjf)
      rw [hloop.1]
      have hrec := ih shows htail
      refine ⟨hrec.1, ?_⟩
      simp only [mutations_cons_dec, mutations_append, hloop.2, List.nil_append]
      exact hrec.2


theorem jEpsMono_refl : ∀ l, JEpsMono l l
  | [] => trivial
  | _ :: l => ⟨⟨rfl, rfl, rfl, rfl, fun h => h⟩, jEpsMono_refl l⟩

theorem jepsMono_refl : ∀ j, JepsMono j j
  | [] => trivial
  | a :: l => ⟨⟨rfl, jEpsMono_refl a.2⟩, jepsMono_refl l⟩

theorem jEpsMono_trans : ∀ l0 l1 l2, JEpsMono l0 l1 → JEpsMono l1 l2 → JEpsMono l0 l2 := by
  intro l0
  induction l0 with
  | nil =>
    intro l1 l2 h1 h2
    cases l1 with
    | nil => cases l2 with
      | nil => trivial
      | cons c t2 => exact h2.elim
    | cons b t1 => exact h1.elim
  | cons a t0 ih =>
    intro l1 l2 h1 h2
    cases l1 with
    | nil => exact h1.elim
    | cons b t1 =>
      cases l2 with
      | nil => exact h2.elim
      | cons c t2 =>
        obtain ⟨⟨b1, b2, b3, b4, b5⟩, ht1⟩ := h1
        obtain ⟨⟨c1, c2, c3, c4, c5⟩, ht2⟩ := h2
        exact ⟨⟨c1.trans b1, c2.trans b2, c3.trans b3, c4.trans b4,
          fun h => c5 (b5 h)⟩, ih t1 t2 ht1 ht2⟩

theorem jepsMono_trans : ∀ j0 j1 j2, JepsMono j0 j1 → JepsMono j1 j2 → JepsMono j0 j2 := by
  intro j0
  induction j0 with
  | nil =>
    intro j1 j2 h1 h2
    cases j1 with
    | nil => cases j2 with
      | nil => trivial
      | cons c t2 => exact h2.elim
    | cons b t1 => exact h1.elim
  | cons a t0 ih =>
    intro j1 j2 h1 h2
    cases j1 with
    | nil => exact h1.elim
    | cons b t1 =>
      cases j2 with
      | nil => exact h2.elim
      | cons c t2 =>
        obtain ⟨⟨b1, b2⟩, ht1⟩ := h1
        obtain ⟨⟨c1, c2⟩, ht2⟩ := h2
        exact ⟨⟨c1.trans b1, jEpsMono_trans _ _ _ b2 c2⟩, ih t1 t2 ht1 ht2⟩

theorem jEpsMono_markMap (x : String) :
    ∀ l, JEpsMono l (l.map fun e => if e.id == x then { e with played := true } else e) := by
  intro l
  induction l with
  | nil => trivial
  | cons e rest ih =>
    rw [List.map_cons]
    by_cases he : (e.id == x) = true
    · rw [if_pos he]
      exact ⟨⟨rfl, rfl, rfl, rfl, fun _ => rfl⟩, ih⟩
    · rw [if_neg he]
      exact ⟨⟨rfl, rfl, rfl, rfl, fun h => h⟩, ih⟩

theorem jepsMono_markEpisode (x : String) : ∀ j, JepsMono j (jfMarkEpisode x j) := by
  intro j
  induction j with
  | nil => trivial
  | cons p rest ih =>
    unfold jfMarkEpisode
    rw [List.map_cons]
    have hrec := ih
    unfold jfMarkEpisode at hrec
    exact ⟨⟨rfl, jEpsMono_markMap x p.2⟩, hrec⟩

theorem jepsMono_getEpisodes (x : String) :
    ∀ j0 j', JepsMono j0 j' →
      JEpsMono (jellyfin_get_episodes x j0) (jellyfin_get_episodes x j') := by
  intro j0
  induction j0 with
  | nil =>
    intro j' h
    cases j' with
    | nil => trivial
    | cons b l2 => exact h.elim
  | cons a l1 ih =>
    intro j' h
    cases j' with
    | nil => exact h.elim
    | cons b l2 =>
      obtain ⟨⟨h1, h2⟩, htail⟩ := h
      by_cases hx : (a.1 == x) = true
      · have hxb : (b.1 == x) = true := by rw [h1]; exact hx
        unfold jellyfin_get_episodes
        rw [find?_cons_true (fun p => p.1 == x) a l1 hx,
          find?_cons_true (fun p => p.1 == x) b l2 hxb]
        exact h2
      · have hxb : (b.1 == x) = false := by
          rw [h1]
          exact Bool.eq_false_iff.mpr fun hc => hx hc
        have hxf : (a.1 == x) = false := Bool.eq_false_iff.mpr fun hc => hx hc
        have hrec := ih l2 htail
        unfold jellyfin_get_episodes at hrec ⊢
        rw [find?_cons_false (fun p => p.1 == x) a l1 hxf,
          find?_cons_false (fun p => p.1 == x) b l2 hxb]
        exact hrec

/-- Episode pairing along a monotone evolution of the searched remote
list: the match survives with the same id and a monotone played flag. -/
theorem episodeMatch_mono (lep : PlexEpisode) :
    ∀ l0 l', JEpsMono l0 l' →
      (episodeMatch lep l0 = none → episodeMatch lep l' = none) ∧
      (∀ m0, episodeMatch lep l0 = some m0 → ∃ m', episodeMatch lep l' = some m' ∧
        m'.id = m0.id ∧ (m0.played = true → m'.played = true)) := by
  intro l0
  induction l0 with
  | nil =>
    intro l' h
    cases l' with
    | nil => exact ⟨fun _ => rfl, by simp [episodeMatch]⟩
    | cons b l2 => exact h.elim
  | cons a l1 ih =>
    intro l' h
    cases l' with
    | nil => exact h.elim
    | cons b l2 =>
      obtain ⟨⟨h1, h2, h3, h4, h5⟩, htail⟩ := h
      by_cases hp : (a.indexNumber == lep.index && a.seasonNumber == lep.seasonNumber) = true
      · have hpb : (b.indexNumber == lep.index && b.seasonNumber == lep.seasonNumber) = true := by
          rw [h4, h3]; exact hp
        constructor
        · intro hn
          unfold episodeMatch at hn
          rw [find?_cons_true
            (fun re => re.indexNumber == lep.index && re.seasonNumber == lep.seasonNumber)
            a l1 hp] at hn
          exact absurd hn (by simp)
        · intro m0 hm0
          unfold episodeMatch at hm0 ⊢
          rw [find?_cons_true
            (fun re => re.indexNumber == lep.index && re.seasonNumber == lep.seasonNumber)
            a l1 hp] at hm0
          have hm0e : m0 = a := (Option.some.inj hm0).symm
          subst hm0e
          rw [find?_cons_true
            (fun re => re.indexNumber == lep.index && re.seasonNumber == lep.seasonNumber)
            b l2 hpb]
          exact ⟨b, rfl, h1, h5⟩
      · have hpb : (b.indexNumber == lep.index && b.seasonNumber == lep.seasonNumber)
            = false := by
          rw [h4, h3]
          exact Bool.eq_false_iff.mpr fun hc => hp hc
        have hpf : (a.indexNumber == lep.index && a.seasonNumber == lep.seasonNumber)
            = false := Bool.eq_false_iff.mpr fun hc => hp hc
        have hrec := ih l2 htail
        constructor
        · intro hn
          unfold episodeMatch at hn hrec ⊢
          rw [find?_cons_false
            (fun re => re.indexNumber == lep.index && re.seasonNumber == lep.seasonNumber)
            b l2 hpb]
          rw [find?_cons_false
            (fun re => re.indexNumber == lep.index && re.seasonNumber == lep.seasonNumber)
            a l1 hpf] at hn
          exact hrec.1 hn
        · intro m0 hm0
          unfold episodeMatch at hm0 hrec ⊢
          rw [find?_cons_false
            (fun re => re.indexNumber == lep.index && re.seasonNumber == lep.seasonNumber)
            a l1 hpf] at hm0
          rw [find?_cons_false
            (fun re => re.indexNumber == lep.index && re.seasonNumber == lep.seasonNumber)
            b l2 hpb]
          exact hrec.2 m0 hm0


theorem jEpIdPlayed_mark_self (x : String) :
    ∀ jeps, JEpIdPlayed (jfMarkEpisode x jeps) x := by
  intro jeps p hp e he hid
  obtain ⟨p0, hp0, hpeq⟩ := List.mem_map.mp hp
  subst hpeq
  obtain ⟨e0, he0, heeq⟩ := List.mem_map.mp he
  by_cases hx : (e0.id == x) = true
  · rw [if_pos hx] at heeq
    rw [← heeq]
  · rw [if_neg hx] at heeq
    subst heeq
    exact absurd (beq_iff_eq.mpr hid) hx

theorem jEpIdPlayed_mark (x y : String) {jeps : List (String × List JfEpisode)}
    (h : JEpIdPlayed jeps x) : JEpIdPlayed (jfMarkEpisode y jeps) x := by
  intro p hp e he hid
  obtain ⟨p0, hp0, hpeq⟩ := List.mem_map.mp hp
  subst hpeq
  obtain ⟨e0, he0, heeq⟩ := List.mem_map.mp he
  by_cases hy : (e0.id == y) = true
  · rw [if_pos hy] at heeq
    rw [← heeq]
  · rw [if_neg hy] at heeq
    subst heeq
    exact h p0 hp0 e0 he0 hid

theorem mem_jfGetEpisodes {sid : String} {e : JfEpisode} :
    ∀ jeps : List (String × List JfEpisode),
      e ∈ jellyfin_get_episodes sid jeps → ∃ p ∈ jeps, e ∈ p.2 := by
  intro jeps he
  unfold jellyfin_get_episodes at he
  cases hf : jeps.find? fun p => p.1 == sid with
  | none => rw [hf] at he; exact absurd he (by simp)
  | some p =>
    rw [hf] at he
    exact ⟨p, List.mem_of_find?_eq_some hf, he⟩

/-- One show's plex→jellyfin episode loop: state evolution, preservation
of globally marked ids, and convergence of every processed pairing. -/
theorem tvLoopPJ_establish (reps : List JfEpisode) :
    ∀ (leps : List PlexEpisode) (jeps : List (String × List JfEpisode)),
      JepsMono jeps (tvEpisodesPlexToJf false reps leps jeps).1 ∧
      (∀ x, JEpIdPlayed jeps x →
        JEpIdPlayed (tvEpisodesPlexToJf false reps leps jeps).1 x) ∧
      (∀ lep ∈ leps, ∀ m, episodeMatch lep reps = some m → lep.played = true →
        m.played = true ∨ JEpIdPlayed (tvEpisodesPlexToJf false reps leps jeps).1 m.id) := by
  intro leps
  induction leps with
  | nil =>
    intro jeps
    exact ⟨jepsMono_refl jeps, fun x h => h, fun lep hlep => absurd hlep (List.not_mem_nil _)⟩
  | cons lep rest ih =>
    intro jeps
    simp only [tvEpisodesPlexToJf, jellyfin_mark_episode_played,
      Bool.false_eq_true, if_false, reduceIte]
    cases hm0 : episodeMatch lep reps with
    | none =>
      obtain ⟨hmono, hpres, hrest⟩ := ih jeps
      refine ⟨hmono, hpres, ?_⟩
      intro lep2 hlep2
      rcases List.mem_cons.mp hlep2 with heq | hmem
      · subst heq
        intro m hm
        rw [hm0] at hm
        exact absurd hm (by simp)
      · exact hrest lep2 hmem
    | some m =>
      simp only []
      by_cases hc : (lep.played && !m.played) = true
      · rw [if_pos hc]
        obtain ⟨hmono, hpres, hrest⟩ := ih (jfMarkEpisode m.id jeps)
        refine ⟨jepsMono_trans _ _ _ (jepsMono_markEpisode m.id jeps) hmono,
          fun x h => hpres x (jEpIdPlayed_mark x m.id h), ?_⟩
        intro lep2 hlep2
        rcases List.mem_cons.mp hlep2 with heq | hmem
        · subst heq
          intro m2 hm2 _
          rw [hm0] at hm2
          have hm2e : m2 = m := (Option.some.inj hm2).symm
          subst hm2e
          exact Or.inr (hpres _ (jEpIdPlayed_mark_self m2.id jeps))
        · exact hrest lep2 hmem
      · rw [if_neg hc]
        obtain ⟨hmono, hpres, hrest⟩ := ih jeps
        refine ⟨hmono, hpres, ?_⟩
        intro lep2 hlep2
        rcases List.mem_cons.mp hlep2 with heq | hmem
        · subst heq
          intro m2 hm2 hlp
          rw [hm0] at hm2
          have hm2e : m2 = m := (Option.some.inj hm2).symm
          subst hm2e
          left
          cases hmp : m2.played with
          | true => rfl
          | false =>
            refine absurd ?_ hc
            rw [hlp, hmp]
            rfl
        · exact hrest lep2 hmem

/-- A plex→jellyfin episode loop over a converged snapshot writes
nothing. -/
theorem tvLoopPJ_second (reps : List JfEpisode) :
    ∀ (leps : List PlexEpisode) (jeps : List (String × List JfEpisode)),
      (∀ lep ∈ leps, ∀ m, episodeMatch lep reps = some m → lep.played = true →
        m.played = true) →
      (tvEpisodesPlexToJf false reps leps jeps).1 = jeps ∧
        mutations (tvEpisodesPlexToJf false reps leps jeps).2 = [] := by
  intro leps
  induction leps with
  | nil => intro jeps _; exact ⟨rfl, rfl⟩
  | cons lep rest ih =>
    intro jeps h
    have htail : ∀ lep2 ∈ rest, ∀ m, episodeMatch lep2 reps = some m → lep2.played = true →
        m.played = true :=
      fun lep2 h2 => h lep2 (List.mem_cons_of_mem _ h2)
    simp only [tvEpisodesPlexToJf, jellyfin_mark_episode_played,
      Bool.false_eq_true, if_false, reduceIte]
    cases hm0 : episodeMatch lep reps with
    | none =>
      have hrec := ih jeps htail
      exact ⟨hrec.1, by
        simp only [mutations_append, mutations_nil, List.nil_append]
        exact hrec.2⟩
    | some m =>
      simp only []
      have hc : (lep.played && !m.played) = false := by
        cases hlp : lep.played with
        | false => rfl
        | true =>
          rw [h lep (List.mem_cons_self _ _) m hm0 hlp]
          rfl
      rw [if_neg (by rw [hc]; exact fun hx => Bool.noConfusion hx)]
      have hrec := ih jeps htail
      exact ⟨hrec.1, by
        simp only [mutations_append, mutations_nil, List.nil_append]
        exact hrec.2⟩

/-- A real plex→jellyfin TV run converges every processed pairing
against the final Jellyfin state. -/
theorem tvPJ_establish (jshows : List JfShow) (pshows : List PlexShow) :
    ∀ (ls : List PlexShow) (jeps : List (String × List JfEpisode)),
      JepsMono jeps (syncTvPlexToJfAux false jshows pshows ls jeps).1 ∧
      (∀ x, JEpIdPlayed jeps x →
        JEpIdPlayed (syncTvPlexToJfAux false jshows pshows ls jeps).1 x) ∧
      (∀ lshow ∈ ls, ∀ rshow, jellyfin_get_tvshow_by_title lshow.title jshows = some rshow →
        ∀ lep ∈ plexGetEpisodes lshow.id pshows,
        ∀ m, episodeMatch lep (jellyfin_get_episodes rshow.id
            (syncTvPlexToJfAux false jshows pshows ls jeps).1) = some m →
          lep.played = true → m.played = true) := by
  intro ls
  induction ls with
  | nil =>
    intro jeps
    exact ⟨jepsMono_refl jeps, fun x h => h, fun lshow hl => absurd hl (List.not_mem_nil _)⟩
  | cons lshow rest ih =>
    intro jeps
    cases hjf : jellyfin_get_tvshow_by_title lshow.title jshows with
    | none =>
      simp only [syncTvPlexToJfAux, hjf]
      obtain ⟨hmono, hpres, hrest⟩ := ih jeps
      refine ⟨hmono, hpres, ?_⟩
      intro ls2 hls2
      rcases List.mem_cons.mp hls2 with heq | hmem
      · subst heq
        intro rshow hrshow
        rw [hjf] at hrshow
        exact absurd hrshow (by simp)
      · exact hrest ls2 hmem
    | some rshow =>
      simp only [syncTvPlexToJfAux, hjf]
      obtain ⟨hLmono, hLpres, hLest⟩ := tvLoopPJ_establish
        (jellyfin_get_episodes rshow.id jeps) (plexGetEpisodes lshow.id pshows) jeps
      obtain ⟨hmono, hpres, hrest⟩ := ih
        (tvEpisodesPlexToJf false (jellyfin_get_episodes rshow.id jeps)
          (plexGetEpisodes lshow.id pshows) jeps).1
      refine ⟨jepsMono_trans _ _ _ hLmono hmono,
        fun x h => hpres x (hLpres x h), ?_⟩
      intro ls2 hls2
      rcases List.mem_cons.mp hls2 with heq | hmem
      · subst heq
        intro rshow2 hrshow2
        rw [hjf] at hrshow2
        have hre : rshow2 = rshow := (Option.some.inj hrshow2).symm
        subst hre
        intro lep hlep m1 hm1 hlp
        have hfull : JepsMono jeps (syncTvPlexToJfAux false jshows pshows rest
            (tvEpisodesPlexToJf false (jellyfin_get_episodes rshow2.id jeps)
              (plexGetEpisodes ls2.id pshows) jeps).1).1 :=
          jepsMono_trans _ _ _ hLmono hmono
        have hcorr := jepsMono_getEpisodes rshow2.id _ _ hfull
        have hmatch := episodeMatch_mono lep _ _ hcorr
        cases hm00 : episodeMatch lep (jellyfin_get_episodes rshow2.id jeps) with
        | none =>
          rw [hmatch.1 hm00] at hm1
          exact absurd hm1 (by simp)
        | some m0 =>
          obtain ⟨m', hm', f1, f2⟩ := hmatch.2 m0 hm00
          rw [hm'] at hm1
          have hm1e : m1 = m' := (Option.some.inj hm1).symm
          subst hm1e
          rcases hLest lep hlep m0 hm00 hlp with hp | hip
          · exact f2 hp
          · have hipr := hpres _ hip
            obtain ⟨p1, hp1, hm1p⟩ := mem_jfGetEpisodes _
              (List.mem_of_find?_eq_some hm')
            exact hipr p1 hp1 m1 hm1p f1
      · exact hrest ls2 hmem

/-- A plex→jellyfin TV run over a converged state writes nothing. -/
theorem tvPJ_second (jshows : List JfShow) (pshows : List PlexShow) :
    ∀ (ls : List PlexShow) (jeps : List (String × List JfEpisode)),
      (∀ lshow ∈ ls, ∀ rshow, jellyfin_get_tvshow_by_title lshow.title jshows = some rshow →
        ∀ lep ∈ plexGetEpisodes lshow.id pshows,
        ∀ m, episodeMatch lep (jellyfin_get_episodes rshow.id jeps) = some m →
          lep.played = true → m.played = true) →
      (syncTvPlexToJfAux false jshows pshows ls jeps).1 = jeps ∧
        mutations (syncTvPlexToJfAux false jshows pshows ls jeps).2 = [] := by
  intro ls
  induction ls with
  | nil => intro jeps _; exact ⟨rfl, rfl⟩
  | cons lshow rest ih =>
    intro jeps h
    have htail : ∀ ls2 ∈ rest, ∀ rshow,
        jellyfin_get_tvshow_by_title ls2.title jshows = some rshow →
        ∀ lep ∈ plexGetEpisodes ls2.id pshows,
        ∀ m, episodeMatch lep (jellyfin_get_episodes rshow.id jeps) = some m →
          lep.played = true → m.played = true :=
      fun ls2 h2 => h ls2 (List.mem_cons_of_mem _ h2)
    cases hjf : jellyfin_get_tvshow_by_title lshow.title jshows with
    | none =>
      simp only [syncTvPlexToJfAux, hjf]
      have hrec := ih jeps htail
      exact ⟨hrec.1, by simp only [mutations_cons_dec]; exact hrec.2⟩
    | some rshow =>
      simp only [syncTvPlexToJfAux, hjf]
      have hloop := tvLoopPJ_second (jellyfin_get_episodes rshow.id jeps)
        (plexGetEpisodes lshow.id pshows) jeps
        (h lshow (List.mem_cons_self _ _) rshow hjf)
      rw [hloop.1]
      have hrec := ih jeps htail
      refine ⟨hrec.1, ?_⟩
      simp only [mutations_cons_dec, mutations_append, hloop.2, List.nil_append]
      exact hrec.2

theorem plexGetMovie_self_mem {pm : List PlexMovie} {lm : PlexMovie} (h : lm ∈ pm) :
    ∃ v, plexGetMovie lm.title pm = some v := by
  have hs : (plexGetMovie lm.title pm).isSome := by
    unfold plexGetMovie
    rw [List.find?_isSome]
    exact ⟨lm, h, beq_iff_eq.mpr rfl⟩
  exact Option.isSome_iff_exists.mp hs

/-- C3: re-running any watched-sync direction on the state left behind
by a completed real run of the same direction performs zero mutations —
no mark and no timestamp write survives into the second run, for all
four directions and every starting catalog. -/
theorem C3_second_run_zero_mutations (c : Catalogs) :
    mutations (syncMoviesJfToPlex false (syncMoviesJfToPlex false c).1).2 = [] ∧
    mutations (syncMoviesPlexToJf false (syncMoviesPlexToJf false c).1).2 = [] ∧
    mutations (syncTvJfToPlex false (syncTvJfToPlex false c).1).2 = [] ∧
    mutations (syncTvPlexToJf false (syncTvPlexToJf false c).1).2 = [] := by
  refine ⟨?_, ?_, ?_, ?_⟩
  · show mutations (syncMoviesJfToPlexAux false c.jfMovies
        (syncMoviesJfToPlexAux false c.jfMovies c.plexMovies c.plexMovies).1
        (syncMoviesJfToPlexAux false c.jfMovies c.plexMovies c.plexMovies).1).2 = []
    obtain ⟨hmono, hpresA, hpresI, hitems⟩ := jfToPlex_establish c.jfMovies c.plexMovies
      c.plexMovies (fun lm hlm => plexGetMovie_self_mem hlm)
    refine (jfToPlex_second c.jfMovies _ _ ?_ ?_).2
    · intro lm1 hlm1
      obtain ⟨a, ha, hid, htitle, hpl⟩ := pmMono_member _ _ hmono lm1 hlm1
      rw [htitle]
      exact (hitems a ha).1
    · intro lm1 hlm1 rm hrm hrp
      obtain ⟨a, ha, hid, htitle, hpl⟩ := pmMono_member _ _ hmono lm1 hlm1
      rw [htitle] at hrm
      rcases (hitems a ha).2 rm hrm hrp with hp | hip
      · exact hpl hp
      · exact hip lm1 hlm1 hid
  · show mutations (syncMoviesPlexToJfAux false c.plexMovies
        (syncMoviesPlexToJfAux false c.plexMovies c.jfMovies).1).2 = []
    exact (plexToJf_second c.plexMovies _
      (fun lm hlm => (plexToJf_establish c.plexMovies c.jfMovies).2 lm hlm)).2
  · show mutations (syncTvJfToPlexAux false c.jfShows c.jfEpisodes
        (syncTvJfToPlexAux false c.jfShows c.jfEpisodes c.plexShows c.plexShows).1
        (syncTvJfToPlexAux false c.jfShows c.jfEpisodes c.plexShows c.plexShows).1).2 = []
    obtain ⟨hmono, hpres, hitems⟩ := tvJP_establish c.jfShows c.jfEpisodes
      c.plexShows c.plexShows
    refine (tvJP_second c.jfShows c.jfEpisodes _ _ ?_).2
    intro ls1 hls1 rshow hrshow lep hlep m hm hmp
    obtain ⟨a, ha, hid, htitle⟩ := psMono_member _ _ hmono ls1 hls1
    rw [htitle] at hrshow
    rw [hid] at hlep
    exact hitems a ha rshow hrshow lep hlep m hm hmp
  · show mutations (syncTvPlexToJfAux false c.jfShows c.plexShows c.plexShows
        (syncTvPlexToJfAux false c.jfShows c.plexShows c.plexShows c.jfEpisodes).1).2 = []
    obtain ⟨hmono, hpres, hitems⟩ := tvPJ_establish c.jfShows c.plexShows c.plexShows
      c.jfEpisodes
    exact (tvPJ_second c.jfShows c.plexShows c.plexShows _ hitems).2

/-- Counterexample to the literal C2 claim: with two Plex movies whose
titles alias the same Jellyfin movie, the real run reports fewer mark
decisions than the dry run, because the first real mark flips the shared
remote played flag before the second item is checked. -/
theorem C2_counterexample :
    decisions (syncMoviesPlexToJf false
        ⟨[⟨"p1", "A", true, 0⟩, ⟨"p2", "A", true, 0⟩],
          [⟨"j1", "a", false, 0⟩], [], [], []⟩).2
      ≠ decisions (syncMoviesPlexToJf true
        ⟨[⟨"p1", "A", true, 0⟩, ⟨"p2", "A", true, 0⟩],
          [⟨"j1", "a", false, 0⟩], [], [], []⟩).2 := by
  decide

/-- C2 (amended): every sync direction under dry-run leaves the catalog
state unchanged and issues zero mutating calls, unconditionally; and it
reports the same decisions as the real run provided the snapshot is
alias-free — local movie titles pairwise distinct ignoring case, remote
movie ids unique, and the per-show episode id sets pairwise disjoint on
each side.  (The literal claim drops these provisos; see
`C2_counterexample`.) -/
theorem C2_dry_run_parity (c : Catalogs) :
    ((syncMoviesJfToPlex true c).1 = c ∧ mutations (syncMoviesJfToPlex true c).2 = []) ∧
    ((syncMoviesPlexToJf true c).1 = c ∧ mutations (syncMoviesPlexToJf true c).2 = []) ∧
    ((syncTvJfToPlex true c).1 = c ∧ mutations (syncTvJfToPlex true c).2 = []) ∧
    ((syncTvPlexToJf true c).1 = c ∧ mutations (syncTvPlexToJf true c).2 = []) ∧
    ((c.plexMovies.map fun m => strLower m.title).Nodup →
      (c.jfMovies.map JfMovie.id).Nodup →
      c.plexShows.Pairwise (fun s1 s2 => ∀ e ∈ plexGetEpisodes s1.id c.plexShows,
        ∀ f ∈ plexGetEpisodes s2.id c.plexShows, e.id ≠ f.id) →
      c.plexShows.Pairwise (fun s1 s2 => ∀ r1 r2,
        jellyfin_get_tvshow_by_title s1.title c.jfShows = some r1 →
        jellyfin_get_tvshow_by_title s2.title c.jfShows = some r2 →
        ∀ e ∈ jellyfin_get_episodes r1.id c.jfEpisodes,
        ∀ f ∈ jellyfin_get_episodes r2.id c.jfEpisodes, e.id ≠ f.id) →
      decisions (syncMoviesJfToPlex false c).2 = decisions (syncMoviesJfToPlex true c).2 ∧
      decisions (syncMoviesPlexToJf false c).2 = decisions (syncMoviesPlexToJf true c).2 ∧
      decisions (syncTvJfToPlex false c).2 = decisions (syncTvJfToPlex true c).2 ∧
      decisions (syncTvPlexToJf false c).2 = decisions (syncTvPlexToJf true c).2) := by
  refine ⟨⟨?_, ?_⟩, ⟨?_, ?_⟩, ⟨?_, ?_⟩, ⟨?_, ?_⟩, ?_⟩
  · show ({ c with plexMovies :=
        (syncMoviesJfToPlexAux true c.jfMovies c.plexMovies c.plexMovies).1 } : Catalogs) = c
    rw [(jfToPlex_dry c.jfMovies c.plexMovies c.plexMovies).1]
  · exact (jfToPlex_dry c.jfMovies c.plexMovies c.plexMovies).2
  · show ({ c with jfMovies :=
        (syncMoviesPlexToJfAux true c.plexMovies c.jfMovies).1 } : Catalogs) = c
    rw [(plexToJf_dry c.plexMovies c.jfMovies).1]
  · exact (plexToJf_dry c.plexMovies c.jfMovies).2
  · show ({ c with plexShows :=
        (syncTvJfToPlexAux true c.jfShows c.jfEpisodes c.plexShows c.plexShows).1 } : Catalogs) = c
    rw [(tvJfToPlex_dry c.jfShows c.jfEpisodes c.plexShows c.plexShows).1]
  · exact (tvJfToPlex_dry c.jfShows c.jfEpisodes c.plexShows c.plexShows).2
  · show ({ c with jfEpisodes :=
        (syncTvPlexToJfAux true c.jfShows c.plexShows c.plexShows c.jfEpisodes).1 } : Catalogs) = c
    rw [(tvPlexToJf_dry c.jfShows c.plexShows c.plexShows c.jfEpisodes).1]
  · exact (tvPlexToJf_dry c.jfShows c.plexShows c.plexShows c.jfEpisodes).2
  · intro h1 h2 h3 h4
    refine ⟨?_, ?_, ?_, ?_⟩
    · exact decisions_jfToPlex c.jfMovies c.plexMovies c.plexMovies [] c.plexMovies
        (pmRel_refl [] c.plexMovies) (fun lm _ => List.not_mem_nil _) h1
    · exact decisions_plexToJf c.jfMovies h2 c.plexMovies [] c.jfMovies
        (jfRel_refl [] c.jfMovies) (fun lm _ => List.not_mem_nil _) h1
    · exact decisions_tvJfToPlex c.jfShows c.jfEpisodes c.plexShows c.plexShows [] c.plexShows
        (psRel_refl [] c.plexShows) (fun s _ e _ => List.not_mem_nil _) h3
    · exact decisions_tvPlexToJf c.jfShows c.plexShows c.jfEpisodes c.plexShows [] c.jfEpisodes
        (jepsRel_refl [] c.jfEpisodes) (fun s _ r _ e _ => List.not_mem_nil _) h4

theorem C2_dry_run_parity_witness :
    decisions (syncMoviesPlexToJf false
        ⟨[⟨"p1", "A", true, 0⟩], [⟨"j1", "a", false, 0⟩],
          [⟨"ps1", "S", [⟨"pe1", "E1", 1, 1, false⟩]⟩], [⟨"js1", "s"⟩],
          [("js1", [⟨"je1", "e1", 1, 1, true⟩])]⟩).2
      = decisions (syncMoviesPlexToJf true
        ⟨[⟨"p1", "A", true, 0⟩], [⟨"j1", "a", false, 0⟩],
          [⟨"ps1", "S", [⟨"pe1", "E1", 1, 1, false⟩]⟩], [⟨"js1", "s"⟩],
          [("js1", [⟨"je1", "e1", 1, 1, true⟩])]⟩).2 :=
  ((C2_dry_run_parity
      ⟨[⟨"p1", "A", true, 0⟩], [⟨"j1", "a", false, 0⟩],
        [⟨"ps1", "S", [⟨"pe1", "E1", 1, 1, false⟩]⟩], [⟨"js1", "s"⟩],
        [("js1", [⟨"je1", "e1", 1, 1, true⟩])]⟩).2.2.2.2
    (by decide) (by decide)
    (List.Pairwise.cons (fun b hb => absurd hb (List.not_mem_nil _)) List.Pairwise.nil)
    (List.Pairwise.cons (fun b hb => absurd hb (List.not_mem_nil _)) List.Pairwise.nil)).2.1

end PlexJf
